import Mathlib

/-!
Verification development for `rename_keva_to_respire.py`, a one-shot
directory-migration utility that rewrites a literal token inside file
contents and then renames matching files and directories.

The development is a shallow embedding of the script:

* strings are `List Char`; `str.replace` / `in` / `startswith` / `endswith`
  are embedded as executable functions on character lists;
* the filesystem is an inductive tree of named files and directories;
  paths are lists of name components, relative to the processed root;
* `os.walk(root, topdown=False)` is embedded faithfully, in particular the
  fact that with `topdown=False` the in-place mutation of `dirs` at the top
  of the loop body cannot prune descent (children are generated before
  their parent is yielded), so every directory is visited;
* the three passes of `process_directory` (content rewrite, file rename,
  directory rename) are folds over the pre-collected path snapshots,
  threading a state holding the tree, the printed log and the counters;
* per-item failures (undecodable/unreadable file, unwritable file, rename
  target collision) are modelled by flags on file data and by an explicit
  collision check in the rename operation; each failure produces the
  diagnostic message the script prints and leaves the tree unchanged.
  The spec declares the behaviour on an existing rename target
  unspecified ("likely an OS-level error surfaced as a generic per-item
  failure"), which is how it is modelled here: the rename fails and the
  `except` branch of `rename_item` reports it.
-/

/-! ### Strings

Tokens, names and file contents are lists of characters.  The spec's data
model stipulates that both tokens are non-empty strings, and the embedding
of `str.replace` below guards on a non-empty search token (Python's exotic
behaviour for an empty search string is outside the specified domain).
-/

abbrev Name := List Char

abbrev FsPath := List Name

/-- Embedding of Python `s.replace(old, new)` (leftmost, non-overlapping,
each replacement consuming the matched span), with an explicit fuel
argument to make the definition structurally recursive; `fuel ≥ s.length`
makes it total on the input. -/
def replaceFuel (old new : Name) : Nat → Name → Name
  | 0, s => s
  | fuel + 1, s =>
    match s with
    | [] => []
    | c :: rest =>
      if !old.isEmpty && old.isPrefixOf s then
        new ++ replaceFuel old new fuel (s.drop old.length)
      else
        c :: replaceFuel old new fuel rest

/-- Embedding of Python `s.replace(old, new)` for a non-empty `old`. -/
def pyReplace (old new s : Name) : Name := replaceFuel old new s.length s

/-- Number of leftmost non-overlapping occurrences of `old` in `s`
(the count of spans `s.replace` substitutes), fuelled like `replaceFuel`. -/
def countFuel (old : Name) : Nat → Name → Nat
  | 0, _ => 0
  | fuel + 1, s =>
    match s with
    | [] => 0
    | _ :: rest =>
      if !old.isEmpty && old.isPrefixOf s then
        1 + countFuel old fuel (s.drop old.length)
      else
        countFuel old fuel rest

/-- Occurrence count of `old` in `s` (leftmost, non-overlapping). -/
def countOccs (old s : Name) : Nat := countFuel old s.length s

/-- Embedding of Python `old in s` (substring test). -/
def containsTok (old : Name) : Name → Bool
  | [] => old.isEmpty
  | c :: rest => old.isPrefixOf (c :: rest) || containsTok old rest

/-- Embedding of Python `name.startswith('.')`. -/
def startsWithDot : Name → Bool
  | [] => false
  | c :: _ => c == '.'

/-! ### The filesystem tree -/

/-- What the script can observe about a file: its text content, whether
opening it for reading succeeds (a `UnicodeDecodeError` or a
`PermissionError` on the read is `readOk = false`), and whether opening it
for writing succeeds (`PermissionError` on the write is
`writeOk = false`). -/
structure FileData where
  content : Name
  readOk : Bool
  writeOk : Bool
deriving DecidableEq, Repr

/-- A directory tree: files carry data, directories carry children.
The processed root directory is represented by its name together with its
list of children; paths are relative to the root. -/
inductive Entry : Type where
  | file : Name → FileData → Entry
  | dir  : Name → List Entry → Entry

def entryName : Entry → Name
  | .file n _ => n
  | .dir n _ => n

def setEntryName : Entry → Name → Entry
  | .file _ d, n => .file n d
  | .dir _ cs, n => .dir n cs

def isFileEntry : Entry → Bool
  | .file _ _ => true
  | .dir _ _ => false

mutual

def beqEntry : Entry → Entry → Bool
  | .file n d, .file n' d' => decide (n = n') && decide (d = d')
  | .dir n cs, .dir n' cs' => decide (n = n') && beqEntries cs cs'
  | _, _ => false

def beqEntries : List Entry → List Entry → Bool
  | [], [] => true
  | c :: cs, c' :: cs' => beqEntry c c' && beqEntries cs cs'
  | _, _ => false

end

mutual

theorem beqEntry_iff : ∀ a b : Entry, beqEntry a b = true ↔ a = b
  | .file _ _, .file _ _ => by simp [beqEntry]
  | .dir _ cs, .dir _ cs' => by simp [beqEntry, beqEntries_iff cs cs']
  | .file _ _, .dir _ _ => by simp [beqEntry]
  | .dir _ _, .file _ _ => by simp [beqEntry]

theorem beqEntries_iff : ∀ a b : List Entry, beqEntries a b = true ↔ a = b
  | [], [] => by simp [beqEntries]
  | c :: cs, c' :: cs' => by simp [beqEntries, beqEntry_iff c c', beqEntries_iff cs cs']
  | [], _ :: _ => by simp [beqEntries]
  | _ :: _, [] => by simp [beqEntries]

end

instance : DecidableEq Entry := fun a b => decidable_of_iff (beqEntry a b = true) (beqEntry_iff a b)

/-! ### Filtering rules (lines 56–60 of the script) -/

/-- `['.pyc', '.pyo', '.exe', '.dll', '.so', '.dylib']` (line 60). -/
def binaryExts : List Name :=
  [".pyc".toList, ".pyo".toList, ".exe".toList, ".dll".toList, ".so".toList, ".dylib".toList]

/-- Embedding of `file.endswith(('.pyc', ...))`. -/
def hasBinaryExt (n : Name) : Bool := binaryExts.any fun e => e.isSuffixOf n

/-- `['node_modules', '__pycache__', 'venv', '.git']` (line 56). -/
def excludedDirNames : List Name :=
  ["node_modules".toList, "__pycache__".toList, "venv".toList, ".git".toList]

/-- A file name is collected into `all_files` iff it neither starts with a
dot nor ends in a binary extension (line 60). -/
def keepFileName (n : Name) : Bool := !startsWithDot n && !hasBinaryExt n

/-- A directory name survives the `dirs[:] = ...` filter (line 56). -/
def keepDirName (n : Name) : Bool := !startsWithDot n && !excludedDirNames.contains n

/-! ### The traversal snapshot (lines 50–64)

`os.walk(root_path, topdown=False)` yields one `(root, dirs, files)` tuple
per directory, children before parents.  Because the traversal is
bottom-up, reassigning `dirs[:]` inside the loop body has no pruning
effect: by the time a tuple is yielded, its subdirectories have already
been walked.  The filter therefore only restricts which subdirectory
names are appended to `all_dirs`; every directory, hidden or excluded or
not, is visited and contributes its files to `all_files`. -/

structure WalkFrame where
  path : FsPath
  dirNames : List Name
  fileNames : List Name

def dirNamesOf (cs : List Entry) : List Name :=
  cs.filterMap fun e => match e with
    | .dir n _ => some n
    | _ => none

def fileNamesOf (cs : List Entry) : List Name :=
  cs.filterMap fun e => match e with
    | .file n _ => some n
    | _ => none

mutual

/-- Frames contributed by one entry, bottom-up; `p` is the path of the
directory containing the entry. -/
def walkEntry (p : FsPath) : Entry → List WalkFrame
  | .file _ _ => []
  | .dir n cs => walkEntries (p ++ [n]) cs ++ [⟨p ++ [n], dirNamesOf cs, fileNamesOf cs⟩]

def walkEntries (p : FsPath) : List Entry → List WalkFrame
  | [] => []
  | c :: cs => walkEntry p c ++ walkEntries p cs

end

/-- `os.walk(root_path, topdown=False)` over the root's children; the
root's own frame is yielded last. -/
def walkRoot (cs : List Entry) : List WalkFrame :=
  walkEntries [] cs ++ [⟨[], dirNamesOf cs, fileNamesOf cs⟩]

def frameFilePaths (fr : WalkFrame) : List FsPath :=
  (fr.fileNames.filter keepFileName).map fun m => fr.path ++ [m]

def frameDirPaths (fr : WalkFrame) : List FsPath :=
  (fr.dirNames.filter keepDirName).map fun m => fr.path ++ [m]

/-- `all_files` (lines 58–61). -/
def collectFiles (cs : List Entry) : List FsPath :=
  ((walkRoot cs).map frameFilePaths).flatten

/-- `all_dirs` (lines 63–64). -/
def collectDirs (cs : List Entry) : List FsPath :=
  ((walkRoot cs).map frameDirPaths).flatten

/-! ### Filesystem operations -/

/-- Last path component (`FsPath(...).name`); snapshot paths are
non-empty. -/
def lastName (p : FsPath) : Name := p.getLastD []

def findEntry (es : List Entry) (n : Name) : Option Entry :=
  es.find? fun e => decide (entryName e = n)

/-- Resolve a (relative, non-empty) path in the tree. -/
def lookupEntry : List Entry → FsPath → Option Entry
  | _, [] => none
  | es, n :: rest =>
    match findEntry es n, rest with
    | some e, [] => some e
    | some (Entry.dir _ cs), _ :: _ => lookupEntry cs rest
    | _, _ => none

/-- Replace the first entry named `n` by `e'`. -/
def replaceFirst : List Entry → Name → Entry → List Entry
  | [], _, _ => []
  | e :: es, n, e' => if entryName e = n then e' :: es else e :: replaceFirst es n e'

/-- Overwrite the content of the file at `p` (the whole-file write of
line 23–24); leaves the tree unchanged if `p` does not resolve to a
file. -/
def writeAt : List Entry → FsPath → Name → List Entry
  | es, [], _ => es
  | es, n :: rest, c =>
    match findEntry es n, rest with
    | some (Entry.file m d), [] => replaceFirst es n (Entry.file m { d with content := c })
    | some (Entry.dir m cs), _ :: _ => replaceFirst es n (Entry.dir m (writeAt cs rest c))
    | _, _ => es

/-- `Path(old_path).rename(new_path)` within the same parent directory:
`none` models the raised `OSError` (source missing, broken intermediate
path, or target name already taken — the collision case the spec leaves
to surface as a per-item error); renaming an entry to its own name
succeeds and is a no-op. -/
def renameAt : List Entry → FsPath → Name → Option (List Entry)
  | _, [], _ => none
  | es, n :: rest, n' =>
    match findEntry es n, rest with
    | some e, [] =>
      if n' = n then some es
      else if (findEntry es n').isSome then none
      else some (replaceFirst es n (setEntryName e n'))
    | some (Entry.dir m cs), _ :: _ =>
      match renameAt cs rest n' with
      | some cs' => some (replaceFirst es n (Entry.dir m cs'))
      | none => none
    | _, _ => none

/-! ### Well-formed trees

A tree that comes from a real filesystem has pairwise-distinct names
among the children of each directory. -/

def nodupKeys : List Name → Bool
  | [] => true
  | n :: ns => !ns.contains n && nodupKeys ns

mutual

def wfEntry : Entry → Bool
  | .file _ _ => true
  | .dir _ cs => nodupKeys (cs.map entryName) && wfChildren cs

def wfChildren : List Entry → Bool
  | [] => true
  | c :: cs => wfEntry c && wfChildren cs

end

/-- Well-formedness of the root's children. -/
def wfRoot (cs : List Entry) : Bool := nodupKeys (cs.map entryName) && wfChildren cs

/-! ### The run state and the three passes (lines 66–128) -/

/-- The lines the script prints, as far as the passes are concerned. -/
inductive Msg where
  | skipping (p : FsPath)
  | wouldModify (p : FsPath)
  | modified (p : FsPath)
  | wouldRename (oldName newName : Name)
  | renamed (src dst : FsPath)
  | renameError (p : FsPath)
  | modifiedSummary (n : Nat)
  | renamedFilesSummary (n : Nat)
  | renamedDirsSummary (n : Nat)
  | wouldRenameRoot (oldName newName : Name)
  | renamedRoot (oldName newName : Name)
  | pathError
  | processingComplete
deriving DecidableEq, Repr

structure RunState where
  rootName : Name
  tree : List Entry
  log : List Msg
  modifiedFiles : Nat
  renamedFiles : Nat
  renamedDirs : Nat

/-- `replace_in_file` (lines 15–30) on the data of the opened file:
returns the resulting data, the returned boolean, and the diagnostics
printed.  Reading fails → `Skipping` diagnostic, `False`, unchanged.
Token absent → `False`, unchanged, silent.  Writing fails
(`PermissionError` from `open(..., 'w')`, caught by the same handler)
→ `Skipping` diagnostic, `False`, unchanged. -/
def replaceInFile (old new : Name) (p : FsPath) (d : FileData) : FileData × Bool × List Msg :=
  if d.readOk then
    if containsTok old d.content then
      if d.writeOk then
        ({ d with content := pyReplace old new d.content }, true, [])
      else
        (d, false, [Msg.skipping p])
    else (d, false, [])
  else (d, false, [Msg.skipping p])

/-- One iteration of the content loop (lines 72–86). -/
def contentStep (old new : Name) (dry : Bool) (s : RunState) (p : FsPath) : RunState :=
  match lookupEntry s.tree p with
  | some (Entry.file _ d) =>
    if dry then
      if d.readOk && containsTok old d.content then
        { s with log := s.log ++ [Msg.wouldModify p], modifiedFiles := s.modifiedFiles + 1 }
      else s
    else
      match replaceInFile old new p d with
      | (d', true, msgs) =>
        { s with tree := writeAt s.tree p d'.content,
                 log := s.log ++ msgs ++ [Msg.modified p],
                 modifiedFiles := s.modifiedFiles + 1 }
      | (_, false, msgs) => { s with log := s.log ++ msgs }
  | _ => s

/-- `rename_item` (lines 32–44) applied to the tree at a snapshot path. -/
def renameItem (old new : Name) (s : RunState) (p : FsPath) : RunState :=
  if containsTok old (lastName p) then
    match renameAt s.tree p (pyReplace old new (lastName p)) with
    | some t' =>
      { s with tree := t', log := s.log ++ [Msg.renamed p (p.dropLast ++ [pyReplace old new (lastName p)])] }
    | none => { s with log := s.log ++ [Msg.renameError p] }
  else s

/-- One iteration of the file-rename loop (lines 93–101): the counter is
incremented whenever the entry exists and its base name matches,
regardless of whether the rename itself succeeds. -/
def fileRenameStep (old new : Name) (dry : Bool) (s : RunState) (p : FsPath) : RunState :=
  if (lookupEntry s.tree p).isSome && containsTok old (lastName p) then
    if dry then
      { s with log := s.log ++ [Msg.wouldRename (lastName p) (pyReplace old new (lastName p))],
               renamedFiles := s.renamedFiles + 1 }
    else
      let s' := renameItem old new s p
      { s' with renamedFiles := s'.renamedFiles + 1 }
  else s

/-- One iteration of the directory-rename loop (lines 108–116). -/
def dirRenameStep (old new : Name) (dry : Bool) (s : RunState) (p : FsPath) : RunState :=
  if (lookupEntry s.tree p).isSome && containsTok old (lastName p) then
    if dry then
      { s with log := s.log ++ [Msg.wouldRename (lastName p) (pyReplace old new (lastName p))],
               renamedDirs := s.renamedDirs + 1 }
    else
      let s' := renameItem old new s p
      { s' with renamedDirs := s'.renamedDirs + 1 }
  else s

/-- `process_directory` (lines 46–128): snapshot collection, the three
passes with their summaries, then the root-rename check.  Renaming the
root directory itself happens outside the modelled tree (its parent is
not part of the processed root), so it is modelled as succeeding. -/
def processDirectory (old new : Name) (dry : Bool) (rootName : Name) (cs : List Entry) : RunState :=
  let files := collectFiles cs
  let dirs := collectDirs cs
  let s0 : RunState := ⟨rootName, cs, [], 0, 0, 0⟩
  let s1 := files.foldl (contentStep old new dry) s0
  let s1b := { s1 with log := s1.log ++ [Msg.modifiedSummary s1.modifiedFiles] }
  let s2 := files.foldl (fileRenameStep old new dry) s1b
  let s2b := { s2 with log := s2.log ++ [Msg.renamedFilesSummary s2.renamedFiles] }
  let s3 := dirs.foldl (dirRenameStep old new dry) s2b
  let s3b := { s3 with log := s3.log ++ [Msg.renamedDirsSummary s3.renamedDirs] }
  if containsTok old rootName then
    if dry then
      { s3b with log := s3b.log ++ [Msg.wouldRenameRoot rootName (pyReplace old new rootName)] }
    else
      { s3b with rootName := pyReplace old new rootName,
                 log := s3b.log ++ [Msg.renamedRoot rootName (pyReplace old new rootName)] }
  else s3b

/-- `--old` and `--new` both default to the fixed literal `'Respire'`
(lines 134–135). -/
def defaultToken : Name := "Respire".toList

/-- `main` (lines 130–153): `none` models a `path` argument that does not
exist on the filesystem — the script prints the error and exits with
status 1 before any traversal; otherwise the directory is processed and
the script falls off the end of `main`, exiting with status 0. -/
def mainRun (target : Option (Name × List Entry)) (old new : Name) (dry : Bool) :
    Nat × List Msg × Option RunState :=
  match target with
  | none => (1, [Msg.pathError], none)
  | some (rn, cs) =>
    let r := processDirectory old new dry rn cs
    (0, r.log ++ [Msg.processingComplete], some r)

/-- Prepend a path to a frame's path (proof-side helper). -/
def shiftFrame (p : FsPath) (fr : WalkFrame) : WalkFrame :=
  ⟨p ++ fr.path, fr.dirNames, fr.fileNames⟩


/-- Navigate to the child list of the directory at `p` (`[]` is the root
itself); proof-side helper. -/
def dirAt : List Entry → FsPath → Option (List Entry)
  | cs, [] => some cs
  | cs, n :: rest =>
    match findEntry cs n with
    | some (Entry.dir _ cs') => dirAt cs' rest
    | _ => none


/-- Does the apply-mode content loop count this snapshot path as
modified?  (Read succeeds, token present, write succeeds.) -/
def applyHit (old : Name) (t : List Entry) (q : FsPath) : Bool :=
  match lookupEntry t q with
  | some (Entry.file _ d) => d.readOk && containsTok old d.content && d.writeOk
  | _ => false

/-- Does the dry-run content loop count this snapshot path?  (Read
succeeds and the token is present; no write is attempted.) -/
def dryHit (old : Name) (t : List Entry) (q : FsPath) : Bool :=
  match lookupEntry t q with
  | some (Entry.file _ d) => d.readOk && containsTok old d.content
  | _ => false

/-- What the apply-mode content loop does to one file's data. -/
def contentTransform (old new : Name) (d : FileData) : FileData :=
  if d.readOk && containsTok old d.content && d.writeOk then
    { d with content := pyReplace old new d.content }
  else d



/-! Every readable file in the tree is also writable: the decidable
tree-wide hypothesis under which dry-run and apply-mode detection
agree. -/
mutual
def fileRW : Entry → Bool
  | .file _ d => !d.readOk || d.writeOk
  | .dir _ cs => fileRWs cs
def fileRWs : List Entry → Bool
  | [] => true
  | c :: cs => fileRW c && fileRWs cs
end



/-- Is this log line a per-item rename failure diagnostic? -/
def isRenameErr : Msg → Bool
  | .renameError _ => true
  | _ => false


/-! ## Theorems

### Library aliases and basic string lemmas -/

theorem isPfx_iff (l₁ l₂ : Name) : l₁.isPrefixOf l₂ = true ↔ l₁ <+: l₂ :=
  List.isPrefixOf_iff_prefix

theorem substr_cons_iff (l : Name) (a : Char) (t : Name) :
    l <:+: a :: t ↔ l <+: a :: t ∨ l <:+: t :=
  List.infix_cons_iff

/-- `containsTok` decides the substring relation. -/
theorem containsTok_iff (old : Name) : ∀ s : Name, containsTok old s = true ↔ old <:+: s := by
  intro s
  induction s with
  | nil => simp [containsTok, List.isEmpty_iff]
  | cons c rest ih =>
    simp only [containsTok, Bool.or_eq_true, isPfx_iff, ih, substr_cons_iff]

theorem replaceFuel_irrel (old new : Name) :
    ∀ f₁ f₂ s : _, s.length ≤ f₁ → s.length ≤ f₂ →
      replaceFuel old new f₁ s = replaceFuel old new f₂ s := by
  intro f₁
  induction f₁ with
  | zero =>
    intro f₂ s hs _
    have hnil : s = [] := List.eq_nil_of_length_eq_zero (Nat.le_zero.mp hs)
    subst hnil
    cases f₂ <;> rfl
  | succ k ih =>
    intro f₂ s hs hs₂
    cases s with
    | nil => cases f₂ <;> rfl
    | cons c rest =>
      cases f₂ with
      | zero => simp at hs₂
      | succ k₂ =>
        simp only [replaceFuel]
        by_cases hc : (!old.isEmpty && old.isPrefixOf (c :: rest)) = true
        · rw [if_pos hc, if_pos hc]
          have hlen : 1 ≤ old.length := by
            cases old with
            | nil => simp at hc
            | cons _ _ => simp
          have hrec := ih k₂ ((c :: rest).drop old.length)
            (by simp only [List.length_drop, List.length_cons]; simp at hs; omega)
            (by simp only [List.length_drop, List.length_cons]; simp at hs₂; omega)
          rw [hrec]
        · rw [if_neg hc, if_neg hc,
            ih k₂ rest (by simp at hs; omega) (by simp at hs₂; omega)]

theorem countFuel_irrel (old : Name) :
    ∀ f₁ f₂ s : _, s.length ≤ f₁ → s.length ≤ f₂ →
      countFuel old f₁ s = countFuel old f₂ s := by
  intro f₁
  induction f₁ with
  | zero =>
    intro f₂ s hs _
    have hnil : s = [] := List.eq_nil_of_length_eq_zero (Nat.le_zero.mp hs)
    subst hnil
    cases f₂ <;> rfl
  | succ k ih =>
    intro f₂ s hs hs₂
    cases s with
    | nil => cases f₂ <;> rfl
    | cons c rest =>
      cases f₂ with
      | zero => simp at hs₂
      | succ k₂ =>
        simp only [countFuel]
        by_cases hc : (!old.isEmpty && old.isPrefixOf (c :: rest)) = true
        · rw [if_pos hc, if_pos hc]
          have hlen : 1 ≤ old.length := by
            cases old with
            | nil => simp at hc
            | cons _ _ => simp
          have hrec := ih k₂ ((c :: rest).drop old.length)
            (by simp only [List.length_drop, List.length_cons]; simp at hs; omega)
            (by simp only [List.length_drop, List.length_cons]; simp at hs₂; omega)
          rw [hrec]
        · rw [if_neg hc, if_neg hc,
            ih k₂ rest (by simp at hs; omega) (by simp at hs₂; omega)]

theorem pyReplace_nil (old new : Name) : pyReplace old new [] = [] := rfl

theorem countOccs_nil (old : Name) : countOccs old [] = 0 := rfl

theorem posCond_true {old : Name} {c : Char} {t : Name}
    (h1 : old ≠ []) (h2 : old <+: c :: t) :
    (!old.isEmpty && old.isPrefixOf (c :: t)) = true := by
  simp [List.isEmpty_iff, h1, isPfx_iff, h2]

theorem pyReplace_cons_pos {old : Name} (new : Name) {c : Char} {t : Name}
    (h1 : old ≠ []) (h2 : old <+: c :: t) :
    pyReplace old new (c :: t) = new ++ pyReplace old new ((c :: t).drop old.length) := by
  have h1' : 1 ≤ old.length := by cases old with
    | nil => simp at h1
    | cons _ _ => simp
  show replaceFuel old new (t.length + 1) (c :: t) = _
  simp only [replaceFuel, if_pos (posCond_true h1 h2)]
  rw [replaceFuel_irrel old new t.length ((c :: t).drop old.length).length
    ((c :: t).drop old.length) (by simp only [List.length_drop]; simp; omega) le_rfl]
  rfl

theorem pyReplace_cons_neg {old : Name} (new : Name) {c : Char} {t : Name}
    (h : ¬(old ≠ [] ∧ old <+: c :: t)) :
    pyReplace old new (c :: t) = c :: pyReplace old new t := by
  have hc : ¬((!old.isEmpty && old.isPrefixOf (c :: t)) = true) := by
    simp only [Bool.and_eq_true, Bool.not_eq_true', List.isEmpty_iff, isPfx_iff]
    intro ⟨ha, hb⟩
    exact h ⟨by simp [List.isEmpty_iff] at ha; exact ha, hb⟩
  show replaceFuel old new (t.length + 1) (c :: t) = _
  simp only [replaceFuel, if_neg hc]
  rfl

theorem countOccs_cons_pos {old : Name} {c : Char} {t : Name}
    (h1 : old ≠ []) (h2 : old <+: c :: t) :
    countOccs old (c :: t) = 1 + countOccs old ((c :: t).drop old.length) := by
  have h1' : 1 ≤ old.length := by cases old with
    | nil => simp at h1
    | cons _ _ => simp
  show countFuel old (t.length + 1) (c :: t) = _
  simp only [countFuel, if_pos (posCond_true h1 h2)]
  rw [countFuel_irrel old t.length ((c :: t).drop old.length).length
    ((c :: t).drop old.length) (by simp only [List.length_drop]; simp; omega) le_rfl]
  rfl

theorem countOccs_cons_neg {old : Name} {c : Char} {t : Name}
    (h : ¬(old ≠ [] ∧ old <+: c :: t)) :
    countOccs old (c :: t) = countOccs old t := by
  have hc : ¬((!old.isEmpty && old.isPrefixOf (c :: t)) = true) := by
    simp only [Bool.and_eq_true, Bool.not_eq_true', List.isEmpty_iff, isPfx_iff]
    intro ⟨ha, hb⟩
    exact h ⟨by simp [List.isEmpty_iff] at ha; exact ha, hb⟩
  show countFuel old (t.length + 1) (c :: t) = _
  simp only [countFuel, if_neg hc]
  rfl

/-- Replacing a token by itself is the identity. -/
theorem pyReplace_self (old : Name) : ∀ s : Name, pyReplace old old s = s := by
  have key : ∀ n : Nat, ∀ s : Name, s.length ≤ n → pyReplace old old s = s := by
    intro n
    induction n with
    | zero =>
      intro s hs
      have hnil : s = [] := List.eq_nil_of_length_eq_zero (Nat.le_zero.mp hs)
      subst hnil; rfl
    | succ k ih =>
      intro s hs
      cases s with
      | nil => rfl
      | cons c rest =>
        by_cases hcase : old ≠ [] ∧ old <+: (c :: rest)
        · obtain ⟨h1, h2⟩ := hcase
          have h1' : 1 ≤ old.length := by
            cases old with
            | nil => simp at h1
            | cons _ _ => simp
          rw [pyReplace_cons_pos old h1 h2]
          obtain ⟨t, ht⟩ := h2
          have hdrop : (c :: rest).drop old.length = t := by
            rw [← ht]; exact List.drop_left old t
          rw [hdrop, ih t (by
            have := congrArg List.length ht
            simp at this hs; omega)]
          exact ht
        · rw [pyReplace_cons_neg old hcase, ih rest (by simp at hs; omega)]
  intro s; exact key s.length s le_rfl

/-- Scanning over characters that cannot start a match does not change the
occurrence count. -/
theorem countOccs_append_disjoint (old : Name) :
    ∀ w r : Name, (∀ x ∈ w, x ∉ old) → countOccs old (w ++ r) = countOccs old r := by
  intro w
  induction w with
  | nil => intro r _; rfl
  | cons x w' ih =>
    intro r hw
    have hx : x ∉ old := hw x (by simp)
    have hnp : ¬(old ≠ [] ∧ old <+: x :: (w' ++ r)) := by
      rintro ⟨h1, h2⟩
      cases old with
      | nil => exact h1 rfl
      | cons o os =>
        have heq := (List.cons_prefix_cons.mp h2).1
        exact hx (heq ▸ List.mem_cons_self o os)
    rw [List.cons_append, countOccs_cons_neg hnp, ih r (fun y hy => hw y (by simp [hy]))]

/-- If no character of `u` occurs in `new`, replacement cannot create a
fresh match of `u` at the front: `u` is a front-match of the replaced
string only if it already was one. -/
theorem no_fresh_front_match (old new : Name) (hnew : new ≠ []) :
    ∀ t u : Name, u ≠ [] → (∀ x ∈ u, x ∉ new) → ¬ u <+: t →
      ¬ u <+: pyReplace old new t := by
  intro t
  induction t with
  | nil =>
    intro u hu _ _ hcontra
    rw [pyReplace_nil] at hcontra
    exact hu (List.prefix_nil.mp hcontra)
  | cons c rest ih =>
    intro u hu hchars hnp
    by_cases hcase : old ≠ [] ∧ old <+: (c :: rest)
    · rw [pyReplace_cons_pos new hcase.1 hcase.2]
      intro hcontra
      cases u with
      | nil => exact hu rfl
      | cons u0 u' =>
        cases new with
        | nil => exact hnew rfl
        | cons m0 new' =>
          rw [List.cons_append] at hcontra
          have h := List.cons_prefix_cons.mp hcontra
          have hmem : u0 ∉ (m0 :: new' : Name) := hchars u0 (by simp)
          apply hmem
          rw [h.1]
          exact List.mem_cons_self _ _
    · rw [pyReplace_cons_neg new hcase]
      intro hcontra
      cases u with
      | nil => exact hu rfl
      | cons u0 u' =>
        have h := List.cons_prefix_cons.mp hcontra
        have hnp' : ¬ u' <+: rest := by
          intro hp
          exact hnp (List.cons_prefix_cons.mpr ⟨h.1, hp⟩)
        by_cases hu' : u' = []
        · subst hu'; exact hnp' (List.nil_prefix)
        · exact ih u' hu' (fun y hy => hchars y (by simp [hy])) hnp' h.2

/-- If `old` and `new` share no character, the replaced string contains no
occurrence of `old`. -/
theorem countOccs_replace_old (old new : Name) (hold : old ≠ []) (hnew : new ≠ [])
    (hdisj : ∀ x ∈ new, x ∉ old) :
    ∀ s : Name, countOccs old (pyReplace old new s) = 0 := by
  have hold1 : 1 ≤ old.length := by
    cases old with
    | nil => simp at hold
    | cons _ _ => simp
  have key : ∀ n : Nat, ∀ s : Name, s.length ≤ n →
      countOccs old (pyReplace old new s) = 0 := by
    intro n
    induction n with
    | zero =>
      intro s hs
      have hnil : s = [] := List.eq_nil_of_length_eq_zero (Nat.le_zero.mp hs)
      subst hnil; rfl
    | succ k ih =>
      intro s hs
      cases s with
      | nil => rfl
      | cons c rest =>
        by_cases hcase : old <+: (c :: rest)
        · rw [pyReplace_cons_pos new hold hcase,
            countOccs_append_disjoint old new _ hdisj]
          exact ih _ (by simp [List.length_drop] at hs ⊢; omega)
        · have hneg : ¬(old ≠ [] ∧ old <+: (c :: rest)) := fun hh => hcase hh.2
          rw [pyReplace_cons_neg new hneg]
          have hnop : ¬ old <+: (c :: pyReplace old new rest) := by
            have hfr := no_fresh_front_match old new hnew (c :: rest) old hold
              (fun x hxo hxn => hdisj x hxn hxo) hcase
            rw [pyReplace_cons_neg new hneg] at hfr
            exact hfr
          rw [countOccs_cons_neg (fun hh => hnop hh.2)]
          exact ih rest (by simp at hs; omega)
  intro s; exact key s.length s le_rfl

theorem countOccs_pos_of_ne {old s : Name} (hold : old ≠ []) (hs : s ≠ [])
    (hp : old <+: s) : countOccs old s = 1 + countOccs old (s.drop old.length) := by
  cases s with
  | nil => exact absurd rfl hs
  | cons c t => exact countOccs_cons_pos hold hp

/-- If additionally no character of `new` occurs in `s`, the replaced
string has exactly one occurrence of `new` per occurrence of `old`. -/
theorem countOccs_replace_new (old new : Name) (hold : old ≠ []) (hnew : new ≠ [])
    (hdisj : ∀ x ∈ new, x ∉ old) :
    ∀ s : Name, (∀ x ∈ new, x ∉ s) →
      countOccs new (pyReplace old new s) = countOccs old s := by
  have hold1 : 1 ≤ old.length := by
    cases old with
    | nil => simp at hold
    | cons _ _ => simp
  have key : ∀ n : Nat, ∀ s : Name, s.length ≤ n → (∀ x ∈ new, x ∉ s) →
      countOccs new (pyReplace old new s) = countOccs old s := by
    intro n
    induction n with
    | zero =>
      intro s hs _
      have hnil : s = [] := List.eq_nil_of_length_eq_zero (Nat.le_zero.mp hs)
      subst hnil; rfl
    | succ k ih =>
      intro s hs hfresh
      cases s with
      | nil => rfl
      | cons c rest =>
        by_cases hcase : old <+: (c :: rest)
        · rw [pyReplace_cons_pos new hold hcase]
          have happ : countOccs new (new ++ pyReplace old new ((c :: rest).drop old.length))
              = 1 + countOccs new (pyReplace old new ((c :: rest).drop old.length)) := by
            rw [countOccs_pos_of_ne hnew (by simp [hnew]) (List.prefix_append new (pyReplace old new ((c :: rest).drop old.length)))]
            rw [List.drop_left]
          rw [happ, countOccs_cons_pos hold hcase]
          have := ih ((c :: rest).drop old.length)
            (by simp [List.length_drop] at hs ⊢; omega)
            (fun x hx hmem => hfresh x hx (List.mem_of_mem_drop hmem))
          omega
        · have hneg : ¬(old ≠ [] ∧ old <+: (c :: rest)) := fun hh => hcase hh.2
          rw [pyReplace_cons_neg new hneg]
          have hnop : ¬ new <+: (c :: pyReplace old new rest) := by
            intro hcontra
            cases new with
            | nil => exact hnew rfl
            | cons m0 new' =>
              have h := List.cons_prefix_cons.mp hcontra
              exact hfresh m0 (by simp) (h.1 ▸ List.mem_cons_self c rest)
          rw [countOccs_cons_neg (fun hh => hnop hh.2),
            countOccs_cons_neg hneg]
          exact ih rest (by simp at hs; omega)
            (fun x hx hmem => hfresh x hx (by simp [hmem]))
  intro s; exact key s.length s le_rfl

/-- A string with no counted occurrence contains no occurrence at all. -/
theorem not_containsTok_of_countOccs_zero {old : Name} (hold : old ≠ []) :
    ∀ s : Name, countOccs old s = 0 → containsTok old s = false := by
  intro s
  induction s with
  | nil =>
    intro _
    show old.isEmpty = false
    simp [List.isEmpty_iff, hold]
  | cons c rest ih =>
    intro h
    by_cases hp : old <+: (c :: rest)
    · rw [countOccs_cons_pos hold hp] at h; omega
    · rw [countOccs_cons_neg (fun hh => hp hh.2)] at h
      show (old.isPrefixOf (c :: rest) || containsTok old rest) = false
      have h1 : old.isPrefixOf (c :: rest) = false :=
        Bool.eq_false_iff.mpr (fun hb => hp ((isPfx_iff _ _).mp hb))
      rw [h1, ih h]
      rfl

/-! ### Basic tree-operation lemmas -/

theorem findEntry_name {es : List Entry} {n : Name} {e : Entry}
    (h : findEntry es n = some e) : entryName e = n := by
  have := List.find?_some h
  simpa using this

theorem findEntry_mem {es : List Entry} {n : Name} {e : Entry}
    (h : findEntry es n = some e) : e ∈ es :=
  List.mem_of_find?_eq_some h

theorem replaceFirst_self {es : List Entry} {n : Name} {e : Entry}
    (h : findEntry es n = some e) : replaceFirst es n e = es := by
  induction es with
  | nil => simp [findEntry] at h
  | cons x xs ih =>
    by_cases hx : entryName x = n
    · have hex : x = e := by
        simp [findEntry, List.find?_cons, hx] at h
        exact h
      subst hex
      simp [replaceFirst, hx]
    · have h' : findEntry xs n = some e := by
        simpa [findEntry, List.find?_cons, hx] using h
      simp [replaceFirst, hx, ih h']

theorem lastName_cons {n : Name} {rest : FsPath} (h : rest ≠ []) :
    lastName (n :: rest) = lastName rest := by
  cases rest with
  | nil => exact absurd rfl h
  | cons r rs =>
    show (n :: r :: rs).getLastD [] = (r :: rs).getLastD []
    rw [List.getLastD_eq_getLast?, List.getLastD_eq_getLast?]
    rfl

theorem lastName_single (n : Name) : lastName [n] = n := rfl

/-! Case-split unfolding equations for the path-recursive operations. -/

theorem lookupEntry_nil (es : List Entry) : lookupEntry es [] = none := rfl

theorem lookupEntry_single (es : List Entry) (n : Name) :
    lookupEntry es [n] = findEntry es n := by
  rcases hf : findEntry es n with _ | e <;> simp [lookupEntry, hf]

theorem lookupEntry_cons₂ (es : List Entry) (n r : Name) (rs : FsPath) :
    lookupEntry es (n :: r :: rs) =
      (match findEntry es n with
       | some (Entry.dir _ cs) => lookupEntry cs (r :: rs)
       | _ => none) := by
  rcases hf : findEntry es n with _ | e
  · simp [lookupEntry, hf]
  · cases e <;> simp [lookupEntry, hf]

theorem writeAt_single (es : List Entry) (n : Name) (c : Name) :
    writeAt es [n] c =
      (match findEntry es n with
       | some (Entry.file m d) => replaceFirst es n (Entry.file m { d with content := c })
       | _ => es) := by
  rcases hf : findEntry es n with _ | e
  · simp [writeAt, hf]
  · cases e <;> simp [writeAt, hf]

theorem writeAt_cons₂ (es : List Entry) (n r : Name) (rs : FsPath) (c : Name) :
    writeAt es (n :: r :: rs) c =
      (match findEntry es n with
       | some (Entry.dir m cs) => replaceFirst es n (Entry.dir m (writeAt cs (r :: rs) c))
       | _ => es) := by
  rcases hf : findEntry es n with _ | e
  · simp [writeAt, hf]
  · cases e <;> simp [writeAt, hf]

theorem renameAt_single (es : List Entry) (n n' : Name) :
    renameAt es [n] n' =
      (match findEntry es n with
       | none => none
       | some e =>
         if n' = n then some es
         else if (findEntry es n').isSome then none
         else some (replaceFirst es n (setEntryName e n'))) := by
  rcases hf : findEntry es n with _ | e <;> simp [renameAt, hf]

theorem renameAt_cons₂ (es : List Entry) (n r : Name) (rs : FsPath) (n' : Name) :
    renameAt es (n :: r :: rs) n' =
      (match findEntry es n with
       | some (Entry.dir m cs) =>
         (match renameAt cs (r :: rs) n' with
          | some cs' => some (replaceFirst es n (Entry.dir m cs'))
          | none => none)
       | _ => none) := by
  rcases hf : findEntry es n with _ | e
  · simp [renameAt, hf]
  · cases e <;> simp [renameAt, hf]

/-- Writing back the content a file already has does not change the
tree. -/
theorem writeAt_self : ∀ (es : List Entry) (p : FsPath) (m : Name) (d : FileData),
    lookupEntry es p = some (Entry.file m d) → writeAt es p d.content = es := by
  intro es p
  induction p generalizing es with
  | nil => intro m d h; simp [lookupEntry] at h
  | cons n rest ih =>
    intro m d h
    cases rest with
    | nil =>
      rw [lookupEntry_single] at h
      have hd : ({ d with content := d.content } : FileData) = d := rfl
      simp [writeAt_single, h, hd, replaceFirst_self h]
    | cons r rs =>
      rw [lookupEntry_cons₂] at h
      rcases hf : findEntry es n with _ | e
      · rw [hf] at h; simp at h
      · rw [hf] at h
        cases e with
        | file m' d' => simp at h
        | dir m' cs =>
          simp only at h
          simp [writeAt_cons₂, hf, ih cs m d h, replaceFirst_self hf]

/-- Renaming an entry to the name it already has either succeeds without
changing the tree, or fails. -/
theorem renameAt_self : ∀ (es : List Entry) (p : FsPath),
    renameAt es p (lastName p) = some es ∨ renameAt es p (lastName p) = none := by
  intro es p
  induction p generalizing es with
  | nil => right; rfl
  | cons n rest ih =>
    cases rest with
    | nil =>
      rcases hf : findEntry es n with _ | e
      · right
        simp [renameAt_single, hf]
      · left
        simp [renameAt_single, hf, lastName_single]
    | cons r rs =>
      have hlast : lastName (n :: r :: rs) = lastName (r :: rs) :=
        lastName_cons (by simp)
      rcases hf : findEntry es n with _ | e
      · right
        simp [renameAt_cons₂, hf]
      · cases e with
        | file m d =>
          right
          simp [renameAt_cons₂, hf]
        | dir m cs =>
          rcases ih cs with h' | h'
          · left
            rw [hlast]
            simp [renameAt_cons₂, hf, h', replaceFirst_self hf]
          · right
            rw [hlast]
            simp [renameAt_cons₂, hf, h']

/-! ### An apply run with equal tokens leaves the tree untouched -/

theorem contentStep_self_tree (old : Name) (dry : Bool) (s : RunState) (p : FsPath) :
    (contentStep old old dry s p).tree = s.tree ∧
      (contentStep old old dry s p).rootName = s.rootName := by
  rw [contentStep]
  rcases hl : lookupEntry s.tree p with _ | e
  · simp
  · cases e with
    | dir m cs => simp
    | file m d =>
      cases dry with
      | true =>
        by_cases hc : (d.readOk && containsTok old d.content) = true
        · simp [hc]
        · simp [hc]
      | false =>
        simp only [replaceInFile]
        by_cases hr : d.readOk = true
        · by_cases hcc : containsTok old d.content = true
          · by_cases hw : d.writeOk = true
            · simp only [hr, hcc, hw, if_pos]
              have hrepl : pyReplace old old d.content = d.content := pyReplace_self old d.content
              simp [hrepl, writeAt_self s.tree p m d hl]
            · simp [hr, hcc, hw]
          · simp [hr, hcc]
        · simp [hr]

theorem renameItem_self_tree (old : Name) (s : RunState) (p : FsPath) :
    (renameItem old old s p).tree = s.tree ∧
      (renameItem old old s p).rootName = s.rootName := by
  rw [renameItem]
  by_cases hc : containsTok old (lastName p) = true
  · rw [pyReplace_self]
    rcases renameAt_self s.tree p with h' | h' <;> simp [hc, h']
  · simp [hc]

theorem fileRenameStep_self_tree (old : Name) (dry : Bool) (s : RunState) (p : FsPath) :
    (fileRenameStep old old dry s p).tree = s.tree ∧
      (fileRenameStep old old dry s p).rootName = s.rootName := by
  simp only [fileRenameStep]
  by_cases hc : ((lookupEntry s.tree p).isSome && containsTok old (lastName p)) = true
  · simp only [hc, if_pos]
    cases dry with
    | true => simp
    | false =>
      obtain ⟨h1, h2⟩ := renameItem_self_tree old s p
      simp [h1, h2]
  · simp [hc]

theorem dirRenameStep_self_tree (old : Name) (dry : Bool) (s : RunState) (p : FsPath) :
    (dirRenameStep old old dry s p).tree = s.tree ∧
      (dirRenameStep old old dry s p).rootName = s.rootName := by
  simp only [dirRenameStep]
  by_cases hc : ((lookupEntry s.tree p).isSome && containsTok old (lastName p)) = true
  · simp only [hc, if_pos]
    cases dry with
    | true => simp
    | false =>
      obtain ⟨h1, h2⟩ := renameItem_self_tree old s p
      simp [h1, h2]
  · simp [hc]

theorem foldl_tree_rootName {α : Type} (f : RunState → α → RunState)
    (hf : ∀ s a, (f s a).tree = s.tree ∧ (f s a).rootName = s.rootName) :
    ∀ (l : List α) (s : RunState),
      (l.foldl f s).tree = s.tree ∧ (l.foldl f s).rootName = s.rootName := by
  intro l
  induction l with
  | nil => intro s; exact ⟨rfl, rfl⟩
  | cons a as ih =>
    intro s
    rw [List.foldl_cons]
    obtain ⟨h1, h2⟩ := ih (f s a)
    obtain ⟨g1, g2⟩ := hf s a
    exact ⟨h1.trans g1, h2.trans g2⟩

/-- An apply run whose two tokens are equal changes neither the tree nor
the root name. -/
theorem processDirectory_self (old rn : Name) (cs : List Entry) :
    (processDirectory old old false rn cs).tree = cs ∧
      (processDirectory old old false rn cs).rootName = rn := by
  simp only [processDirectory]
  set s0 : RunState := (⟨rn, cs, [], 0, 0, 0⟩ : RunState) with hs0
  set s1 := (collectFiles cs).foldl (contentStep old old false) s0 with hs1
  set s1b : RunState := { s1 with log := s1.log ++ [Msg.modifiedSummary s1.modifiedFiles] } with hs1b
  set s2 := (collectFiles cs).foldl (fileRenameStep old old false) s1b with hs2
  set s2b : RunState := { s2 with log := s2.log ++ [Msg.renamedFilesSummary s2.renamedFiles] } with hs2b
  set s3 := (collectDirs cs).foldl (dirRenameStep old old false) s2b with hs3
  set s3b : RunState := { s3 with log := s3.log ++ [Msg.renamedDirsSummary s3.renamedDirs] } with hs3b
  have t1 := foldl_tree_rootName (contentStep old old false)
    (contentStep_self_tree old false) (collectFiles cs) s0
  have t2 := foldl_tree_rootName (fileRenameStep old old false)
    (fileRenameStep_self_tree old false) (collectFiles cs) s1b
  have t3 := foldl_tree_rootName (dirRenameStep old old false)
    (dirRenameStep_self_tree old false) (collectDirs cs) s2b
  rw [← hs1] at t1
  rw [← hs2] at t2
  rw [← hs3] at t3
  have htree : s3b.tree = cs := by
    show s3.tree = cs
    rw [t3.1]
    show s2.tree = cs
    rw [t2.1]
    show s1.tree = cs
    rw [t1.1]
  have hroot : s3b.rootName = rn := by
    show s3.rootName = rn
    rw [t3.2]
    show s2.rootName = rn
    rw [t2.2]
    show s1.rootName = rn
    rw [t1.2]
  by_cases hcr : containsTok old rn = true
  · simp only [hcr, if_pos, Bool.false_eq_true, if_false]
    refine ⟨htree, ?_⟩
    show pyReplace old old rn = rn
    exact pyReplace_self old rn
  · simp only [hcr, if_neg, Bool.false_eq_true, if_false]
    exact ⟨htree, hroot⟩

/-! ### Logs only grow; counters are step-local -/

theorem renameItem_fields (old new : Name) (s : RunState) (p : FsPath) :
    (renameItem old new s p).rootName = s.rootName ∧
      (renameItem old new s p).modifiedFiles = s.modifiedFiles ∧
      (renameItem old new s p).renamedFiles = s.renamedFiles ∧
      (renameItem old new s p).renamedDirs = s.renamedDirs := by
  rw [renameItem]
  by_cases hc : containsTok old (lastName p) = true
  · rcases hr : renameAt s.tree p (pyReplace old new (lastName p)) with _ | t' <;> simp [hc, hr]
  · simp [hc]

theorem contentStep_log (old new : Name) (dry : Bool) (s : RunState) (p : FsPath) :
    ∃ t, (contentStep old new dry s p).log = s.log ++ t := by
  rw [contentStep]
  rcases hl : lookupEntry s.tree p with _ | e
  · exact ⟨[], by simp⟩
  · cases e with
    | dir m cs => exact ⟨[], by simp⟩
    | file m d =>
      cases dry with
      | true =>
        by_cases hc : (d.readOk && containsTok old d.content) = true
        · exact ⟨[Msg.wouldModify p], by simp [hc]⟩
        · exact ⟨[], by simp [hc]⟩
      | false =>
        simp only [replaceInFile]
        by_cases hr : d.readOk = true
        · by_cases hcc : containsTok old d.content = true
          · by_cases hw : d.writeOk = true
            · exact ⟨[Msg.modified p], by simp [hr, hcc, hw]⟩
            · exact ⟨[Msg.skipping p], by simp [hr, hcc, hw]⟩
          · exact ⟨[], by simp [hr, hcc]⟩
        · exact ⟨[Msg.skipping p], by simp [hr]⟩

theorem renameItem_log (old new : Name) (s : RunState) (p : FsPath) :
    ∃ t, (renameItem old new s p).log = s.log ++ t := by
  rw [renameItem]
  by_cases hc : containsTok old (lastName p) = true
  · rcases hr : renameAt s.tree p (pyReplace old new (lastName p)) with _ | t'
    · exact ⟨[Msg.renameError p], by simp [hc, hr]⟩
    · exact ⟨[Msg.renamed p (p.dropLast ++ [pyReplace old new (lastName p)])], by simp [hc, hr]⟩
  · exact ⟨[], by simp [hc]⟩

theorem fileRenameStep_log (old new : Name) (dry : Bool) (s : RunState) (p : FsPath) :
    ∃ t, (fileRenameStep old new dry s p).log = s.log ++ t := by
  simp only [fileRenameStep]
  by_cases hc : ((lookupEntry s.tree p).isSome && containsTok old (lastName p)) = true
  · cases dry with
    | true =>
      exact ⟨[Msg.wouldRename (lastName p) (pyReplace old new (lastName p))], by simp [hc]⟩
    | false =>
      obtain ⟨t, ht⟩ := renameItem_log old new s p
      exact ⟨t, by simp [hc, ht]⟩
  · exact ⟨[], by simp [hc]⟩

theorem dirRenameStep_log (old new : Name) (dry : Bool) (s : RunState) (p : FsPath) :
    ∃ t, (dirRenameStep old new dry s p).log = s.log ++ t := by
  simp only [dirRenameStep]
  by_cases hc : ((lookupEntry s.tree p).isSome && containsTok old (lastName p)) = true
  · cases dry with
    | true =>
      exact ⟨[Msg.wouldRename (lastName p) (pyReplace old new (lastName p))], by simp [hc]⟩
    | false =>
      obtain ⟨t, ht⟩ := renameItem_log old new s p
      exact ⟨t, by simp [hc, ht]⟩
  · exact ⟨[], by simp [hc]⟩

theorem foldl_log_mono {α : Type} (f : RunState → α → RunState)
    (hf : ∀ s a, ∃ t, (f s a).log = s.log ++ t) :
    ∀ (l : List α) (s : RunState), ∃ t, (l.foldl f s).log = s.log ++ t := by
  intro l
  induction l with
  | nil => intro s; exact ⟨[], by simp⟩
  | cons a as ih =>
    intro s
    rw [List.foldl_cons]
    obtain ⟨t₁, h₁⟩ := hf s a
    obtain ⟨t₂, h₂⟩ := ih (f s a)
    exact ⟨t₁ ++ t₂, by rw [h₂, h₁, List.append_assoc]⟩

/-! ### Snapshot paths have filtered base names -/

theorem lastName_append_single (q : FsPath) (m : Name) : lastName (q ++ [m]) = m :=
  List.getLastD_concat [] m q

theorem collectFiles_keepFileName {cs : List Entry} {p : FsPath}
    (h : p ∈ collectFiles cs) : keepFileName (lastName p) = true := by
  rw [collectFiles] at h
  obtain ⟨l, hl, hpl⟩ := List.mem_flatten.mp h
  obtain ⟨fr, _, rfl⟩ := List.mem_map.mp hl
  obtain ⟨m, hm, rfl⟩ := List.mem_map.mp hpl
  rw [lastName_append_single]
  exact List.of_mem_filter hm

theorem collectDirs_keepDirName {cs : List Entry} {p : FsPath}
    (h : p ∈ collectDirs cs) : keepDirName (lastName p) = true := by
  rw [collectDirs] at h
  obtain ⟨l, hl, hpl⟩ := List.mem_flatten.mp h
  obtain ⟨fr, _, rfl⟩ := List.mem_map.mp hl
  obtain ⟨m, hm, rfl⟩ := List.mem_map.mp hpl
  rw [lastName_append_single]
  exact List.of_mem_filter hm

theorem processDirectory_log_summaries (old new : Name) (dry : Bool) (rn : Name) (cs : List Entry) :
    (∃ k, Msg.modifiedSummary k ∈ (processDirectory old new dry rn cs).log) ∧
    (∃ k, Msg.renamedFilesSummary k ∈ (processDirectory old new dry rn cs).log) ∧
    (∃ k, Msg.renamedDirsSummary k ∈ (processDirectory old new dry rn cs).log) := by
  simp only [processDirectory]
  set s0 : RunState := (⟨rn, cs, [], 0, 0, 0⟩ : RunState) with hs0
  set s1 := (collectFiles cs).foldl (contentStep old new dry) s0 with hs1
  set s1b : RunState := { s1 with log := s1.log ++ [Msg.modifiedSummary s1.modifiedFiles] } with hs1b
  set s2 := (collectFiles cs).foldl (fileRenameStep old new dry) s1b with hs2
  set s2b : RunState := { s2 with log := s2.log ++ [Msg.renamedFilesSummary s2.renamedFiles] } with hs2b
  set s3 := (collectDirs cs).foldl (dirRenameStep old new dry) s2b with hs3
  set s3b : RunState := { s3 with log := s3.log ++ [Msg.renamedDirsSummary s3.renamedDirs] } with hs3b
  obtain ⟨t2, ht2⟩ := foldl_log_mono _ (fileRenameStep_log old new dry) (collectFiles cs) s1b
  obtain ⟨t3, ht3⟩ := foldl_log_mono _ (dirRenameStep_log old new dry) (collectDirs cs) s2b
  rw [← hs2] at ht2
  rw [← hs3] at ht3
  have hmem : ∀ x : Msg, x ∈ s3b.log →
      (x ∈ (if containsTok old rn = true then
              if dry then
                { s3b with log := s3b.log ++ [Msg.wouldRenameRoot rn (pyReplace old new rn)] }
              else
                { s3b with rootName := pyReplace old new rn,
                           log := s3b.log ++ [Msg.renamedRoot rn (pyReplace old new rn)] }
            else s3b).log) := by
    intro x hx
    by_cases hcr : containsTok old rn = true
    · rw [if_pos hcr]
      cases dry with
      | true =>
        show x ∈ s3b.log ++ [Msg.wouldRenameRoot rn (pyReplace old new rn)]
        exact List.mem_append_left _ hx
      | false =>
        show x ∈ s3b.log ++ [Msg.renamedRoot rn (pyReplace old new rn)]
        exact List.mem_append_left _ hx
    · rw [if_neg hcr]
      exact hx
  have h3blog : s3b.log = s3.log ++ [Msg.renamedDirsSummary s3.renamedDirs] := rfl
  have h2blog : s2b.log = s2.log ++ [Msg.renamedFilesSummary s2.renamedFiles] := rfl
  have h1blog : s1b.log = s1.log ++ [Msg.modifiedSummary s1.modifiedFiles] := rfl
  refine ⟨⟨s1.modifiedFiles, hmem _ ?_⟩, ⟨s2.renamedFiles, hmem _ ?_⟩,
    ⟨s3.renamedDirs, hmem _ ?_⟩⟩
  · rw [h3blog, ht3, h2blog, ht2, h1blog]
    simp
  · rw [h3blog, ht3, h2blog]
    simp
  · rw [h3blog]
    simp


/-! ### Walk structure lemmas -/

theorem nodupKeys_iff : ∀ l : List Name, nodupKeys l = true ↔ l.Nodup := by
  intro l
  induction l with
  | nil => simp [nodupKeys]
  | cons n ns ih =>
    simp [nodupKeys, ih, List.nodup_cons]

theorem dirNamesOf_sublist (cs : List Entry) :
    List.Sublist (dirNamesOf cs) (cs.map entryName) := by
  induction cs with
  | nil => simp [dirNamesOf]
  | cons c cs ih =>
    cases c with
    | file n d =>
      simp only [dirNamesOf, List.filterMap_cons, List.map_cons]
      exact List.Sublist.cons _ ih
    | dir n cs' =>
      simp only [dirNamesOf, List.filterMap_cons, List.map_cons]
      exact List.Sublist.cons₂ _ ih

theorem fileNamesOf_sublist (cs : List Entry) :
    List.Sublist (fileNamesOf cs) (cs.map entryName) := by
  induction cs with
  | nil => simp [fileNamesOf]
  | cons c cs ih =>
    cases c with
    | file n d =>
      simp only [fileNamesOf, List.filterMap_cons, List.map_cons]
      exact List.Sublist.cons₂ _ ih
    | dir n cs' =>
      simp only [fileNamesOf, List.filterMap_cons, List.map_cons]
      exact List.Sublist.cons _ ih

theorem mem_dirNamesOf {cs : List Entry} {m : Name} :
    m ∈ dirNamesOf cs ↔ ∃ cs', Entry.dir m cs' ∈ cs := by
  simp only [dirNamesOf, List.mem_filterMap]
  constructor
  · rintro ⟨e, he, hm⟩
    cases e with
    | file _ _ => simp at hm
    | dir n cs' =>
      simp at hm
      exact ⟨cs', hm ▸ he⟩
  · rintro ⟨cs', h⟩
    exact ⟨Entry.dir m cs', h, rfl⟩

theorem mem_fileNamesOf {cs : List Entry} {m : Name} :
    m ∈ fileNamesOf cs ↔ ∃ d, Entry.file m d ∈ cs := by
  simp only [fileNamesOf, List.mem_filterMap]
  constructor
  · rintro ⟨e, he, hm⟩
    cases e with
    | dir _ _ => simp at hm
    | file n d =>
      simp at hm
      exact ⟨d, hm ▸ he⟩
  · rintro ⟨d, h⟩
    exact ⟨Entry.file m d, h, rfl⟩


/-! ### Walk normalization: frames at `p` are the frames at `[]`, shifted -/

mutual

theorem walkEntry_shift : ∀ (p : FsPath) (e : Entry),
    walkEntry p e = (walkEntry [] e).map (shiftFrame p)
  | p, .file n d => by simp [walkEntry]
  | p, .dir n cs => by
    have hcomp : ∀ fr, shiftFrame p (shiftFrame [n] fr) = shiftFrame (p ++ [n]) fr := by
      intro fr; simp [shiftFrame]
    rw [walkEntry, walkEntry]
    simp only [List.nil_append]
    rw [walkEntries_shift (p ++ [n]) cs, walkEntries_shift [n] cs]
    rw [List.map_append, List.map_map]
    simp [Function.comp_def, hcomp, shiftFrame]

theorem walkEntries_shift : ∀ (p : FsPath) (cs : List Entry),
    walkEntries p cs = (walkEntries [] cs).map (shiftFrame p)
  | p, [] => by simp [walkEntries]
  | p, c :: cs => by
    rw [walkEntries, walkEntries, walkEntry_shift p c, walkEntries_shift p cs,
      List.map_append]

end

mutual

theorem walkEntry_path_head : ∀ (e : Entry), ∀ fr ∈ walkEntry [] e,
    ∃ q, fr.path = entryName e :: q
  | .file n d => by simp [walkEntry]
  | .dir n cs => by
    intro fr hfr
    rw [walkEntry] at hfr
    simp only [List.nil_append] at hfr
    rcases List.mem_append.mp hfr with h | h
    · rw [walkEntries_shift [n] cs] at h
      obtain ⟨fr₀, _, rfl⟩ := List.mem_map.mp h
      exact ⟨fr₀.path, rfl⟩
    · simp at h
      subst h
      exact ⟨[], rfl⟩

theorem walkEntries_path_head : ∀ (cs : List Entry), ∀ fr ∈ walkEntries [] cs,
    ∃ c ∈ cs, ∃ q, fr.path = entryName c :: q
  | [] => by simp [walkEntries]
  | c :: cs => by
    intro fr hfr
    rw [walkEntries] at hfr
    rcases List.mem_append.mp hfr with h | h
    · obtain ⟨q, hq⟩ := walkEntry_path_head c fr h
      exact ⟨c, by simp, q, hq⟩
    · obtain ⟨c', hc', q, hq⟩ := walkEntries_path_head cs fr h
      exact ⟨c', by simp [hc'], q, hq⟩

end

/-- The ordering relation on snapshot paths: an earlier path is never a
proper ancestor of a later one. -/
def notAbove (a b : FsPath) : Prop := a <+: b → a = b

theorem shift_preserves_notAbove (p : FsPath) {a b : FsPath}
    (h : notAbove a b) : notAbove (p ++ a) (p ++ b) := by
  intro hpre
  rw [List.prefix_append_right_inj] at hpre
  rw [h hpre]

mutual

theorem walkEntry_pairwise : ∀ (e : Entry), wfEntry e = true →
    (walkEntry [] e).Pairwise (fun fr₁ fr₂ => notAbove fr₁.path fr₂.path)
  | .file n d => by simp [walkEntry]
  | .dir n cs => by
    intro hwf
    rw [wfEntry, Bool.and_eq_true] at hwf
    rw [walkEntry, List.pairwise_append]
    simp only [List.nil_append]
    refine ⟨?_, by simp, ?_⟩
    · rw [walkEntries_shift [n] cs, List.pairwise_map]
      have hbase := walkEntries_pairwise cs hwf.1 hwf.2
      exact hbase.imp (fun h => shift_preserves_notAbove [n] h)
    · intro fr₁ h₁ fr₂ h₂
      simp at h₂
      subst h₂
      rw [walkEntries_shift [n] cs] at h₁
      obtain ⟨fr₀, hfr₀, rfl⟩ := List.mem_map.mp h₁
      obtain ⟨c, _, q, hq⟩ := walkEntries_path_head cs fr₀ hfr₀
      intro hpre
      exfalso
      have hlen := hpre.length_le
      simp [shiftFrame, hq] at hlen

theorem walkEntries_pairwise : ∀ (cs : List Entry),
    nodupKeys (cs.map entryName) = true → wfChildren cs = true →
    (walkEntries [] cs).Pairwise (fun fr₁ fr₂ => notAbove fr₁.path fr₂.path)
  | [] => by simp [walkEntries]
  | c :: cs => by
    intro hnd hwf
    rw [wfChildren, Bool.and_eq_true] at hwf
    rw [List.map_cons, nodupKeys, Bool.and_eq_true] at hnd
    have hni : entryName c ∉ cs.map entryName := by
      have hh := hnd.1
      simp at hh
      intro hmem
      obtain ⟨x, hx, hxeq⟩ := List.mem_map.mp hmem
      exact hh x hx hxeq
    rw [walkEntries, List.pairwise_append]
    refine ⟨walkEntry_pairwise c hwf.1, walkEntries_pairwise cs hnd.2 hwf.2, ?_⟩
    intro fr₁ h₁ fr₂ h₂
    obtain ⟨q₁, hq₁⟩ := walkEntry_path_head c fr₁ h₁
    obtain ⟨c', hc', q₂, hq₂⟩ := walkEntries_path_head cs fr₂ h₂
    intro hpre
    exfalso
    rw [hq₁, hq₂] at hpre
    have hhead : entryName c = entryName c' := (List.cons_prefix_cons.mp hpre).1
    rw [hhead] at hni
    exact hni (List.mem_map_of_mem entryName hc')

end


/-! ### Frame paths are distinct; frame name lists are duplicate-free -/

theorem prefix_concat_cases {α : Type} {l q : List α} {a : α}
    (h : l <+: q ++ [a]) : l = q ++ [a] ∨ l <+: q := by
  rcases List.prefix_or_prefix_of_prefix h (List.prefix_append q [a]) with h1 | h1
  · exact Or.inr h1
  · by_cases heq : l.length = q.length + 1
    · exact Or.inl (List.IsPrefix.eq_of_length_le h (by simp [heq]))
    · right
      have h2 : l.length ≤ q.length := by
        have := h.length_le
        simp at this
        omega
      have h3 : q = l := List.IsPrefix.eq_of_length_le h1 h2
      rw [← h3]

theorem append_singleton_inj {α : Type} {p q : List α} {a b : α}
    (h : p ++ [a] = q ++ [b]) : p = q ∧ a = b := by
  have h1 := congrArg List.dropLast h
  have h2 := congrArg List.getLast? h
  simp at h1 h2
  exact ⟨h1, h2⟩

theorem wfChildren_mem : ∀ {cs : List Entry}, wfChildren cs = true →
    ∀ c ∈ cs, wfEntry c = true := by
  intro cs
  induction cs with
  | nil => intro _ c hc; simp at hc
  | cons x xs ih =>
    intro h c hc
    rw [wfChildren, Bool.and_eq_true] at h
    rcases List.mem_cons.mp hc with rfl | hc'
    · exact h.1
    · exact ih h.2 c hc'

mutual

theorem walkEntry_paths_nodup : ∀ (e : Entry), wfEntry e = true →
    ((walkEntry [] e).map WalkFrame.path).Nodup
  | .file n d => by simp [walkEntry]
  | .dir n cs => by
    intro hwf
    rw [wfEntry, Bool.and_eq_true] at hwf
    rw [walkEntry]
    simp only [List.nil_append, List.map_append]
    apply List.Nodup.append
    · rw [walkEntries_shift [n] cs, List.map_map]
      have hinj : Function.Injective (fun q : FsPath => [n] ++ q) := by
        intro a b hab
        simpa using hab
      have hbase := walkEntries_paths_nodup cs hwf.1 hwf.2
      have : (walkEntries [] cs).map (WalkFrame.path ∘ shiftFrame [n])
          = ((walkEntries [] cs).map WalkFrame.path).map (fun q => [n] ++ q) := by
        rw [List.map_map]
        rfl
      rw [this]
      exact hbase.map hinj
    · simp
    · intro a ha hb
      simp at hb
      subst hb
      rw [walkEntries_shift [n] cs, List.map_map] at ha
      obtain ⟨fr₀, hfr₀, hpath⟩ := List.mem_map.mp ha
      simp only [Function.comp_def, shiftFrame] at hpath
      obtain ⟨c, _, q, hq⟩ := walkEntries_path_head cs fr₀ hfr₀
      rw [hq] at hpath
      simp at hpath

theorem walkEntries_paths_nodup : ∀ (cs : List Entry),
    nodupKeys (cs.map entryName) = true → wfChildren cs = true →
    ((walkEntries [] cs).map WalkFrame.path).Nodup
  | [] => by simp [walkEntries]
  | c :: cs => by
    intro hnd hwf
    rw [wfChildren, Bool.and_eq_true] at hwf
    rw [List.map_cons, nodupKeys, Bool.and_eq_true] at hnd
    have hni : entryName c ∉ cs.map entryName := by
      have hh := hnd.1
      simp at hh
      intro hmem
      obtain ⟨x, hx, hxeq⟩ := List.mem_map.mp hmem
      exact hh x hx hxeq
    rw [walkEntries]
    simp only [List.map_append]
    apply List.Nodup.append
    · exact walkEntry_paths_nodup c hwf.1
    · exact walkEntries_paths_nodup cs hnd.2 hwf.2
    · intro a ha hb
      obtain ⟨fr₁, h₁, rfl⟩ := List.mem_map.mp ha
      obtain ⟨fr₂, h₂, heq⟩ := List.mem_map.mp hb
      obtain ⟨q₁, hq₁⟩ := walkEntry_path_head c fr₁ h₁
      obtain ⟨c', hc', q₂, hq₂⟩ := walkEntries_path_head cs fr₂ h₂
      rw [heq, hq₁] at hq₂
      have hcc : entryName c = entryName c' := by
        have h5 := congrArg List.head? hq₂
        simpa using h5
      rw [hcc] at hni
      exact hni (List.mem_map_of_mem entryName hc')

end

/-- `shiftFrame` does not change the name lists of a frame. -/
theorem shiftFrame_names (p : FsPath) (fr : WalkFrame) :
    (shiftFrame p fr).dirNames = fr.dirNames ∧ (shiftFrame p fr).fileNames = fr.fileNames :=
  ⟨rfl, rfl⟩

mutual

theorem walkEntry_frames_names : ∀ (e : Entry), wfEntry e = true →
    ∀ fr ∈ walkEntry [] e, fr.dirNames.Nodup ∧ fr.fileNames.Nodup
  | .file n d => by simp [walkEntry]
  | .dir n cs => by
    intro hwf fr hfr
    rw [wfEntry, Bool.and_eq_true] at hwf
    rw [walkEntry] at hfr
    rcases List.mem_append.mp hfr with h | h
    · rw [walkEntries_shift] at h
      obtain ⟨fr₀, hfr₀, rfl⟩ := List.mem_map.mp h
      exact walkEntries_frames_names cs hwf.1 hwf.2 fr₀ hfr₀
    · simp at h
      subst h
      have hnd : (cs.map entryName).Nodup := (nodupKeys_iff _).mp hwf.1
      exact ⟨hnd.sublist (dirNamesOf_sublist cs), hnd.sublist (fileNamesOf_sublist cs)⟩

theorem walkEntries_frames_names : ∀ (cs : List Entry),
    nodupKeys (cs.map entryName) = true → wfChildren cs = true →
    ∀ fr ∈ walkEntries [] cs, fr.dirNames.Nodup ∧ fr.fileNames.Nodup
  | [] => by simp [walkEntries]
  | c :: cs => by
    intro hnd hwf fr hfr
    rw [wfChildren, Bool.and_eq_true] at hwf
    rw [List.map_cons, nodupKeys, Bool.and_eq_true] at hnd
    rw [walkEntries] at hfr
    rcases List.mem_append.mp hfr with h | h
    · exact walkEntry_frames_names c hwf.1 fr h
    · exact walkEntries_frames_names cs hnd.2 hwf.2 fr h

end

/-! ### Root-level snapshot structure -/

theorem wfRoot_parts {cs : List Entry} (h : wfRoot cs = true) :
    nodupKeys (cs.map entryName) = true ∧ wfChildren cs = true := by
  rw [wfRoot, Bool.and_eq_true] at h
  exact h

theorem walkRoot_paths_nodup {cs : List Entry} (h : wfRoot cs = true) :
    ((walkRoot cs).map WalkFrame.path).Nodup := by
  obtain ⟨hnd, hwf⟩ := wfRoot_parts h
  rw [walkRoot]
  simp only [List.map_append]
  apply List.Nodup.append
  · exact walkEntries_paths_nodup cs hnd hwf
  · simp
  · intro a ha hb
    simp at hb
    obtain ⟨fr, hfr, rfl⟩ := List.mem_map.mp ha
    obtain ⟨c, _, q, hq⟩ := walkEntries_path_head cs fr hfr
    rw [hq] at hb
    simp at hb

theorem walkRoot_pairwise {cs : List Entry} (h : wfRoot cs = true) :
    (walkRoot cs).Pairwise (fun fr₁ fr₂ => notAbove fr₁.path fr₂.path) := by
  obtain ⟨hnd, hwf⟩ := wfRoot_parts h
  rw [walkRoot, List.pairwise_append]
  refine ⟨walkEntries_pairwise cs hnd hwf, by simp, ?_⟩
  intro fr₁ h₁ fr₂ h₂
  simp at h₂
  subst h₂
  intro hpre
  exact List.prefix_nil.mp hpre

theorem walkRoot_frames_names {cs : List Entry} (h : wfRoot cs = true) :
    ∀ fr ∈ walkRoot cs, fr.dirNames.Nodup ∧ fr.fileNames.Nodup := by
  obtain ⟨hnd, hwf⟩ := wfRoot_parts h
  intro fr hfr
  rw [walkRoot] at hfr
  rcases List.mem_append.mp hfr with h' | h'
  · exact walkEntries_frames_names cs hnd hwf fr h'
  · simp at h'
    subst h'
    have hnd' : (cs.map entryName).Nodup := (nodupKeys_iff _).mp hnd
    exact ⟨hnd'.sublist (dirNamesOf_sublist cs), hnd'.sublist (fileNamesOf_sublist cs)⟩


/-! ### Snapshot-level ordering and distinctness -/

theorem pairwise_of_total {α : Type} (R : α → α → Prop) (h : ∀ a b, R a b) :
    ∀ l : List α, l.Pairwise R := by
  intro l
  induction l with
  | nil => exact List.Pairwise.nil
  | cons x xs ih => exact List.Pairwise.cons (fun b _ => h x b) ih

/-- In `all_dirs`, an earlier entry is never a proper ancestor of a later
entry: descendants are processed before their ancestors. -/
theorem collectDirs_pairwise {cs : List Entry} (h : wfRoot cs = true) :
    (collectDirs cs).Pairwise notAbove := by
  rw [collectDirs, List.pairwise_flatten]
  constructor
  · intro l hl
    obtain ⟨fr, _, rfl⟩ := List.mem_map.mp hl
    rw [frameDirPaths, List.pairwise_map]
    apply pairwise_of_total
    intro a b hpre
    exact List.IsPrefix.eq_of_length_le hpre (by simp)
  · have hframes := walkRoot_pairwise h
    rw [List.pairwise_map]
    apply hframes.imp
    intro fr₁ fr₂ hna a ha b hb
    rw [frameDirPaths] at ha hb
    obtain ⟨x, hx, rfl⟩ := List.mem_map.mp ha
    obtain ⟨y, hy, rfl⟩ := List.mem_map.mp hb
    intro hpre
    rcases prefix_concat_cases hpre with he | hstrict
    · exact he
    · have h1 : fr₁.path <+: fr₂.path :=
        List.IsPrefix.trans (List.prefix_append fr₁.path [x]) hstrict
      have h2 := hna h1
      rw [← h2] at hstrict
      have h3 := hstrict.length_le
      simp at h3

theorem collectDirs_nodup {cs : List Entry} (h : wfRoot cs = true) :
    (collectDirs cs).Nodup := by
  rw [collectDirs, List.nodup_flatten]
  constructor
  · intro l hl
    obtain ⟨fr, hfr, rfl⟩ := List.mem_map.mp hl
    rw [frameDirPaths]
    apply List.Nodup.map
    · intro a b hab
      simpa using hab
    · exact ((walkRoot_frames_names h fr hfr).1).filter _
  · have hnd := walkRoot_paths_nodup h
    have hpw : (walkRoot cs).Pairwise (fun fr₁ fr₂ => fr₁.path ≠ fr₂.path) :=
      List.pairwise_map.mp hnd
    rw [List.pairwise_map]
    apply hpw.imp
    intro fr₁ fr₂ hne a ha hb
    rw [frameDirPaths] at ha hb
    obtain ⟨x, hx, rfl⟩ := List.mem_map.mp ha
    obtain ⟨y, hy, heq⟩ := List.mem_map.mp hb
    exact hne (append_singleton_inj heq.symm).1

theorem collectFiles_nodup {cs : List Entry} (h : wfRoot cs = true) :
    (collectFiles cs).Nodup := by
  rw [collectFiles, List.nodup_flatten]
  constructor
  · intro l hl
    obtain ⟨fr, hfr, rfl⟩ := List.mem_map.mp hl
    rw [frameFilePaths]
    apply List.Nodup.map
    · intro a b hab
      simpa using hab
    · exact ((walkRoot_frames_names h fr hfr).2).filter _
  · have hnd := walkRoot_paths_nodup h
    have hpw : (walkRoot cs).Pairwise (fun fr₁ fr₂ => fr₁.path ≠ fr₂.path) :=
      List.pairwise_map.mp hnd
    rw [List.pairwise_map]
    apply hpw.imp
    intro fr₁ fr₂ hne a ha hb
    rw [frameFilePaths] at ha hb
    obtain ⟨x, hx, rfl⟩ := List.mem_map.mp ha
    obtain ⟨y, hy, heq⟩ := List.mem_map.mp hb
    exact hne (append_singleton_inj heq.symm).1


/-! ### Snapshot entries exist in the tree -/

theorem dirAt_cons_ne {c : Entry} {cs : List Entry} {m : Name} {q : FsPath}
    (h : entryName c ≠ m) : dirAt (c :: cs) (m :: q) = dirAt cs (m :: q) := by
  have hfe : findEntry (c :: cs) m = findEntry cs m := by
    simp [findEntry, List.find?_cons, h]
  simp only [dirAt, hfe]

mutual

theorem walkEntry_dirAt : ∀ (e : Entry), wfEntry e = true →
    ∀ fr ∈ walkEntry [] e, ∀ top : List Entry, findEntry top (entryName e) = some e →
      ∃ cs', dirAt top fr.path = some cs' ∧
        fr.dirNames = dirNamesOf cs' ∧ fr.fileNames = fileNamesOf cs'
  | .file n d => by simp [walkEntry]
  | .dir n cs => by
    intro hwf fr hfr top htop
    have htop' : findEntry top n = some (Entry.dir n cs) := htop
    rw [wfEntry, Bool.and_eq_true] at hwf
    rw [walkEntry] at hfr
    simp only [List.nil_append] at hfr
    rcases List.mem_append.mp hfr with hmem | hmem
    · rw [walkEntries_shift [n] cs] at hmem
      obtain ⟨fr₀, hfr₀, rfl⟩ := List.mem_map.mp hmem
      obtain ⟨cs', hcs', hd, hf⟩ := walkEntries_dirAt cs hwf.1 hwf.2 fr₀ hfr₀
      refine ⟨cs', ?_, hd, hf⟩
      show dirAt top (n :: fr₀.path) = some cs'
      rw [dirAt, htop']
      exact hcs'
    · simp at hmem
      subst hmem
      refine ⟨cs, ?_, rfl, rfl⟩
      show dirAt top [n] = some cs
      rw [dirAt, htop']
      rfl

theorem walkEntries_dirAt : ∀ (cs : List Entry), nodupKeys (cs.map entryName) = true →
    wfChildren cs = true → ∀ fr ∈ walkEntries [] cs,
      ∃ cs', dirAt cs fr.path = some cs' ∧
        fr.dirNames = dirNamesOf cs' ∧ fr.fileNames = fileNamesOf cs'
  | [] => by simp [walkEntries]
  | c :: cs => by
    intro hnd hwf fr hfr
    rw [wfChildren, Bool.and_eq_true] at hwf
    rw [List.map_cons, nodupKeys, Bool.and_eq_true] at hnd
    rw [walkEntries] at hfr
    rcases List.mem_append.mp hfr with hmem | hmem
    · exact walkEntry_dirAt c hwf.1 fr hmem (c :: cs)
        (by simp [findEntry, List.find?_cons])
    · obtain ⟨cs', hcs', hd, hf⟩ := walkEntries_dirAt cs hnd.2 hwf.2 fr hmem
      obtain ⟨c', hc', q, hq⟩ := walkEntries_path_head cs fr hmem
      have hni : entryName c ∉ cs.map entryName := by
        have hh := hnd.1
        simp at hh
        intro hmm
        obtain ⟨x, hx, hxeq⟩ := List.mem_map.mp hmm
        exact hh x hx hxeq
      have hne : entryName c ≠ entryName c' := by
        intro hcontra
        rw [hcontra] at hni
        exact hni (List.mem_map_of_mem entryName hc')
      refine ⟨cs', ?_, hd, hf⟩
      rw [hq] at hcs' ⊢
      rw [dirAt_cons_ne hne]
      exact hcs'

end

theorem walkRoot_dirAt {cs : List Entry} (h : wfRoot cs = true) :
    ∀ fr ∈ walkRoot cs, ∃ cs', dirAt cs fr.path = some cs' ∧
      fr.dirNames = dirNamesOf cs' ∧ fr.fileNames = fileNamesOf cs' := by
  obtain ⟨hnd, hwf⟩ := wfRoot_parts h
  intro fr hfr
  rw [walkRoot] at hfr
  rcases List.mem_append.mp hfr with h' | h'
  · exact walkEntries_dirAt cs hnd hwf fr h'
  · simp at h'
    subst h'
    exact ⟨cs, rfl, rfl, rfl⟩

theorem lookupEntry_append_dirAt : ∀ (q : FsPath) (cs cs' : List Entry) (m : Name),
    dirAt cs q = some cs' → lookupEntry cs (q ++ [m]) = findEntry cs' m := by
  intro q
  induction q with
  | nil =>
    intro cs cs' m h
    rw [dirAt] at h
    simp at h
    subst h
    rw [List.nil_append, lookupEntry_single]
  | cons n q' ih =>
    intro cs cs' m h
    rw [dirAt] at h
    rcases hf : findEntry cs n with _ | e
    · rw [hf] at h
      simp at h
    · rw [hf] at h
      cases e with
      | file mm dd => simp at h
      | dir mm ds =>
        simp only at h
        cases q' with
        | nil =>
          rw [List.cons_append, List.nil_append, lookupEntry_cons₂, hf]
          rw [dirAt] at h
          simp at h
          subst h
          show lookupEntry ds [m] = findEntry ds m
          rw [lookupEntry_single]
        | cons r rs =>
          rw [List.cons_append, List.cons_append, lookupEntry_cons₂, hf]
          exact ih ds cs' m h

theorem wfEntry_dir_eq_wfRoot (m : Name) (ds : List Entry) :
    wfEntry (Entry.dir m ds) = wfRoot ds := rfl

theorem dirAt_wf : ∀ (q : FsPath) (cs cs' : List Entry), wfRoot cs = true →
    dirAt cs q = some cs' → wfRoot cs' = true := by
  intro q
  induction q with
  | nil =>
    intro cs cs' hwf h
    rw [dirAt] at h
    simp at h
    subst h
    exact hwf
  | cons n q' ih =>
    intro cs cs' hwf h
    rw [dirAt] at h
    rcases hf : findEntry cs n with _ | e
    · rw [hf] at h
      simp at h
    · rw [hf] at h
      cases e with
      | file mm dd => simp at h
      | dir mm ds =>
        simp only at h
        have hmem := findEntry_mem hf
        have hwfd : wfEntry (Entry.dir mm ds) = true :=
          wfChildren_mem (wfRoot_parts hwf).2 _ hmem
        rw [wfEntry_dir_eq_wfRoot] at hwfd
        exact ih ds cs' hwfd h

theorem findEntry_of_mem_nodup {cs : List Entry}
    (hnd : nodupKeys (cs.map entryName) = true) {e : Entry} (he : e ∈ cs) :
    findEntry cs (entryName e) = some e := by
  have hsome : (findEntry cs (entryName e)).isSome := by
    rw [findEntry, List.find?_isSome]
    exact ⟨e, he, by simp⟩
  obtain ⟨e', he'⟩ := Option.isSome_iff_exists.mp hsome
  have hname := findEntry_name he'
  have hmem := findEntry_mem he'
  have hee : e' = e :=
    List.inj_on_of_nodup_map ((nodupKeys_iff _).mp hnd) hmem he (by rw [hname])
  rw [he', hee]

/-- Every path in `all_files` resolves, in the unmutated tree, to a file
entry whose name is the path's last component. -/
theorem collectFiles_lookup {cs : List Entry} (hwf : wfRoot cs = true) {p : FsPath}
    (hp : p ∈ collectFiles cs) :
    ∃ d, lookupEntry cs p = some (Entry.file (lastName p) d) := by
  rw [collectFiles] at hp
  obtain ⟨l, hl, hpl⟩ := List.mem_flatten.mp hp
  obtain ⟨fr, hfr, rfl⟩ := List.mem_map.mp hl
  rw [frameFilePaths] at hpl
  obtain ⟨m, hm, rfl⟩ := List.mem_map.mp hpl
  have hm' : m ∈ fr.fileNames := List.mem_of_mem_filter hm
  obtain ⟨cs', hcs', hd, hf⟩ := walkRoot_dirAt hwf fr hfr
  rw [hf] at hm'
  obtain ⟨d, hfile⟩ := mem_fileNamesOf.mp hm'
  have hwf' := dirAt_wf fr.path cs cs' hwf hcs'
  have hfind : findEntry cs' m = some (Entry.file m d) :=
    findEntry_of_mem_nodup (wfRoot_parts hwf').1 hfile
  refine ⟨d, ?_⟩
  rw [lookupEntry_append_dirAt fr.path cs cs' m hcs', lastName_append_single, hfind]

/-- Every path in `all_dirs` resolves, in the unmutated tree, to a
directory entry whose name is the path's last component. -/
theorem collectDirs_lookup {cs : List Entry} (hwf : wfRoot cs = true) {p : FsPath}
    (hp : p ∈ collectDirs cs) :
    ∃ ds, lookupEntry cs p = some (Entry.dir (lastName p) ds) := by
  rw [collectDirs] at hp
  obtain ⟨l, hl, hpl⟩ := List.mem_flatten.mp hp
  obtain ⟨fr, hfr, rfl⟩ := List.mem_map.mp hl
  rw [frameDirPaths] at hpl
  obtain ⟨m, hm, rfl⟩ := List.mem_map.mp hpl
  have hm' : m ∈ fr.dirNames := List.mem_of_mem_filter hm
  obtain ⟨cs', hcs', hd, hf⟩ := walkRoot_dirAt hwf fr hfr
  rw [hd] at hm'
  obtain ⟨ds, hdir⟩ := mem_dirNamesOf.mp hm'
  have hwf' := dirAt_wf fr.path cs cs' hwf hcs'
  have hfind : findEntry cs' m = some (Entry.dir m ds) :=
    findEntry_of_mem_nodup (wfRoot_parts hwf').1 hdir
  refine ⟨ds, ?_⟩
  rw [lookupEntry_append_dirAt fr.path cs cs' m hcs', lastName_append_single, hfind]


/-! ### How `replaceFirst` interacts with `findEntry` and `lookupEntry` -/

theorem findEntry_eq_none {es : List Entry} {k : Name}
    (h : ∀ x ∈ es, entryName x ≠ k) : findEntry es k = none := by
  rw [findEntry, List.find?_eq_none]
  intro x hx
  simp [h x hx]

theorem findEntry_replaceFirst_ne {es : List Entry} {n : Name} {e' : Entry} {k : Name}
    (hk : k ≠ n) (hk' : k ≠ entryName e') :
    findEntry (replaceFirst es n e') k = findEntry es k := by
  induction es with
  | nil => rfl
  | cons x xs ih =>
    by_cases hx : entryName x = n
    · rw [replaceFirst, if_pos hx]
      have h1 : findEntry (e' :: xs) k = findEntry xs k := by
        have hne : ¬ entryName e' = k := fun h => hk' h.symm
        simp [findEntry, List.find?_cons, hne]
      have h2 : findEntry (x :: xs) k = findEntry xs k := by
        have hxx : ¬ entryName x = k := by rw [hx]; exact fun h => hk h.symm
        simp [findEntry, List.find?_cons, hxx]
      rw [h1, h2]
    · rw [replaceFirst, if_neg hx]
      by_cases hxk : entryName x = k
      · simp [findEntry, List.find?_cons, hxk]
      · have h1 : findEntry (x :: replaceFirst xs n e') k = findEntry (replaceFirst xs n e') k := by
          simp [findEntry, List.find?_cons, hxk]
        have h2 : findEntry (x :: xs) k = findEntry xs k := by
          simp [findEntry, List.find?_cons, hxk]
        rw [h1, h2, ih]

theorem findEntry_replaceFirst_same {es : List Entry} {n : Name} {e e' : Entry}
    (hname : entryName e' = n) (h : findEntry es n = some e) :
    findEntry (replaceFirst es n e') n = some e' := by
  induction es with
  | nil => simp [findEntry] at h
  | cons x xs ih =>
    by_cases hx : entryName x = n
    · rw [replaceFirst, if_pos hx]
      simp [findEntry, List.find?_cons, hname]
    · rw [replaceFirst, if_neg hx]
      have h' : findEntry xs n = some e := by
        simpa [findEntry, List.find?_cons, hx] using h
      have : findEntry (x :: replaceFirst xs n e') n = findEntry (replaceFirst xs n e') n := by
        simp [findEntry, List.find?_cons, hx]
      rw [this, ih h']

theorem findEntry_replaceFirst_fresh {es : List Entry} {n n' : Name} {e e' : Entry}
    (hname : entryName e' = n') (h : findEntry es n = some e)
    (hfresh : findEntry es n' = none) :
    findEntry (replaceFirst es n e') n' = some e' := by
  induction es with
  | nil => simp [findEntry] at h
  | cons x xs ih =>
    have hxn' : ¬ entryName x = n' := by
      intro hc
      simp [findEntry, List.find?_cons, hc] at hfresh
    by_cases hx : entryName x = n
    · rw [replaceFirst, if_pos hx]
      simp [findEntry, List.find?_cons, hname]
    · rw [replaceFirst, if_neg hx]
      have h' : findEntry xs n = some e := by
        simpa [findEntry, List.find?_cons, hx] using h
      have hfresh' : findEntry xs n' = none := by
        simpa [findEntry, List.find?_cons, hxn'] using hfresh
      have hstep : findEntry (x :: replaceFirst xs n e') n' = findEntry (replaceFirst xs n e') n' := by
        simp [findEntry, List.find?_cons, hxn']
      rw [hstep, ih h' hfresh']

theorem findEntry_replaceFirst_gone {es : List Entry} {n n' : Name} {e e' : Entry}
    (hnd : (es.map entryName).Nodup) (hname : entryName e' = n') (hne : n' ≠ n)
    (h : findEntry es n = some e) :
    findEntry (replaceFirst es n e') n = none := by
  induction es with
  | nil => simp [findEntry] at h
  | cons x xs ih =>
    rw [List.map_cons, List.nodup_cons] at hnd
    by_cases hx : entryName x = n
    · rw [replaceFirst, if_pos hx]
      have h1 : findEntry (e' :: xs) n = findEntry xs n := by
        have : ¬ entryName e' = n := by rw [hname]; exact hne
        simp [findEntry, List.find?_cons, this]
      rw [h1]
      apply findEntry_eq_none
      intro y hy hyn
      apply hnd.1
      rw [← hx] at hyn
      rw [← hyn]
      exact List.mem_map_of_mem entryName hy
    · rw [replaceFirst, if_neg hx]
      have h' : findEntry xs n = some e := by
        simpa [findEntry, List.find?_cons, hx] using h
      have hstep : findEntry (x :: replaceFirst xs n e') n = findEntry (replaceFirst xs n e') n := by
        simp [findEntry, List.find?_cons, hx]
      rw [hstep, ih hnd.2 h']

theorem lookupEntry_congr_find {es₁ es₂ : List Entry} {k : Name} (r : FsPath)
    (h : findEntry es₁ k = findEntry es₂ k) :
    lookupEntry es₁ (k :: r) = lookupEntry es₂ (k :: r) := by
  cases r with
  | nil => rw [lookupEntry_single, lookupEntry_single, h]
  | cons a as => rw [lookupEntry_cons₂, lookupEntry_cons₂, h]


/-! ### Effect of `writeAt` and `renameAt` on lookups elsewhere -/

theorem entryName_setEntryName (e : Entry) (n : Name) :
    entryName (setEntryName e n) = n := by
  cases e <;> rfl

theorem writeAt_lookup_result : ∀ (p : FsPath) (es : List Entry) (m : Name) (d : FileData)
    (c : Name), lookupEntry es p = some (Entry.file m d) →
    lookupEntry (writeAt es p c) p = some (Entry.file m { d with content := c }) := by
  intro p
  induction p with
  | nil => intro es m d c h; simp [lookupEntry] at h
  | cons n rest ih =>
    intro es m d c h
    cases rest with
    | nil =>
      rw [lookupEntry_single] at h
      have hmn : m = n := by
        have := findEntry_name h
        simpa using this
      rw [writeAt_single, h]
      show lookupEntry (replaceFirst es n (Entry.file m { d with content := c })) [n]
        = some (Entry.file m { d with content := c })
      rw [lookupEntry_single]
      exact findEntry_replaceFirst_same (by simp [entryName, hmn]) h
    | cons r rs =>
      rw [lookupEntry_cons₂] at h
      rcases hf : findEntry es n with _ | e
      · rw [hf] at h; simp at h
      · rw [hf] at h
        cases e with
        | file mm dd => simp at h
        | dir mm cs =>
          simp only at h
          have hmn : mm = n := by
            have := findEntry_name hf
            simpa using this
          rw [writeAt_cons₂, hf]
          show lookupEntry (replaceFirst es n (Entry.dir mm (writeAt cs (r :: rs) c)))
              (n :: r :: rs) = _
          rw [lookupEntry_cons₂,
            findEntry_replaceFirst_same (by simp [entryName, hmn]) hf]
          exact ih cs m d c h

theorem writeAt_lookup_ne : ∀ (p : FsPath) (es : List Entry) (c : Name) (q : FsPath),
    q ≠ p → (∃ mq dq, lookupEntry es q = some (Entry.file mq dq)) →
    lookupEntry (writeAt es p c) q = lookupEntry es q := by
  intro p
  induction p with
  | nil => intro es c q _ _; rfl
  | cons n rest ih =>
    intro es c q hne hq
    obtain ⟨mq, dq, hq⟩ := hq
    cases q with
    | nil => simp [lookupEntry] at hq
    | cons k qr =>
      rcases hf : findEntry es n with _ | e
      · have : writeAt es (n :: rest) c = es := by
          cases rest <;> simp [writeAt_single, writeAt_cons₂, hf]
        rw [this]
      · cases e with
        | file m d =>
          cases rest with
          | cons r rs =>
            have : writeAt es (n :: r :: rs) c = es := by
              simp [writeAt_cons₂, hf]
            rw [this]
          | nil =>
            rw [writeAt_single, hf]
            by_cases hk : k = n
            · subst hk
              cases qr with
              | nil => exact absurd rfl hne
              | cons a as =>
                rw [lookupEntry_cons₂, hf] at hq
                simp at hq
            · apply lookupEntry_congr_find
              apply findEntry_replaceFirst_ne hk
              have := findEntry_name hf
              simp [entryName] at this
              simp [entryName, this]
              exact hk
        | dir mm cs =>
          cases rest with
          | nil =>
            have : writeAt es [n] c = es := by
              simp [writeAt_single, hf]
            rw [this]
          | cons r rs =>
            rw [writeAt_cons₂, hf]
            by_cases hk : k = n
            · subst hk
              cases qr with
              | nil =>
                rw [lookupEntry_single] at hq
                rw [hq] at hf
                exact absurd hf.symm (by simp)
              | cons a as =>
                rw [lookupEntry_cons₂, hf] at hq
                simp only at hq
                show lookupEntry (replaceFirst es k (Entry.dir mm (writeAt cs (r :: rs) c)))
                    (k :: a :: as) = lookupEntry es (k :: a :: as)
                have hmn : mm = k := by
                  have := findEntry_name hf
                  simpa using this
                rw [lookupEntry_cons₂,
                  findEntry_replaceFirst_same (by simp [entryName, hmn]) hf,
                  lookupEntry_cons₂, hf]
                simp only
                apply ih cs c (a :: as) ?_ ⟨mq, dq, hq⟩
                intro hcontra
                exact hne (by rw [hcontra])
            · apply lookupEntry_congr_find
              apply findEntry_replaceFirst_ne hk
              have hmn : mm = n := by
                have := findEntry_name hf
                simpa using this
              simp [entryName, hmn]
              exact hk

theorem writeAt_lookup_isSome : ∀ (p : FsPath) (es : List Entry) (c : Name) (q : FsPath),
    (lookupEntry (writeAt es p c) q).isSome = (lookupEntry es q).isSome := by
  intro p
  induction p with
  | nil => intro es c q; rfl
  | cons n rest ih =>
    intro es c q
    rcases hf : findEntry es n with _ | e
    · have : writeAt es (n :: rest) c = es := by
        cases rest <;> simp [writeAt_single, writeAt_cons₂, hf]
      rw [this]
    · cases e with
      | file m d =>
        cases rest with
        | cons r rs =>
          have : writeAt es (n :: r :: rs) c = es := by
            simp [writeAt_cons₂, hf]
          rw [this]
        | nil =>
          rw [writeAt_single, hf]
          cases q with
          | nil => rfl
          | cons k qr =>
            by_cases hk : k = n
            · subst hk
              have hmn : m = k := by
                have := findEntry_name hf
                simpa using this
              have hfind := @findEntry_replaceFirst_same _ _ _
                (Entry.file m { d with content := c }) (by simp [entryName, hmn]) hf
              cases qr with
              | nil =>
                rw [lookupEntry_single, lookupEntry_single, hfind, hf]
                rfl
              | cons a as =>
                rw [lookupEntry_cons₂, lookupEntry_cons₂, hfind, hf]
            · apply congrArg
              apply lookupEntry_congr_find
              apply findEntry_replaceFirst_ne hk
              have hmn : m = n := by
                have := findEntry_name hf
                simpa using this
              simp [entryName, hmn]
              exact hk
      | dir mm cs =>
        cases rest with
        | nil =>
          have : writeAt es [n] c = es := by
            simp [writeAt_single, hf]
          rw [this]
        | cons r rs =>
          rw [writeAt_cons₂, hf]
          cases q with
          | nil => rfl
          | cons k qr =>
            by_cases hk : k = n
            · subst hk
              have hmn : mm = k := by
                have := findEntry_name hf
                simpa using this
              have hfind := @findEntry_replaceFirst_same _ _ _
                (Entry.dir mm (writeAt cs (r :: rs) c)) (by simp [entryName, hmn]) hf
              cases qr with
              | nil =>
                rw [lookupEntry_single, lookupEntry_single, hfind, hf]
                rfl
              | cons a as =>
                rw [lookupEntry_cons₂, lookupEntry_cons₂, hfind, hf]
                simp only
                exact ih cs c (a :: as)
            · apply congrArg
              apply lookupEntry_congr_find
              apply findEntry_replaceFirst_ne hk
              have hmn : mm = n := by
                have := findEntry_name hf
                simpa using this
              simp [entryName, hmn]
              exact hk


theorem lookup_append_dir : ∀ (a : FsPath) (r : FsPath) (es : List Entry),
    a ≠ [] → r ≠ [] → (lookupEntry es (a ++ r)).isSome = true →
    ∃ mm ds, lookupEntry es a = some (Entry.dir mm ds) := by
  intro a
  induction a with
  | nil => intro r es h _ _; exact absurd rfl h
  | cons n a' ih =>
    intro r es _ hr hsome
    cases a' with
    | nil =>
      cases r with
      | nil => exact absurd rfl hr
      | cons x xs =>
        rw [List.cons_append, List.nil_append, lookupEntry_cons₂] at hsome
        rcases hf : findEntry es n with _ | e
        · rw [hf] at hsome; simp at hsome
        · rw [hf] at hsome
          cases e with
          | file _ _ => simp at hsome
          | dir mm ds =>
            exact ⟨mm, ds, by rw [lookupEntry_single, hf]⟩
    | cons b a'' =>
      rw [List.cons_append] at hsome
      have hne : (b :: a'') ++ r ≠ [] := by simp
      obtain ⟨x, xs, hxs⟩ : ∃ x xs, (b :: a'') ++ r = x :: xs := ⟨b, a'' ++ r, rfl⟩
      rw [hxs, lookupEntry_cons₂] at hsome
      rcases hf : findEntry es n with _ | e
      · rw [hf] at hsome; simp at hsome
      · rw [hf] at hsome
        cases e with
        | file _ _ => simp at hsome
        | dir mm ds =>
          simp only at hsome
          rw [← hxs] at hsome
          obtain ⟨m2, ds2, hds2⟩ := ih r ds (by simp) hr hsome
          refine ⟨m2, ds2, ?_⟩
          rw [lookupEntry_cons₂, hf]
          exact hds2

/-- A successful rename to a genuinely new name implies the target path
was previously vacant (this is the collision check). -/
theorem renameAt_target_none : ∀ (p : FsPath) (es : List Entry) (n' : Name)
    (es' : List Entry), renameAt es p n' = some es' → n' ≠ lastName p →
    lookupEntry es (p.dropLast ++ [n']) = none := by
  intro p
  induction p with
  | nil => intro es n' es' h _; simp [renameAt] at h
  | cons n rest ih =>
    intro es n' es' h hne
    cases rest with
    | nil =>
      rw [renameAt_single] at h
      rcases hf : findEntry es n with _ | e
      · rw [hf] at h; simp at h
      · rw [hf] at h
        simp only at h
        rw [lastName_single] at hne
        rw [if_neg hne] at h
        by_cases hcol : (findEntry es n').isSome = true
        · rw [if_pos hcol] at h; simp at h
        · show lookupEntry es ([] ++ [n']) = none
          rw [List.nil_append, lookupEntry_single]
          simpa using hcol
    | cons r rs =>
      rw [renameAt_cons₂] at h
      rcases hf : findEntry es n with _ | e
      · rw [hf] at h; simp at h
      · rw [hf] at h
        cases e with
        | file _ _ => simp at h
        | dir mm cs =>
          simp only at h
          rcases hra : renameAt cs (r :: rs) n' with _ | cs'
          · rw [hra] at h; simp at h
          · have hlast : lastName (n :: r :: rs) = lastName (r :: rs) :=
              lastName_cons (by simp)
            rw [hlast] at hne
            have hinner := ih cs n' cs' hra hne
            have hdl : (n :: r :: rs).dropLast = n :: (r :: rs).dropLast := rfl
            rw [hdl, List.cons_append]
            obtain ⟨x, xs, hxs⟩ : ∃ x xs, (r :: rs).dropLast ++ [n'] = x :: xs := by
              cases hdd : (r :: rs).dropLast with
              | nil => exact ⟨n', [], by simp⟩
              | cons y ys => exact ⟨y, ys ++ [n'], by simp⟩
            rw [hxs, lookupEntry_cons₂, hf]
            simp only
            rw [← hxs]
            exact hinner

/-- A successful rename preserves existence of every path that lies
neither under the renamed source nor under its target. -/
theorem renameAt_lookup_isSome : ∀ (p : FsPath) (es : List Entry) (n' : Name)
    (es' : List Entry) (q : FsPath), renameAt es p n' = some es' →
    ¬ (p <+: q) → ¬ ((p.dropLast ++ [n']) <+: q) →
    (lookupEntry es' q).isSome = (lookupEntry es q).isSome := by
  intro p
  induction p with
  | nil => intro es n' es' q h _ _; simp [renameAt] at h
  | cons n rest ih =>
    intro es n' es' q h hq hq'
    cases rest with
    | nil =>
      rw [renameAt_single] at h
      rcases hf : findEntry es n with _ | e
      · rw [hf] at h; simp at h
      · rw [hf] at h
        simp only at h
        by_cases hnn : n' = n
        · rw [if_pos hnn] at h
          simp at h
          rw [h]
        · rw [if_neg hnn] at h
          by_cases hcol : (findEntry es n').isSome = true
          · rw [if_pos hcol] at h; simp at h
          · rw [if_neg hcol] at h
            simp at h
            subst h
            cases q with
            | nil => rfl
            | cons k qr =>
              by_cases hk : k = n
              · subst hk
                exact absurd (List.cons_prefix_cons.mpr ⟨rfl, List.nil_prefix⟩) hq
              · by_cases hk' : k = n'
                · subst hk'
                  exact absurd (by
                    show ([] ++ [k] : FsPath) <+: k :: qr
                    rw [List.nil_append]
                    exact List.cons_prefix_cons.mpr ⟨rfl, List.nil_prefix⟩) hq'
                · apply congrArg
                  apply lookupEntry_congr_find
                  apply findEntry_replaceFirst_ne hk
                  rw [entryName_setEntryName]
                  exact hk'
    | cons r rs =>
      rw [renameAt_cons₂] at h
      rcases hf : findEntry es n with _ | e
      · rw [hf] at h; simp at h
      · rw [hf] at h
        cases e with
        | file _ _ => simp at h
        | dir mm cs =>
          simp only at h
          rcases hra : renameAt cs (r :: rs) n' with _ | cs'
          · rw [hra] at h; simp at h
          · rw [hra] at h
            simp at h
            subst h
            have hmn : mm = n := by
              have := findEntry_name hf
              simpa using this
            cases q with
            | nil => rfl
            | cons k qr =>
              by_cases hk : k = n
              · subst hk
                have hfind' := @findEntry_replaceFirst_same _ _ _
                  (Entry.dir mm cs') (by simp [entryName, hmn]) hf
                cases qr with
                | nil =>
                  rw [lookupEntry_single, lookupEntry_single, hfind', hf]
                  rfl
                | cons a as =>
                  rw [lookupEntry_cons₂, lookupEntry_cons₂, hfind', hf]
                  simp only
                  apply ih cs n' cs' (a :: as) hra
                  · intro hcontra
                    exact hq (List.cons_prefix_cons.mpr ⟨rfl, hcontra⟩)
                  · intro hcontra
                    apply hq'
                    show (k :: (r :: rs).dropLast) ++ [n'] <+: k :: a :: as
                    rw [List.cons_append]
                    exact List.cons_prefix_cons.mpr ⟨rfl, hcontra⟩
              · apply congrArg
                apply lookupEntry_congr_find
                apply findEntry_replaceFirst_ne hk
                simp [entryName, hmn]
                exact hk


/-! ### The four passes: counters, logs, and per-path effects -/

theorem collectFiles_pairwise {cs : List Entry} (h : wfRoot cs = true) :
    (collectFiles cs).Pairwise notAbove := by
  rw [collectFiles, List.pairwise_flatten]
  constructor
  · intro l hl
    obtain ⟨fr, _, rfl⟩ := List.mem_map.mp hl
    rw [frameFilePaths, List.pairwise_map]
    apply pairwise_of_total
    intro a b hpre
    exact List.IsPrefix.eq_of_length_le hpre (by simp)
  · have hframes := walkRoot_pairwise h
    rw [List.pairwise_map]
    apply hframes.imp
    intro fr₁ fr₂ hna a ha b hb
    rw [frameFilePaths] at ha hb
    obtain ⟨x, hx, rfl⟩ := List.mem_map.mp ha
    obtain ⟨y, hy, rfl⟩ := List.mem_map.mp hb
    intro hpre
    rcases prefix_concat_cases hpre with he | hstrict
    · exact he
    · have h1 : fr₁.path <+: fr₂.path :=
        List.IsPrefix.trans (List.prefix_append fr₁.path [x]) hstrict
      have h2 := hna h1
      rw [← h2] at hstrict
      have h3 := hstrict.length_le
      simp at h3

theorem contentStep_counters (old new : Name) (dry : Bool) (s : RunState) (p : FsPath) :
    (contentStep old new dry s p).renamedFiles = s.renamedFiles ∧
    (contentStep old new dry s p).renamedDirs = s.renamedDirs ∧
    (contentStep old new dry s p).rootName = s.rootName := by
  rw [contentStep]
  rcases hl : lookupEntry s.tree p with _ | e
  · simp
  · cases e with
    | dir m cs => simp
    | file m d =>
      cases dry with
      | true =>
        by_cases hc : (d.readOk && containsTok old d.content) = true <;> simp [hc]
      | false =>
        simp only [replaceInFile]
        by_cases hr : d.readOk = true
        · by_cases hcc : containsTok old d.content = true
          · by_cases hw : d.writeOk = true <;> simp [hr, hcc, hw]
          · simp [hr, hcc]
        · simp [hr]

theorem fileRenameStep_counters (old new : Name) (dry : Bool) (s : RunState) (p : FsPath) :
    (fileRenameStep old new dry s p).modifiedFiles = s.modifiedFiles ∧
    (fileRenameStep old new dry s p).renamedDirs = s.renamedDirs ∧
    (fileRenameStep old new dry s p).rootName = s.rootName := by
  simp only [fileRenameStep]
  by_cases hc : ((lookupEntry s.tree p).isSome && containsTok old (lastName p)) = true
  · cases dry with
    | true => simp [hc]
    | false =>
      have hfields := renameItem_fields old new s p
      simp [hc, hfields.1, hfields.2.1, hfields.2.2.2]
  · simp [hc]

theorem dirRenameStep_counters (old new : Name) (dry : Bool) (s : RunState) (p : FsPath) :
    (dirRenameStep old new dry s p).modifiedFiles = s.modifiedFiles ∧
    (dirRenameStep old new dry s p).renamedFiles = s.renamedFiles ∧
    (dirRenameStep old new dry s p).rootName = s.rootName := by
  simp only [dirRenameStep]
  by_cases hc : ((lookupEntry s.tree p).isSome && containsTok old (lastName p)) = true
  · cases dry with
    | true => simp [hc]
    | false =>
      have hfields := renameItem_fields old new s p
      simp [hc, hfields.1, hfields.2.1, hfields.2.2.1]
  · simp [hc]

theorem foldl_field {α β : Type} (f : RunState → α → RunState) (g : RunState → β)
    (hf : ∀ s a, g (f s a) = g s) :
    ∀ (l : List α) (s : RunState), g (l.foldl f s) = g s := by
  intro l
  induction l with
  | nil => intro s; rfl
  | cons a as ih =>
    intro s
    rw [List.foldl_cons, ih (f s a), hf s a]

/-! Dry-mode steps never touch the tree. -/

theorem contentStep_dry_tree (old new : Name) (s : RunState) (p : FsPath) :
    (contentStep old new true s p).tree = s.tree := by
  rw [contentStep]
  rcases hl : lookupEntry s.tree p with _ | e
  · rfl
  · cases e with
    | dir m cs => rfl
    | file m d =>
      by_cases hc : (d.readOk && containsTok old d.content) = true <;> simp [hc]

theorem fileRenameStep_dry_tree (old new : Name) (s : RunState) (p : FsPath) :
    (fileRenameStep old new true s p).tree = s.tree := by
  simp only [fileRenameStep]
  by_cases hc : ((lookupEntry s.tree p).isSome && containsTok old (lastName p)) = true <;>
    simp [hc]

theorem dirRenameStep_dry_tree (old new : Name) (s : RunState) (p : FsPath) :
    (dirRenameStep old new true s p).tree = s.tree := by
  simp only [dirRenameStep]
  by_cases hc : ((lookupEntry s.tree p).isSome && containsTok old (lastName p)) = true <;>
    simp [hc]

/-! Dry-mode counters are pure counts over the snapshot against the
unchanged input tree. -/

theorem contentPass_dry_count (old new : Name) :
    ∀ (l : List FsPath) (s : RunState),
    (l.foldl (contentStep old new true) s).tree = s.tree ∧
    (l.foldl (contentStep old new true) s).modifiedFiles
      = s.modifiedFiles + l.countP (dryHit old s.tree) := by
  intro l
  induction l with
  | nil => intro s; exact ⟨rfl, by simp⟩
  | cons p rest ih =>
    intro s
    rw [List.foldl_cons]
    obtain ⟨iht, ihc⟩ := ih (contentStep old new true s p)
    have htree := contentStep_dry_tree old new s p
    refine ⟨iht.trans htree, ?_⟩
    rw [ihc, htree]
    have hstep : (contentStep old new true s p).modifiedFiles
        = s.modifiedFiles + (if dryHit old s.tree p then 1 else 0) := by
      rw [contentStep, dryHit]
      rcases hl : lookupEntry s.tree p with _ | e
      · simp
      · cases e with
        | dir m cs => simp
        | file m d =>
          by_cases hc : (d.readOk && containsTok old d.content) = true <;> simp [hc]
    rw [hstep, List.countP_cons]
    have : dryHit old s.tree p = true ∨ dryHit old s.tree p = false := by
      cases dryHit old s.tree p <;> simp
    rcases this with hh | hh <;> simp [hh] <;> omega

theorem fileRenamePass_dry_count (old new : Name) :
    ∀ (l : List FsPath) (s : RunState),
    (l.foldl (fileRenameStep old new true) s).tree = s.tree ∧
    (l.foldl (fileRenameStep old new true) s).renamedFiles
      = s.renamedFiles +
        l.countP (fun q => (lookupEntry s.tree q).isSome && containsTok old (lastName q)) := by
  intro l
  induction l with
  | nil => intro s; exact ⟨rfl, by simp⟩
  | cons p rest ih =>
    intro s
    rw [List.foldl_cons]
    obtain ⟨iht, ihc⟩ := ih (fileRenameStep old new true s p)
    have htree := fileRenameStep_dry_tree old new s p
    refine ⟨iht.trans htree, ?_⟩
    rw [ihc, htree]
    have hstep : (fileRenameStep old new true s p).renamedFiles
        = s.renamedFiles +
          (if ((lookupEntry s.tree p).isSome && containsTok old (lastName p)) then 1 else 0) := by
      simp only [fileRenameStep]
      by_cases hc : ((lookupEntry s.tree p).isSome && containsTok old (lastName p)) = true <;>
        simp [hc]
    rw [hstep, List.countP_cons]
    by_cases hh : ((lookupEntry s.tree p).isSome && containsTok old (lastName p)) = true <;>
      simp [hh] <;> omega

theorem dirRenamePass_dry_count (old new : Name) :
    ∀ (l : List FsPath) (s : RunState),
    (l.foldl (dirRenameStep old new true) s).tree = s.tree ∧
    (l.foldl (dirRenameStep old new true) s).renamedDirs
      = s.renamedDirs +
        l.countP (fun q => (lookupEntry s.tree q).isSome && containsTok old (lastName q)) := by
  intro l
  induction l with
  | nil => intro s; exact ⟨rfl, by simp⟩
  | cons p rest ih =>
    intro s
    rw [List.foldl_cons]
    obtain ⟨iht, ihc⟩ := ih (dirRenameStep old new true s p)
    have htree := dirRenameStep_dry_tree old new s p
    refine ⟨iht.trans htree, ?_⟩
    rw [ihc, htree]
    have hstep : (dirRenameStep old new true s p).renamedDirs
        = s.renamedDirs +
          (if ((lookupEntry s.tree p).isSome && containsTok old (lastName p)) then 1 else 0) := by
      simp only [dirRenameStep]
      by_cases hc : ((lookupEntry s.tree p).isSome && containsTok old (lastName p)) = true <;>
        simp [hc]
    rw [hstep, List.countP_cons]
    by_cases hh : ((lookupEntry s.tree p).isSome && containsTok old (lastName p)) = true <;>
      simp [hh] <;> omega


/-! ### Apply-mode passes: counters and per-path effects -/

theorem contentStep_apply_cases (old new : Name) (s : RunState) (p : FsPath) :
    ((contentStep old new false s p).tree = s.tree ∧
     (contentStep old new false s p).modifiedFiles = s.modifiedFiles ∧
     (∀ m d, lookupEntry s.tree p = some (Entry.file m d) →
       (d.readOk && containsTok old d.content && d.writeOk) = false))
    ∨ (∃ m d, lookupEntry s.tree p = some (Entry.file m d) ∧
        (d.readOk && containsTok old d.content && d.writeOk) = true ∧
        (contentStep old new false s p).tree = writeAt s.tree p (pyReplace old new d.content) ∧
        (contentStep old new false s p).modifiedFiles = s.modifiedFiles + 1) := by
  rw [contentStep]
  rcases hl : lookupEntry s.tree p with _ | e
  · left
    exact ⟨rfl, rfl, by intro m d h; simp at h⟩
  · cases e with
    | dir mm cs =>
      left
      exact ⟨rfl, rfl, by intro m d h; simp at h⟩
    | file mm dd =>
      simp only [replaceInFile]
      by_cases hr : dd.readOk = true
      · by_cases hcc : containsTok old dd.content = true
        · by_cases hw : dd.writeOk = true
          · right
            refine ⟨mm, dd, rfl, by simp [hr, hcc, hw], ?_, ?_⟩ <;> simp [hr, hcc, hw]
          · left
            refine ⟨by simp [hr, hcc, hw], by simp [hr, hcc, hw], ?_⟩
            intro m d h
            simp at h
            simp [← h.2, hw]
        · left
          refine ⟨by simp [hr, hcc], by simp [hr, hcc], ?_⟩
          intro m d h
          simp at h
          simp [← h.2, hcc]
      · left
        refine ⟨by simp [hr], by simp [hr], ?_⟩
        intro m d h
        simp at h
        simp [← h.2, hr]

theorem contentPass_count (old new : Name) : ∀ (l : List FsPath) (s : RunState)
    (t₀ : List Entry), l.Nodup → (∀ q ∈ l, lookupEntry s.tree q = lookupEntry t₀ q) →
    (∀ q ∈ l, ∃ m d, lookupEntry t₀ q = some (Entry.file m d)) →
    (l.foldl (contentStep old new false) s).modifiedFiles
      = s.modifiedFiles + l.countP (applyHit old t₀) := by
  intro l
  induction l with
  | nil => intro s t₀ _ _ _; simp
  | cons p rest ih =>
    intro s t₀ hnd hlook hfiles
    rw [List.nodup_cons] at hnd
    obtain ⟨m, d, hpd⟩ := hfiles p (by simp)
    have hpl : lookupEntry s.tree p = some (Entry.file m d) := by
      rw [hlook p (by simp), hpd]
    have hhit : applyHit old t₀ p = (d.readOk && containsTok old d.content && d.writeOk) := by
      rw [applyHit, hpd]
    rw [List.foldl_cons, List.countP_cons]
    rcases contentStep_apply_cases old new s p with ⟨ht, hm, hflag⟩ | ⟨m', d', hl', hflag, ht, hm⟩
    · have hflag' := hflag m d hpl
      have : applyHit old t₀ p = false := by rw [hhit, hflag']
      rw [this]
      simp only [if_false, Bool.false_eq_true]
      have := ih (contentStep old new false s p) t₀ hnd.2
        (by intro q hq; rw [ht]; exact hlook q (by simp [hq]))
        (by intro q hq; exact hfiles q (by simp [hq]))
      rw [this, hm]
      omega
    · rw [hl'] at hpl
      obtain ⟨rfl, rfl⟩ : m' = m ∧ d' = d := by
        have := hpl
        simp at this
        exact ⟨this.1, this.2⟩
      have : applyHit old t₀ p = true := by rw [hhit, hflag]
      rw [this]
      have hrec := ih (contentStep old new false s p) t₀ hnd.2
        (by
          intro q hq
          rw [ht]
          rw [writeAt_lookup_ne p s.tree (pyReplace old new d'.content) q
            (by intro hc; exact hnd.1 (hc ▸ hq))
            (by
              obtain ⟨mq, dq, hqd⟩ := hfiles q (by simp [hq])
              exact ⟨mq, dq, by rw [hlook q (by simp [hq]), hqd]⟩)]
          exact hlook q (by simp [hq]))
        (by intro q hq; exact hfiles q (by simp [hq]))
      rw [hrec, hm]
      simp
      omega

theorem contentPass_untouched (old new : Name) : ∀ (l : List FsPath) (s : RunState)
    (q : FsPath), q ∉ l → (∃ m d, lookupEntry s.tree q = some (Entry.file m d)) →
    lookupEntry ((l.foldl (contentStep old new false) s).tree) q = lookupEntry s.tree q := by
  intro l
  induction l with
  | nil => intro s q _ _; rfl
  | cons p rest ih =>
    intro s q hq hfile
    rw [List.foldl_cons]
    have hqp : q ≠ p := by intro hc; exact hq (by simp [hc])
    rcases contentStep_apply_cases old new s p with ⟨ht, _, _⟩ | ⟨m', d', hl', _, ht, _⟩
    · rw [ih (contentStep old new false s p) q (by intro hc; exact hq (by simp [hc]))
        (by rw [ht]; exact hfile), ht]
    · have hpre : lookupEntry ((contentStep old new false s p).tree) q = lookupEntry s.tree q := by
        rw [ht]
        exact writeAt_lookup_ne p s.tree (pyReplace old new d'.content) q hqp hfile
      rw [ih (contentStep old new false s p) q (by intro hc; exact hq (by simp [hc]))
        (by rw [hpre]; exact hfile), hpre]

theorem contentPass_memberResult (old new : Name) : ∀ (l : List FsPath) (s : RunState)
    (t₀ : List Entry), l.Nodup → (∀ q ∈ l, lookupEntry s.tree q = lookupEntry t₀ q) →
    (∀ q ∈ l, ∃ m d, lookupEntry t₀ q = some (Entry.file m d)) →
    ∀ p ∈ l, ∀ m d, lookupEntry t₀ p = some (Entry.file m d) →
      lookupEntry ((l.foldl (contentStep old new false) s).tree) p
        = some (Entry.file m (contentTransform old new d)) := by
  intro l
  induction l with
  | nil => intro s t₀ _ _ _ p hp; simp at hp
  | cons p₀ rest ih =>
    intro s t₀ hnd hlook hfiles p hp m d hpd
    rw [List.nodup_cons] at hnd
    rw [List.foldl_cons]
    rcases List.mem_cons.mp hp with rfl | hpr
    · have hpl : lookupEntry s.tree p = some (Entry.file m d) := by
        rw [hlook p (by simp), hpd]
      rcases contentStep_apply_cases old new s p with ⟨ht, _, hflag⟩ | ⟨m', d', hl', hflag, ht, _⟩
      · have hflag' := hflag m d hpl
        have htrans : contentTransform old new d = d := by
          rw [contentTransform, hflag']
          rfl
        rw [contentPass_untouched old new rest (contentStep old new false s p) p hnd.1
          (by rw [ht]; exact ⟨m, d, hpl⟩), ht, hpl, htrans]
      · rw [hl'] at hpl
        obtain ⟨rfl, rfl⟩ : m' = m ∧ d' = d := by
          have := hpl
          simp at this
          exact ⟨this.1, this.2⟩
        have hres : lookupEntry ((contentStep old new false s p).tree) p
            = some (Entry.file m' { d' with content := pyReplace old new d'.content }) := by
          rw [ht]
          exact writeAt_lookup_result p s.tree m' d' (pyReplace old new d'.content) hl'
        have htrans : contentTransform old new d'
            = { d' with content := pyReplace old new d'.content } := by
          rw [contentTransform, hflag]
          rfl
        rw [contentPass_untouched old new rest (contentStep old new false s p) p hnd.1
          ⟨m', _, hres⟩, hres, htrans]
    · have hple : lookupEntry ((contentStep old new false s p₀).tree) p = lookupEntry s.tree p := by
        rcases contentStep_apply_cases old new s p₀ with ⟨ht, _, _⟩ | ⟨m', d', hl', _, ht, _⟩
        · rw [ht]
        · rw [ht]
          apply writeAt_lookup_ne p₀ s.tree (pyReplace old new d'.content) p
            (by intro hc; exact hnd.1 (hc ▸ hpr))
          obtain ⟨mq, dq, hqd⟩ := hfiles p (by simp [hpr])
          exact ⟨mq, dq, by rw [hlook p (by simp [hpr]), hqd]⟩
      apply ih (contentStep old new false s p₀) t₀ hnd.2
        (by intro q hq
            rcases contentStep_apply_cases old new s p₀ with ⟨ht, _, _⟩ | ⟨m', d', hl', _, ht, _⟩
            · rw [ht]
              exact hlook q (by simp [hq])
            · rw [ht]
              rw [writeAt_lookup_ne p₀ s.tree (pyReplace old new d'.content) q
                (by intro hc; exact hnd.1 (hc ▸ hq))
                (by
                  obtain ⟨mq, dq, hqd⟩ := hfiles q (by simp [hq])
                  exact ⟨mq, dq, by rw [hlook q (by simp [hq]), hqd]⟩)]
              exact hlook q (by simp [hq]))
        (by intro q hq; exact hfiles q (by simp [hq])) p hpr m d hpd


theorem renameAt_keeps_other {es t' : List Entry} {p : FsPath} {n₂ : Name}
    (hra : renameAt es p n₂ = some t') {q : FsPath}
    (hq : (lookupEntry es q).isSome = true) (hnotunder : ¬ (p <+: q)) :
    (lookupEntry t' q).isSome = true := by
  by_cases hsame : n₂ = lastName p
  · subst hsame
    rcases renameAt_self es p with h' | h'
    · rw [hra] at h'
      have ht : t' = es := by simpa using h'
      rw [ht]
      exact hq
    · rw [hra] at h'
      simp at h'
  · have htgt := renameAt_target_none p es n₂ t' hra hsame
    have hnot2 : ¬ ((p.dropLast ++ [n₂]) <+: q) := by
      intro hcontra
      obtain ⟨rr, rfl⟩ := hcontra
      cases rr with
      | nil =>
        rw [List.append_nil] at hq
        rw [htgt] at hq
        simp at hq
      | cons x xs =>
        obtain ⟨mm, ds, hds⟩ :=
          lookup_append_dir (p.dropLast ++ [n₂]) (x :: xs) es (by simp) (by simp) hq
        rw [htgt] at hds
        exact absurd hds (by simp)
    rw [renameAt_lookup_isSome p es n₂ t' q hra hnotunder hnot2]
    exact hq

theorem renameItem_tree_cases (old new : Name) (s : RunState) (p : FsPath) :
    (renameItem old new s p).tree = s.tree ∨
    renameAt s.tree p (pyReplace old new (lastName p))
      = some (renameItem old new s p).tree := by
  by_cases hc : containsTok old (lastName p) = true
  · rcases hr : renameAt s.tree p (pyReplace old new (lastName p)) with _ | t'
    · left
      rw [renameItem]
      simp [hc, hr]
    · right
      have heq : (renameItem old new s p).tree = t' := by
        rw [renameItem]
        simp [hc, hr]
      rw [heq]
  · left
    rw [renameItem]
    simp [hc]

theorem fileRenameStep_tree_cases (old new : Name) (s : RunState) (p : FsPath) :
    (fileRenameStep old new false s p).tree = s.tree ∨
    renameAt s.tree p (pyReplace old new (lastName p))
      = some (fileRenameStep old new false s p).tree := by
  simp only [fileRenameStep]
  by_cases hc : ((lookupEntry s.tree p).isSome && containsTok old (lastName p)) = true
  · simp only [hc, if_pos, Bool.false_eq_true, if_false]
    rcases renameItem_tree_cases old new s p with h | h
    · left
      simpa using h
    · right
      simpa using h
  · left
    simp [hc]

theorem dirRenameStep_tree_cases (old new : Name) (s : RunState) (p : FsPath) :
    (dirRenameStep old new false s p).tree = s.tree ∨
    renameAt s.tree p (pyReplace old new (lastName p))
      = some (dirRenameStep old new false s p).tree := by
  simp only [dirRenameStep]
  by_cases hc : ((lookupEntry s.tree p).isSome && containsTok old (lastName p)) = true
  · simp only [hc, if_pos, Bool.false_eq_true, if_false]
    rcases renameItem_tree_cases old new s p with h | h
    · left
      simpa using h
    · right
      simpa using h
  · left
    simp [hc]

theorem contentPass_isSome (old new : Name) : ∀ (l : List FsPath) (s : RunState) (q : FsPath),
    (lookupEntry ((l.foldl (contentStep old new false) s).tree) q).isSome
      = (lookupEntry s.tree q).isSome := by
  intro l
  induction l with
  | nil => intro s q; rfl
  | cons p rest ih =>
    intro s q
    rw [List.foldl_cons, ih (contentStep old new false s p) q]
    rcases contentStep_apply_cases old new s p with ⟨ht, _, _⟩ | ⟨m', d', _, _, ht, _⟩
    · rw [ht]
    · rw [ht, writeAt_lookup_isSome]

theorem fileRenamePass_keeps (old new : Name) : ∀ (l : List FsPath) (s : RunState) (q : FsPath),
    (∀ p ∈ l, ¬ (p <+: q)) → (lookupEntry s.tree q).isSome = true →
    (lookupEntry ((l.foldl (fileRenameStep old new false) s).tree) q).isSome = true := by
  intro l
  induction l with
  | nil => intro s q _ hq; exact hq
  | cons p rest ih =>
    intro s q hnp hq
    rw [List.foldl_cons]
    apply ih (fileRenameStep old new false s p) q (fun r hr => hnp r (by simp [hr]))
    rcases fileRenameStep_tree_cases old new s p with ht | hra
    · rw [ht]
      exact hq
    · exact renameAt_keeps_other hra hq (hnp p (by simp))

theorem fileRenamePass_count (old new : Name) : ∀ (l : List FsPath) (s : RunState),
    l.Nodup → l.Pairwise notAbove → (∀ q ∈ l, (lookupEntry s.tree q).isSome = true) →
    (l.foldl (fileRenameStep old new false) s).renamedFiles
      = s.renamedFiles + l.countP (fun q => containsTok old (lastName q)) := by
  intro l
  induction l with
  | nil => intro s _ _ _; simp
  | cons p rest ih =>
    intro s hnd hpw hex
    rw [List.nodup_cons] at hnd
    rw [List.pairwise_cons] at hpw
    have hexp := hex p (by simp)
    have hcond : ((lookupEntry s.tree p).isSome && containsTok old (lastName p))
        = containsTok old (lastName p) := by
      rw [hexp]
      simp
    have hexist' : ∀ q ∈ rest,
        (lookupEntry ((fileRenameStep old new false s p).tree) q).isSome = true := by
      intro q hq
      rcases fileRenameStep_tree_cases old new s p with ht | hra
      · rw [ht]
        exact hex q (by simp [hq])
      · apply renameAt_keeps_other hra (hex q (by simp [hq]))
        intro hcontra
        have heq := hpw.1 q hq hcontra
        exact hnd.1 (heq ▸ hq)
    rw [List.foldl_cons, List.countP_cons,
      ih (fileRenameStep old new false s p) hnd.2 hpw.2 hexist']
    have hstep : (fileRenameStep old new false s p).renamedFiles
        = s.renamedFiles + (if containsTok old (lastName p) then 1 else 0) := by
      simp only [fileRenameStep, hcond]
      by_cases hc : containsTok old (lastName p) = true
      · simp only [hc, if_pos, Bool.false_eq_true, if_false]
        simp [(renameItem_fields old new s p).2.2.1]
      · simp [hc]
    rw [hstep]
    by_cases hc : containsTok old (lastName p) = true <;> simp [hc] <;> omega

theorem dirRenamePass_count (old new : Name) : ∀ (l : List FsPath) (s : RunState),
    l.Nodup → l.Pairwise notAbove → (∀ q ∈ l, (lookupEntry s.tree q).isSome = true) →
    (l.foldl (dirRenameStep old new false) s).renamedDirs
      = s.renamedDirs + l.countP (fun q => containsTok old (lastName q)) := by
  intro l
  induction l with
  | nil => intro s _ _ _; simp
  | cons p rest ih =>
    intro s hnd hpw hex
    rw [List.nodup_cons] at hnd
    rw [List.pairwise_cons] at hpw
    have hexp := hex p (by simp)
    have hcond : ((lookupEntry s.tree p).isSome && containsTok old (lastName p))
        = containsTok old (lastName p) := by
      rw [hexp]
      simp
    have hexist' : ∀ q ∈ rest,
        (lookupEntry ((dirRenameStep old new false s p).tree) q).isSome = true := by
      intro q hq
      rcases dirRenameStep_tree_cases old new s p with ht | hra
      · rw [ht]
        exact hex q (by simp [hq])
      · apply renameAt_keeps_other hra (hex q (by simp [hq]))
        intro hcontra
        have heq := hpw.1 q hq hcontra
        exact hnd.1 (heq ▸ hq)
    rw [List.foldl_cons, List.countP_cons,
      ih (dirRenameStep old new false s p) hnd.2 hpw.2 hexist']
    have hstep : (dirRenameStep old new false s p).renamedDirs
        = s.renamedDirs + (if containsTok old (lastName p) then 1 else 0) := by
      simp only [dirRenameStep, hcond]
      by_cases hc : containsTok old (lastName p) = true
      · simp only [hc, if_pos, Bool.false_eq_true, if_false]
        simp [(renameItem_fields old new s p).2.2.2]
      · simp [hc]
    rw [hstep]
    by_cases hc : containsTok old (lastName p) = true <;> simp [hc] <;> omega

theorem collectFiles_ne_nil {cs : List Entry} {p : FsPath}
    (h : p ∈ collectFiles cs) : p ≠ [] := by
  rw [collectFiles] at h
  obtain ⟨l, hl, hpl⟩ := List.mem_flatten.mp h
  obtain ⟨fr, _, rfl⟩ := List.mem_map.mp hl
  obtain ⟨m, _, rfl⟩ := List.mem_map.mp hpl
  simp

theorem collectDirs_ne_nil {cs : List Entry} {p : FsPath}
    (h : p ∈ collectDirs cs) : p ≠ [] := by
  rw [collectDirs] at h
  obtain ⟨l, hl, hpl⟩ := List.mem_flatten.mp h
  obtain ⟨fr, _, rfl⟩ := List.mem_map.mp hl
  obtain ⟨m, _, rfl⟩ := List.mem_map.mp hpl
  simp

/-- A snapshot file path is never an ancestor of a snapshot directory
path: files have no descendants. -/
theorem files_not_above_dirs {cs : List Entry} (hwf : wfRoot cs = true) :
    ∀ p ∈ collectFiles cs, ∀ q ∈ collectDirs cs, ¬ (p <+: q) := by
  intro p hp q hq hpre
  obtain ⟨d, hdf⟩ := collectFiles_lookup hwf hp
  obtain ⟨ds, hdd⟩ := collectDirs_lookup hwf hq
  obtain ⟨r, rfl⟩ := hpre
  cases r with
  | nil =>
    rw [List.append_nil] at hdd
    rw [hdf] at hdd
    simp at hdd
  | cons x xs =>
    obtain ⟨mm, ds2, hds2⟩ := lookup_append_dir p (x :: xs) cs
      (collectFiles_ne_nil hp) (by simp) (by rw [hdd]; rfl)
    rw [hdf] at hds2
    simp at hds2


theorem fileRWs_mem {cs : List Entry} (h : fileRWs cs = true) :
    ∀ e ∈ cs, fileRW e = true := by
  induction cs with
  | nil => intro e he; simp at he
  | cons c cs ih =>
    intro e he
    rw [fileRWs] at h
    rcases List.mem_cons.mp he with rfl | he'
    · exact (Bool.and_eq_true_iff.mp h).1
    · exact ih (Bool.and_eq_true_iff.mp h).2 e he'

theorem fileRWs_lookup : ∀ (p : FsPath) (cs : List Entry), fileRWs cs = true →
    ∀ m d, lookupEntry cs p = some (Entry.file m d) → d.readOk = true → d.writeOk = true := by
  intro p
  induction p with
  | nil => intro cs _ m d h; simp [lookupEntry] at h
  | cons n rest ih =>
    intro cs hrw m d h hr
    cases rest with
    | nil =>
      rw [lookupEntry_single] at h
      have hmem := findEntry_mem h
      have hRW := fileRWs_mem hrw _ hmem
      simp only [fileRW, hr, Bool.not_true, Bool.false_or] at hRW
      exact hRW
    | cons r rs =>
      rw [lookupEntry_cons₂] at h
      rcases hf : findEntry cs n with _ | e
      · rw [hf] at h; simp at h
      · rw [hf] at h
        cases e with
        | file _ _ => simp at h
        | dir nm cs' =>
          simp only at h
          have hmem := findEntry_mem hf
          have hRW := fileRWs_mem hrw _ hmem
          rw [fileRW] at hRW
          exact ih cs' hRW m d h hr

/-- All five observable quantities of a dry run: the tree and root name
are untouched, and the three counters are pure counts over the snapshot
against the input tree. -/
theorem processDirectory_dry_counts (old new rn : Name) (cs : List Entry) :
    (processDirectory old new true rn cs).tree = cs ∧
    (processDirectory old new true rn cs).rootName = rn ∧
    (processDirectory old new true rn cs).modifiedFiles
      = (collectFiles cs).countP (dryHit old cs) ∧
    (processDirectory old new true rn cs).renamedFiles
      = (collectFiles cs).countP
          (fun q => (lookupEntry cs q).isSome && containsTok old (lastName q)) ∧
    (processDirectory old new true rn cs).renamedDirs
      = (collectDirs cs).countP
          (fun q => (lookupEntry cs q).isSome && containsTok old (lastName q)) := by
  simp only [processDirectory]
  set s0 : RunState := (⟨rn, cs, [], 0, 0, 0⟩ : RunState) with hs0
  set s1 := (collectFiles cs).foldl (contentStep old new true) s0 with hs1
  set s1b : RunState := { s1 with log := s1.log ++ [Msg.modifiedSummary s1.modifiedFiles] } with hs1b
  set s2 := (collectFiles cs).foldl (fileRenameStep old new true) s1b with hs2
  set s2b : RunState := { s2 with log := s2.log ++ [Msg.renamedFilesSummary s2.renamedFiles] } with hs2b
  set s3 := (collectDirs cs).foldl (dirRenameStep old new true) s2b with hs3
  set s3b : RunState := { s3 with log := s3.log ++ [Msg.renamedDirsSummary s3.renamedDirs] } with hs3b
  obtain ⟨ht1, hm1⟩ := contentPass_dry_count old new (collectFiles cs) s0
  rw [← hs1] at ht1 hm1
  have ht1' : s1.tree = cs := ht1
  obtain ⟨ht2, hr2⟩ := fileRenamePass_dry_count old new (collectFiles cs) s1b
  rw [← hs2] at ht2 hr2
  have hbt : s1b.tree = cs := ht1'
  rw [hbt] at hr2
  obtain ⟨ht3, hr3⟩ := dirRenamePass_dry_count old new (collectDirs cs) s2b
  rw [← hs3] at ht3 hr3
  have hbt2 : s2b.tree = cs := ht2.trans hbt
  rw [hbt2] at hr3
  have hrf1 : s1.renamedFiles = s0.renamedFiles := by
    have := foldl_field (contentStep old new true) (fun s => s.renamedFiles)
      (fun s a => (contentStep_counters old new true s a).1) (collectFiles cs) s0
    rw [← hs1] at this
    exact this
  have hrd1 : s1.renamedDirs = s0.renamedDirs := by
    have := foldl_field (contentStep old new true) (fun s => s.renamedDirs)
      (fun s a => (contentStep_counters old new true s a).2.1) (collectFiles cs) s0
    rw [← hs1] at this
    exact this
  have hmf2 : s2.modifiedFiles = s1b.modifiedFiles := by
    have := foldl_field (fileRenameStep old new true) (fun s => s.modifiedFiles)
      (fun s a => (fileRenameStep_counters old new true s a).1) (collectFiles cs) s1b
    rw [← hs2] at this
    exact this
  have hrd2 : s2.renamedDirs = s1b.renamedDirs := by
    have := foldl_field (fileRenameStep old new true) (fun s => s.renamedDirs)
      (fun s a => (fileRenameStep_counters old new true s a).2.1) (collectFiles cs) s1b
    rw [← hs2] at this
    exact this
  have hmf3 : s3.modifiedFiles = s2b.modifiedFiles := by
    have := foldl_field (dirRenameStep old new true) (fun s => s.modifiedFiles)
      (fun s a => (dirRenameStep_counters old new true s a).1) (collectDirs cs) s2b
    rw [← hs3] at this
    exact this
  have hrf3 : s3.renamedFiles = s2b.renamedFiles := by
    have := foldl_field (dirRenameStep old new true) (fun s => s.renamedFiles)
      (fun s a => (dirRenameStep_counters old new true s a).2.1) (collectDirs cs) s2b
    rw [← hs3] at this
    exact this
  have hroot : s3.rootName = rn := by
    have h3 := foldl_field (dirRenameStep old new true) (fun s => s.rootName)
      (fun s a => (dirRenameStep_counters old new true s a).2.2) (collectDirs cs) s2b
    have h2 := foldl_field (fileRenameStep old new true) (fun s => s.rootName)
      (fun s a => (fileRenameStep_counters old new true s a).2.2) (collectFiles cs) s1b
    have h1 := foldl_field (contentStep old new true) (fun s => s.rootName)
      (fun s a => (contentStep_counters old new true s a).2.2) (collectFiles cs) s0
    rw [← hs3] at h3
    rw [← hs2] at h2
    rw [← hs1] at h1
    have hb2 : s2b.rootName = rn := by
      show s2.rootName = rn
      rw [h2]
      show s1.rootName = rn
      exact h1
    exact h3.trans hb2
  have htree3 : s3.tree = cs := ht3.trans hbt2
  have hgm : s3.modifiedFiles = (collectFiles cs).countP (dryHit old cs) := by
    rw [hmf3]
    show s2.modifiedFiles = _
    rw [hmf2]
    show s1.modifiedFiles = _
    rw [hm1]
    have hz : s0.modifiedFiles = 0 := rfl
    have hz2 : s0.tree = cs := rfl
    rw [hz, hz2, Nat.zero_add]
  have hgf : s3.renamedFiles = (collectFiles cs).countP
      (fun q => (lookupEntry cs q).isSome && containsTok old (lastName q)) := by
    rw [hrf3]
    show s2.renamedFiles = _
    rw [hr2]
    have hz : s1b.renamedFiles = 0 := by
      show s1.renamedFiles = 0
      rw [hrf1]
    rw [hz, Nat.zero_add]
  have hgd : s3.renamedDirs = (collectDirs cs).countP
      (fun q => (lookupEntry cs q).isSome && containsTok old (lastName q)) := by
    rw [hr3]
    have hz : s2b.renamedDirs = 0 := by
      show s2.renamedDirs = 0
      rw [hrd2]
      show s1.renamedDirs = 0
      rw [hrd1]
    rw [hz, Nat.zero_add]
  by_cases hcr : containsTok old rn = true
  · simp only [hcr, if_pos, if_true]
    exact ⟨htree3, hroot, hgm, hgf, hgd⟩
  · simp only [hcr, Bool.false_eq_true, if_false]
    exact ⟨htree3, hroot, hgm, hgf, hgd⟩

/-- The three counters reported by an apply run over a well-formed tree:
modified files are the snapshot file paths whose data is readable,
matching and writable; the rename counters count snapshot entries whose
base name contains the token. -/
theorem processDirectory_apply_counts (old new rn : Name) (cs : List Entry)
    (hwf : wfRoot cs = true) :
    (processDirectory old new false rn cs).modifiedFiles
      = (collectFiles cs).countP (applyHit old cs) ∧
    (processDirectory old new false rn cs).renamedFiles
      = (collectFiles cs).countP (fun q => containsTok old (lastName q)) ∧
    (processDirectory old new false rn cs).renamedDirs
      = (collectDirs cs).countP (fun q => containsTok old (lastName q)) := by
  simp only [processDirectory]
  set s0 : RunState := (⟨rn, cs, [], 0, 0, 0⟩ : RunState) with hs0
  set s1 := (collectFiles cs).foldl (contentStep old new false) s0 with hs1
  set s1b : RunState := { s1 with log := s1.log ++ [Msg.modifiedSummary s1.modifiedFiles] } with hs1b
  set s2 := (collectFiles cs).foldl (fileRenameStep old new false) s1b with hs2
  set s2b : RunState := { s2 with log := s2.log ++ [Msg.renamedFilesSummary s2.renamedFiles] } with hs2b
  set s3 := (collectDirs cs).foldl (dirRenameStep old new false) s2b with hs3
  set s3b : RunState := { s3 with log := s3.log ++ [Msg.renamedDirsSummary s3.renamedDirs] } with hs3b
  have hnd := collectFiles_nodup hwf
  have hpwf := collectFiles_pairwise hwf
  have hndd := collectDirs_nodup hwf
  have hpwd := collectDirs_pairwise hwf
  have hm1 := contentPass_count old new (collectFiles cs) s0 cs hnd (fun q _ => rfl)
    (fun q hq => by
      obtain ⟨d, hd⟩ := collectFiles_lookup hwf hq
      exact ⟨lastName q, d, hd⟩)
  rw [← hs1] at hm1
  have hex1 : ∀ q ∈ collectFiles cs, (lookupEntry s1b.tree q).isSome = true := by
    intro q hq
    have h := contentPass_isSome old new (collectFiles cs) s0 q
    rw [← hs1] at h
    show (lookupEntry s1.tree q).isSome = true
    rw [h]
    obtain ⟨d, hd⟩ := collectFiles_lookup hwf hq
    show (lookupEntry cs q).isSome = true
    rw [hd]
    rfl
  have hr2 := fileRenamePass_count old new (collectFiles cs) s1b hnd hpwf hex1
  rw [← hs2] at hr2
  have hex2 : ∀ q ∈ collectDirs cs, (lookupEntry s2b.tree q).isSome = true := by
    intro q hq
    have hbase : (lookupEntry cs q).isSome = true := by
      obtain ⟨ds, hd⟩ := collectDirs_lookup hwf hq
      rw [hd]
      rfl
    have h1 : (lookupEntry s1b.tree q).isSome = true := by
      have h := contentPass_isSome old new (collectFiles cs) s0 q
      rw [← hs1] at h
      show (lookupEntry s1.tree q).isSome = true
      rw [h]
      exact hbase
    have h2 := fileRenamePass_keeps old new (collectFiles cs) s1b q
      (fun p hp => files_not_above_dirs hwf p hp q hq) h1
    rw [← hs2] at h2
    exact h2
  have hr3 := dirRenamePass_count old new (collectDirs cs) s2b hndd hpwd hex2
  rw [← hs3] at hr3
  have hmf2 : s2.modifiedFiles = s1b.modifiedFiles := by
    have := foldl_field (fileRenameStep old new false) (fun s => s.modifiedFiles)
      (fun s a => (fileRenameStep_counters old new false s a).1) (collectFiles cs) s1b
    rw [← hs2] at this
    exact this
  have hmf3 : s3.modifiedFiles = s2b.modifiedFiles := by
    have := foldl_field (dirRenameStep old new false) (fun s => s.modifiedFiles)
      (fun s a => (dirRenameStep_counters old new false s a).1) (collectDirs cs) s2b
    rw [← hs3] at this
    exact this
  have hrf1 : s1.renamedFiles = s0.renamedFiles := by
    have := foldl_field (contentStep old new false) (fun s => s.renamedFiles)
      (fun s a => (contentStep_counters old new false s a).1) (collectFiles cs) s0
    rw [← hs1] at this
    exact this
  have hrf3 : s3.renamedFiles = s2b.renamedFiles := by
    have := foldl_field (dirRenameStep old new false) (fun s => s.renamedFiles)
      (fun s a => (dirRenameStep_counters old new false s a).2.1) (collectDirs cs) s2b
    rw [← hs3] at this
    exact this
  have hrd1 : s1.renamedDirs = s0.renamedDirs := by
    have := foldl_field (contentStep old new false) (fun s => s.renamedDirs)
      (fun s a => (contentStep_counters old new false s a).2.1) (collectFiles cs) s0
    rw [← hs1] at this
    exact this
  have hrd2 : s2.renamedDirs = s1b.renamedDirs := by
    have := foldl_field (fileRenameStep old new false) (fun s => s.renamedDirs)
      (fun s a => (fileRenameStep_counters old new false s a).2.1) (collectFiles cs) s1b
    rw [← hs2] at this
    exact this
  have hgm : s3.modifiedFiles = (collectFiles cs).countP (applyHit old cs) := by
    rw [hmf3]
    show s2.modifiedFiles = _
    rw [hmf2]
    show s1.modifiedFiles = _
    rw [hm1]
    have hz : s0.modifiedFiles = 0 := rfl
    rw [hz, Nat.zero_add]
  have hgf : s3.renamedFiles = (collectFiles cs).countP
      (fun q => containsTok old (lastName q)) := by
    rw [hrf3]
    show s2.renamedFiles = _
    rw [hr2]
    have hz : s1b.renamedFiles = 0 := by
      show s1.renamedFiles = 0
      rw [hrf1]
    rw [hz, Nat.zero_add]
  have hgd : s3.renamedDirs = (collectDirs cs).countP
      (fun q => containsTok old (lastName q)) := by
    rw [hr3]
    have hz : s2b.renamedDirs = 0 := by
      show s2.renamedDirs = 0
      rw [hrd2]
      show s1.renamedDirs = 0
      rw [hrd1]
    rw [hz, Nat.zero_add]
  by_cases hcr : containsTok old rn = true
  · simp only [hcr, if_pos, if_true, Bool.false_eq_true, if_false]
    exact ⟨hgm, hgf, hgd⟩
  · simp only [hcr, Bool.false_eq_true, if_false]
    exact ⟨hgm, hgf, hgd⟩


/-- C3 (amended): over a well-formed tree in which every readable file is
also writable, a dry run leaves the tree and the root name untouched, and
each of the three counters it reports (would-be-modified files, would-be
renamed files, would-be renamed directories) equals the corresponding
count an apply run reports on the same input tree.  (Without the
writability hypothesis the counts differ: see the counterexample.) -/
theorem claim_c3_amended (old new rn : Name) (cs : List Entry)
    (hwf : wfRoot cs = true) (hrw : fileRWs cs = true) :
    (processDirectory old new true rn cs).tree = cs ∧
    (processDirectory old new true rn cs).rootName = rn ∧
    (processDirectory old new true rn cs).modifiedFiles
      = (processDirectory old new false rn cs).modifiedFiles ∧
    (processDirectory old new true rn cs).renamedFiles
      = (processDirectory old new false rn cs).renamedFiles ∧
    (processDirectory old new true rn cs).renamedDirs
      = (processDirectory old new false rn cs).renamedDirs := by
  obtain ⟨hdt, hdr, hdm, hdf, hdd⟩ := processDirectory_dry_counts old new rn cs
  obtain ⟨ham, haf, had⟩ := processDirectory_apply_counts old new rn cs hwf
  refine ⟨hdt, hdr, ?_, ?_, ?_⟩
  · rw [hdm, ham]
    apply List.countP_congr
    intro q hq
    obtain ⟨d, hd⟩ := collectFiles_lookup hwf hq
    have hwr := fileRWs_lookup q cs hrw _ d hd
    have heq : dryHit old cs q = applyHit old cs q := by
      rw [dryHit, applyHit, hd]
      by_cases hr : d.readOk = true
      · have hw := hwr hr
        simp [hr, hw]
      · simp [hr]
    rw [heq]
  · rw [hdf, haf]
    apply List.countP_congr
    intro q hq
    obtain ⟨d, hd⟩ := collectFiles_lookup hwf hq
    simp [hd]
  · rw [hdd, had]
    apply List.countP_congr
    intro q hq
    obtain ⟨ds, hd⟩ := collectDirs_lookup hwf hq
    simp [hd]

/-- Witness for C3 (amended) at a concrete input: one matching directory
holding one matching, readable and writable file. -/
theorem claim_c3_amended_witness :
    (wfRoot [Entry.dir "KevaDir".toList
        [Entry.file "Keva.txt".toList ⟨"a Keva b".toList, true, true⟩]] = true ∧
      fileRWs [Entry.dir "KevaDir".toList
        [Entry.file "Keva.txt".toList ⟨"a Keva b".toList, true, true⟩]] = true) ∧
    ((processDirectory "Keva".toList "Respire".toList true "KevaRoot".toList
        [Entry.dir "KevaDir".toList
          [Entry.file "Keva.txt".toList ⟨"a Keva b".toList, true, true⟩]]).tree =
      [Entry.dir "KevaDir".toList
        [Entry.file "Keva.txt".toList ⟨"a Keva b".toList, true, true⟩]] ∧
    (processDirectory "Keva".toList "Respire".toList true "KevaRoot".toList
        [Entry.dir "KevaDir".toList
          [Entry.file "Keva.txt".toList ⟨"a Keva b".toList, true, true⟩]]).rootName =
      "KevaRoot".toList ∧
    (processDirectory "Keva".toList "Respire".toList true "KevaRoot".toList
        [Entry.dir "KevaDir".toList
          [Entry.file "Keva.txt".toList ⟨"a Keva b".toList, true, true⟩]]).modifiedFiles =
      (processDirectory "Keva".toList "Respire".toList false "KevaRoot".toList
        [Entry.dir "KevaDir".toList
          [Entry.file "Keva.txt".toList ⟨"a Keva b".toList, true, true⟩]]).modifiedFiles ∧
    (processDirectory "Keva".toList "Respire".toList true "KevaRoot".toList
        [Entry.dir "KevaDir".toList
          [Entry.file "Keva.txt".toList ⟨"a Keva b".toList, true, true⟩]]).renamedFiles =
      (processDirectory "Keva".toList "Respire".toList false "KevaRoot".toList
        [Entry.dir "KevaDir".toList
          [Entry.file "Keva.txt".toList ⟨"a Keva b".toList, true, true⟩]]).renamedFiles ∧
    (processDirectory "Keva".toList "Respire".toList true "KevaRoot".toList
        [Entry.dir "KevaDir".toList
          [Entry.file "Keva.txt".toList ⟨"a Keva b".toList, true, true⟩]]).renamedDirs =
      (processDirectory "Keva".toList "Respire".toList false "KevaRoot".toList
        [Entry.dir "KevaDir".toList
          [Entry.file "Keva.txt".toList ⟨"a Keva b".toList, true, true⟩]]).renamedDirs) :=
  ⟨⟨by decide, by decide⟩,
    claim_c3_amended "Keva".toList "Respire".toList "KevaRoot".toList
      [Entry.dir "KevaDir".toList
        [Entry.file "Keva.txt".toList ⟨"a Keva b".toList, true, true⟩]]
      (by decide) (by decide)⟩


/-- C7: in the directory-rename pass, the snapshot is ordered descendants
first — whenever a path `p` precedes a path `q` in `all_dirs`, `p` is not
a proper ancestor of `q` (so every directory is processed before any of
its ancestors, children before parents) — and a snapshot entry whose path
no longer exists at processing time leaves the state completely
unchanged: no rename, no counter move, and no log line. -/
theorem claim_c7 (old new : Name) (cs : List Entry) (hwf : wfRoot cs = true) :
    (collectDirs cs).Pairwise notAbove ∧
    (∀ (dry : Bool) (s : RunState) (p : FsPath), lookupEntry s.tree p = none →
      dirRenameStep old new dry s p = s) := by
  refine ⟨collectDirs_pairwise hwf, ?_⟩
  intro dry s p h
  simp only [dirRenameStep, h]
  simp

/-- Witness for C7 at a concrete input: a nested directory pair (the
child is listed before the parent) and a stale path on an empty tree. -/
theorem claim_c7_witness :
    wfRoot [Entry.dir "KevaDir".toList [Entry.dir "KevaSub".toList []]] = true ∧
    (collectDirs [Entry.dir "KevaDir".toList
        [Entry.dir "KevaSub".toList []]]).Pairwise notAbove ∧
    dirRenameStep "Keva".toList "Respire".toList false
        ⟨"r".toList, [], [], 0, 0, 0⟩ ["KevaGone".toList] =
      ⟨"r".toList, [], [], 0, 0, 0⟩ :=
  ⟨by decide,
    (claim_c7 "Keva".toList "Respire".toList
      [Entry.dir "KevaDir".toList [Entry.dir "KevaSub".toList []]] (by decide)).1,
    (claim_c7 "Keva".toList "Respire".toList
      [Entry.dir "KevaDir".toList [Entry.dir "KevaSub".toList []]] (by decide)).2
      false ⟨"r".toList, [], [], 0, 0, 0⟩ ["KevaGone".toList] (by decide)⟩


/-- C2 (amended): for a snapshot file that is readable and writable and
whose content contains the old token, the apply-mode content pass leaves
at its path the same file with every non-overlapping occurrence replaced
leftmost-to-rightmost (`pyReplace`); provided the tokens are non-empty
and share no character and the new token's characters are fresh for this
content, the result has zero occurrences of the old token and exactly as
many occurrences of the new token as the original had of the old.  (The
original claim's weaker proviso — the new token does not contain the old
token — does not suffice: see the counterexample.) -/
theorem claim_c2_amended (old new rn : Name) (cs : List Entry)
    (hwf : wfRoot cs = true) (hold : old ≠ []) (hnew : new ≠ [])
    (hdisj : ∀ x ∈ new, x ∉ old)
    (p : FsPath) (hp : p ∈ collectFiles cs) (d : FileData)
    (hd : lookupEntry cs p = some (Entry.file (lastName p) d))
    (hread : d.readOk = true) (hwrite : d.writeOk = true)
    (hcont : containsTok old d.content = true)
    (hfresh : ∀ x ∈ new, x ∉ d.content) :
    lookupEntry ((collectFiles cs).foldl (contentStep old new false)
        ⟨rn, cs, [], 0, 0, 0⟩).tree p
      = some (Entry.file (lastName p)
          { d with content := pyReplace old new d.content }) ∧
    countOccs old (pyReplace old new d.content) = 0 ∧
    countOccs new (pyReplace old new d.content) = countOccs old d.content ∧
    containsTok old (pyReplace old new d.content) = false := by
  have hall : ∀ q ∈ collectFiles cs, ∃ m dd, lookupEntry cs q = some (Entry.file m dd) := by
    intro q hq
    obtain ⟨dd, hdd⟩ := collectFiles_lookup hwf hq
    exact ⟨lastName q, dd, hdd⟩
  have hres := contentPass_memberResult old new (collectFiles cs) ⟨rn, cs, [], 0, 0, 0⟩ cs
    (collectFiles_nodup hwf) (fun q _ => rfl) hall p hp (lastName p) d hd
  have htr : contentTransform old new d
      = { d with content := pyReplace old new d.content } := by
    rw [contentTransform]
    simp [hread, hwrite, hcont]
  rw [htr] at hres
  have hz := countOccs_replace_old old new hold hnew hdisj d.content
  exact ⟨hres, hz, countOccs_replace_new old new hold hnew hdisj d.content hfresh,
    not_containsTok_of_countOccs_zero hold _ hz⟩

/-- Witness for C2 (amended) at a concrete input: replacing `Keva` by the
character-disjoint token `XYZ` in a file containing `Keva Keva`. -/
theorem claim_c2_amended_witness :
    (wfRoot [Entry.file "f.txt".toList ⟨"Keva Keva".toList, true, true⟩] = true ∧
      (∀ x ∈ "XYZ".toList, x ∉ "Keva".toList) ∧
      containsTok "Keva".toList "Keva Keva".toList = true) ∧
    (lookupEntry ((collectFiles [Entry.file "f.txt".toList ⟨"Keva Keva".toList, true, true⟩]).foldl
          (contentStep "Keva".toList "XYZ".toList false)
          ⟨"r".toList, [Entry.file "f.txt".toList ⟨"Keva Keva".toList, true, true⟩], [], 0, 0, 0⟩).tree
        ["f.txt".toList]
      = some (Entry.file (lastName ["f.txt".toList])
          { (⟨"Keva Keva".toList, true, true⟩ : FileData) with
              content := pyReplace "Keva".toList "XYZ".toList "Keva Keva".toList }) ∧
    countOccs "Keva".toList
        (pyReplace "Keva".toList "XYZ".toList "Keva Keva".toList) = 0 ∧
    countOccs "XYZ".toList (pyReplace "Keva".toList "XYZ".toList "Keva Keva".toList)
      = countOccs "Keva".toList "Keva Keva".toList ∧
    containsTok "Keva".toList
        (pyReplace "Keva".toList "XYZ".toList "Keva Keva".toList) = false) :=
  ⟨⟨by decide, by decide, by decide⟩,
    claim_c2_amended "Keva".toList "XYZ".toList "r".toList
      [Entry.file "f.txt".toList ⟨"Keva Keva".toList, true, true⟩]
      (by decide) (by decide) (by decide) (by decide)
      ["f.txt".toList] (by decide) ⟨"Keva Keva".toList, true, true⟩
      (by decide) (by decide) (by decide) (by decide) (by decide)⟩


theorem lookupEntry_entryName : ∀ (q : FsPath) (es : List Entry) (e : Entry),
    lookupEntry es q = some e → entryName e = lastName q := by
  intro q
  induction q with
  | nil => intro es e h; simp [lookupEntry] at h
  | cons n rest ih =>
    intro es e h
    cases rest with
    | nil =>
      rw [lookupEntry_single] at h
      rw [lastName_single]
      exact findEntry_name h
    | cons r rs =>
      rw [lookupEntry_cons₂] at h
      rcases hf : findEntry es n with _ | e₀
      · rw [hf] at h; simp at h
      · rw [hf] at h
        cases e₀ with
        | file _ _ => simp at h
        | dir mm cs =>
          simp only at h
          rw [lastName_cons (by simp)]
          exact ih cs e h

theorem lookup_dirAt : ∀ (q : FsPath) (es : List Entry) (e : Entry),
    lookupEntry es q = some e →
    ∃ init m cs', q = init ++ [m] ∧ dirAt es init = some cs' ∧ findEntry cs' m = some e := by
  intro q
  induction q with
  | nil => intro es e h; simp [lookupEntry] at h
  | cons n rest ih =>
    intro es e h
    cases rest with
    | nil =>
      rw [lookupEntry_single] at h
      exact ⟨[], n, es, by simp, rfl, h⟩
    | cons r rs =>
      rw [lookupEntry_cons₂] at h
      rcases hf : findEntry es n with _ | e₀
      · rw [hf] at h; simp at h
      · rw [hf] at h
        cases e₀ with
        | file _ _ => simp at h
        | dir mm cs =>
          simp only at h
          obtain ⟨init, m, cs', hq, hd, hfind⟩ := ih cs e h
          refine ⟨n :: init, m, cs', by simp [hq], ?_, hfind⟩
          show dirAt es (n :: init) = some cs'
          simp only [dirAt, hf]
          exact hd

theorem walkEntry_sub : ∀ (p : FsPath) (cs : List Entry) (e : Entry), e ∈ cs →
    ∀ fr ∈ walkEntry p e, fr ∈ walkEntries p cs := by
  intro p cs
  induction cs with
  | nil => intro e he; simp at he
  | cons c cs ih =>
    intro e he fr hfr
    rw [walkEntries]
    rcases List.mem_cons.mp he with rfl | he'
    · exact List.mem_append.mpr (Or.inl hfr)
    · exact List.mem_append.mpr (Or.inr (ih e he' fr hfr))

/-- Every directory reachable by `dirAt` contributes its own frame to the
walk (the converse direction of `walkRoot_dirAt`; it needs no
well-formedness because the walk visits everything). -/
theorem dirAt_frame : ∀ (init : FsPath) (cs cs' : List Entry),
    dirAt cs init = some cs' →
    (⟨init, dirNamesOf cs', fileNamesOf cs'⟩ : WalkFrame) ∈ walkRoot cs := by
  intro init
  induction init with
  | nil =>
    intro cs cs' h
    have hcs : cs = cs' := by simpa [dirAt] using h
    subst hcs
    rw [walkRoot]
    simp
  | cons n rest ih =>
    intro cs cs' h
    rcases hf : findEntry cs n with _ | e₀
    · simp [dirAt, hf] at h
    · cases e₀ with
      | file _ _ => simp [dirAt, hf] at h
      | dir mm cs₀ =>
        have h' : dirAt cs₀ rest = some cs' := by simpa [dirAt, hf] using h
        have hframe := ih cs₀ cs' h'
        have hmem : Entry.dir mm cs₀ ∈ cs := findEntry_mem hf
        have hmn : mm = n := by
          have := findEntry_name hf
          simpa using this
        rw [walkRoot]
        apply List.mem_append.mpr
        left
        apply walkEntry_sub [] cs _ hmem
        rw [walkEntry]
        rw [walkRoot] at hframe
        rcases List.mem_append.mp hframe with hin | hlast
        · apply List.mem_append.mpr
          left
          rw [walkEntries_shift ([] ++ [mm]) cs₀]
          apply List.mem_map.mpr
          refine ⟨⟨rest, dirNamesOf cs', fileNamesOf cs'⟩, hin, ?_⟩
          rw [shiftFrame]
          simp [hmn]
        · apply List.mem_append.mpr
          right
          simp only [List.mem_singleton] at hlast
          have h1 : rest = ([] : FsPath) := congrArg WalkFrame.path hlast
          have h2 : dirNamesOf cs' = dirNamesOf cs₀ := congrArg WalkFrame.dirNames hlast
          have h3 : fileNamesOf cs' = fileNamesOf cs₀ := congrArg WalkFrame.fileNames hlast
          simp [h1, h2, h3, hmn]

/-- If a file with an unfiltered name sits at `q`, then `q` is in
`all_files` — the snapshot really contains every kept-named file of the
tree, wherever it sits (the pruning bug works in both directions). -/
theorem lookup_mem_collectFiles {cs : List Entry} {q : FsPath} {m : Name} {d : FileData}
    (h : lookupEntry cs q = some (Entry.file m d)) (hk : keepFileName m = true) :
    q ∈ collectFiles cs := by
  obtain ⟨init, k, cs', hq, hd, hfind⟩ := lookup_dirAt q cs _ h
  have hkm : m = k := by
    have := findEntry_name hfind
    simpa [entryName] using this
  have hframe := dirAt_frame init cs cs' hd
  rw [collectFiles]
  apply List.mem_flatten.mpr
  refine ⟨frameFilePaths ⟨init, dirNamesOf cs', fileNamesOf cs'⟩,
    List.mem_map.mpr ⟨_, hframe, rfl⟩, ?_⟩
  rw [frameFilePaths]
  apply List.mem_map.mpr
  refine ⟨k, ?_, hq.symm⟩
  apply List.mem_filter.mpr
  subst hkm
  exact ⟨mem_fileNamesOf.mpr ⟨d, findEntry_mem hfind⟩, hk⟩

/-- The directory counterpart: every kept-named directory's path is in
`all_dirs`. -/
theorem lookup_mem_collectDirs {cs : List Entry} {q : FsPath} {m : Name} {ds : List Entry}
    (h : lookupEntry cs q = some (Entry.dir m ds)) (hk : keepDirName m = true) :
    q ∈ collectDirs cs := by
  obtain ⟨init, k, cs', hq, hd, hfind⟩ := lookup_dirAt q cs _ h
  have hkm : m = k := by
    have := findEntry_name hfind
    simpa [entryName] using this
  have hframe := dirAt_frame init cs cs' hd
  rw [collectDirs]
  apply List.mem_flatten.mpr
  refine ⟨frameDirPaths ⟨init, dirNamesOf cs', fileNamesOf cs'⟩,
    List.mem_map.mpr ⟨_, hframe, rfl⟩, ?_⟩
  rw [frameDirPaths]
  apply List.mem_map.mpr
  refine ⟨k, ?_, hq.symm⟩
  apply List.mem_filter.mpr
  subst hkm
  exact ⟨mem_dirNamesOf.mpr ⟨ds, findEntry_mem hfind⟩, hk⟩


theorem writeAt_file_rev : ∀ (p : FsPath) (es : List Entry) (c : Name) (q : FsPath)
    (m : Name) (d : FileData),
    lookupEntry (writeAt es p c) q = some (Entry.file m d) →
    lookupEntry es q = some (Entry.file m d) ∨
      (q = p ∧ ∃ d₀, lookupEntry es p = some (Entry.file m d₀) ∧
        d = { d₀ with content := c }) := by
  intro p
  induction p with
  | nil => intro es c q m d h; exact Or.inl h
  | cons n rest ih =>
    intro es c q m d h
    cases rest with
    | nil =>
      rcases hf : findEntry es n with _ | e₀
      · have hws : writeAt es [n] c = es := by rw [writeAt_single, hf]
        rw [hws] at h
        exact Or.inl h
      · cases e₀ with
        | dir mm cs =>
          have hws : writeAt es [n] c = es := by rw [writeAt_single, hf]
          rw [hws] at h
          exact Or.inl h
        | file mf df =>
          have hws : writeAt es [n] c
              = replaceFirst es n (Entry.file mf { df with content := c }) := by
            rw [writeAt_single, hf]
          rw [hws] at h
          have hmf : mf = n := by
            have := findEntry_name hf
            simpa using this
          cases q with
          | nil => simp [lookupEntry] at h
          | cons k qr =>
            by_cases hk : k = n
            · subst hk
              have hsame := @findEntry_replaceFirst_same _ _ _
                (Entry.file mf { df with content := c }) (by simp [entryName, hmf]) hf
              cases qr with
              | nil =>
                rw [lookupEntry_single, hsame] at h
                obtain ⟨h1, h2⟩ : mf = m ∧ ({ df with content := c } : FileData) = d := by
                  simpa using h
                right
                refine ⟨rfl, df, ?_, h2.symm⟩
                rw [lookupEntry_single, hf, h1]
              | cons a as =>
                rw [lookupEntry_cons₂, hsame] at h
                simp at h
            · left
              rw [← lookupEntry_congr_find qr
                (@findEntry_replaceFirst_ne es n (Entry.file mf { df with content := c }) k
                  hk (by show k ≠ mf; rw [hmf]; exact hk))]
              exact h
    | cons r rs =>
      rcases hf : findEntry es n with _ | e₀
      · have hws : writeAt es (n :: r :: rs) c = es := by rw [writeAt_cons₂, hf]
        rw [hws] at h
        exact Or.inl h
      · cases e₀ with
        | file mf df =>
          have hws : writeAt es (n :: r :: rs) c = es := by rw [writeAt_cons₂, hf]
          rw [hws] at h
          exact Or.inl h
        | dir mm cs =>
          have hws : writeAt es (n :: r :: rs) c
              = replaceFirst es n (Entry.dir mm (writeAt cs (r :: rs) c)) := by
            rw [writeAt_cons₂, hf]
          rw [hws] at h
          have hmm : mm = n := by
            have := findEntry_name hf
            simpa using this
          cases q with
          | nil => simp [lookupEntry] at h
          | cons k qr =>
            by_cases hk : k = n
            · subst hk
              have hsame := @findEntry_replaceFirst_same _ _ _
                (Entry.dir mm (writeAt cs (r :: rs) c)) (by simp [entryName, hmm]) hf
              cases qr with
              | nil =>
                rw [lookupEntry_single, hsame] at h
                simp at h
              | cons a as =>
                rw [lookupEntry_cons₂, hsame] at h
                simp only at h
                rcases ih cs c (a :: as) m d h with hleft | ⟨hq, d₀, hl, hd⟩
                · left
                  rw [lookupEntry_cons₂, hf]
                  exact hleft
                · right
                  refine ⟨by rw [hq], d₀, ?_, hd⟩
                  rw [lookupEntry_cons₂, hf]
                  exact hl
            · left
              rw [← lookupEntry_congr_find qr
                (@findEntry_replaceFirst_ne es n (Entry.dir mm (writeAt cs (r :: rs) c)) k
                  hk (by show k ≠ mm; rw [hmm]; exact hk))]
              exact h

theorem writeAt_dir_iff : ∀ (p : FsPath) (es : List Entry) (c : Name) (q : FsPath) (m : Name),
    (∃ ds, lookupEntry es q = some (Entry.dir m ds)) ↔
    (∃ ds', lookupEntry (writeAt es p c) q = some (Entry.dir m ds')) := by
  intro p
  induction p with
  | nil => intro es c q m; exact Iff.rfl
  | cons n rest ih =>
    intro es c q m
    cases rest with
    | nil =>
      rcases hf : findEntry es n with _ | e₀
      · have hws : writeAt es [n] c = es := by rw [writeAt_single, hf]
        rw [hws]
      · cases e₀ with
        | dir mm cs =>
          have hws : writeAt es [n] c = es := by rw [writeAt_single, hf]
          rw [hws]
        | file mf df =>
          have hws : writeAt es [n] c
              = replaceFirst es n (Entry.file mf { df with content := c }) := by
            rw [writeAt_single, hf]
          rw [hws]
          have hmf : mf = n := by
            have := findEntry_name hf
            simpa using this
          cases q with
          | nil => simp [lookupEntry]
          | cons k qr =>
            by_cases hk : k = n
            · subst hk
              have hsame := @findEntry_replaceFirst_same _ _ _
                (Entry.file mf { df with content := c }) (by simp [entryName, hmf]) hf
              cases qr with
              | nil =>
                rw [lookupEntry_single, lookupEntry_single, hsame, hf]
                simp
              | cons a as =>
                rw [lookupEntry_cons₂, lookupEntry_cons₂, hsame, hf]
            · rw [lookupEntry_congr_find qr
                (findEntry_replaceFirst_ne hk (by show k ≠ mf; rw [hmf]; exact hk))]
    | cons r rs =>
      rcases hf : findEntry es n with _ | e₀
      · have hws : writeAt es (n :: r :: rs) c = es := by rw [writeAt_cons₂, hf]
        rw [hws]
      · cases e₀ with
        | file mf df =>
          have hws : writeAt es (n :: r :: rs) c = es := by rw [writeAt_cons₂, hf]
          rw [hws]
        | dir mm cs =>
          have hws : writeAt es (n :: r :: rs) c
              = replaceFirst es n (Entry.dir mm (writeAt cs (r :: rs) c)) := by
            rw [writeAt_cons₂, hf]
          rw [hws]
          have hmm : mm = n := by
            have := findEntry_name hf
            simpa using this
          cases q with
          | nil => simp [lookupEntry]
          | cons k qr =>
            by_cases hk : k = n
            · subst hk
              have hsame := @findEntry_replaceFirst_same _ _ _
                (Entry.dir mm (writeAt cs (r :: rs) c)) (by simp [entryName, hmm]) hf
              cases qr with
              | nil =>
                rw [lookupEntry_single, lookupEntry_single, hsame, hf]
                simp
              | cons a as =>
                rw [lookupEntry_cons₂, lookupEntry_cons₂, hsame, hf]
                simp only
                exact ih cs c (a :: as) m
            · rw [lookupEntry_congr_find qr
                (findEntry_replaceFirst_ne hk (by show k ≠ mm; rw [hmm]; exact hk))]


/-- A successful rename leaves every path that is not under the source,
not under the target, and not an ancestor of the source with exactly the
same lookup result. -/
theorem renameAt_lookup_eq : ∀ (p : FsPath) (es : List Entry) (n' : Name)
    (es' : List Entry) (q : FsPath), renameAt es p n' = some es' →
    ¬ (p <+: q) → ¬ ((p.dropLast ++ [n']) <+: q) → ¬ (q <+: p) →
    lookupEntry es' q = lookupEntry es q := by
  intro p
  induction p with
  | nil => intro es n' es' q h _ _ _; simp [renameAt] at h
  | cons n rest ih =>
    intro es n' es' q h hq hq' hq''
    cases rest with
    | nil =>
      rw [renameAt_single] at h
      rcases hf : findEntry es n with _ | e
      · rw [hf] at h; simp at h
      · rw [hf] at h
        simp only at h
        by_cases hnn : n' = n
        · rw [if_pos hnn] at h
          simp at h
          rw [h]
        · rw [if_neg hnn] at h
          by_cases hcol : (findEntry es n').isSome = true
          · rw [if_pos hcol] at h; simp at h
          · rw [if_neg hcol] at h
            simp at h
            subst h
            cases q with
            | nil => rfl
            | cons k qr =>
              by_cases hk : k = n
              · subst hk
                exact absurd (List.cons_prefix_cons.mpr ⟨rfl, List.nil_prefix⟩) hq
              · by_cases hk' : k = n'
                · subst hk'
                  exact absurd (by
                    show ([] ++ [k] : FsPath) <+: k :: qr
                    rw [List.nil_append]
                    exact List.cons_prefix_cons.mpr ⟨rfl, List.nil_prefix⟩) hq'
                · apply lookupEntry_congr_find
                  apply findEntry_replaceFirst_ne hk
                  rw [entryName_setEntryName]
                  exact hk'
    | cons r rs =>
      rw [renameAt_cons₂] at h
      rcases hf : findEntry es n with _ | e
      · rw [hf] at h; simp at h
      · rw [hf] at h
        cases e with
        | file _ _ => simp at h
        | dir mm cs =>
          simp only at h
          rcases hra : renameAt cs (r :: rs) n' with _ | cs'
          · rw [hra] at h; simp at h
          · rw [hra] at h
            simp at h
            subst h
            have hmn : mm = n := by
              have := findEntry_name hf
              simpa using this
            cases q with
            | nil => rfl
            | cons k qr =>
              by_cases hk : k = n
              · subst hk
                have hfind' := @findEntry_replaceFirst_same _ _ _
                  (Entry.dir mm cs') (by simp [entryName, hmn]) hf
                cases qr with
                | nil =>
                  exact absurd (List.cons_prefix_cons.mpr ⟨rfl, List.nil_prefix⟩) hq''
                | cons a as =>
                  rw [lookupEntry_cons₂, lookupEntry_cons₂, hfind', hf]
                  simp only
                  apply ih cs n' cs' (a :: as) hra
                  · intro hcontra
                    exact hq (List.cons_prefix_cons.mpr ⟨rfl, hcontra⟩)
                  · intro hcontra
                    apply hq'
                    show (k :: (r :: rs).dropLast) ++ [n'] <+: k :: a :: as
                    rw [List.cons_append]
                    exact List.cons_prefix_cons.mpr ⟨rfl, hcontra⟩
                  · intro hcontra
                    exact hq'' (List.cons_prefix_cons.mpr ⟨rfl, hcontra⟩)
              · apply lookupEntry_congr_find
                apply findEntry_replaceFirst_ne hk
                simp [entryName, hmn]
                exact hk

/-- A successful rename preserves the directory shape (name and
directory-ness, not the children) of every path that is neither under
the source nor under the target; ancestors of the source keep their
names even though their subtrees change. -/
theorem renameAt_dir_shape : ∀ (p : FsPath) (es : List Entry) (n' : Name)
    (es' : List Entry) (q : FsPath) (m : Name), renameAt es p n' = some es' →
    ¬ (p <+: q) → ¬ ((p.dropLast ++ [n']) <+: q) →
    ((∃ ds, lookupEntry es q = some (Entry.dir m ds)) ↔
     (∃ ds', lookupEntry es' q = some (Entry.dir m ds'))) := by
  intro p
  induction p with
  | nil => intro es n' es' q m h _ _; simp [renameAt] at h
  | cons n rest ih =>
    intro es n' es' q m h hq hq'
    cases rest with
    | nil =>
      rw [renameAt_single] at h
      rcases hf : findEntry es n with _ | e
      · rw [hf] at h; simp at h
      · rw [hf] at h
        simp only at h
        by_cases hnn : n' = n
        · rw [if_pos hnn] at h
          simp at h
          rw [h]
        · rw [if_neg hnn] at h
          by_cases hcol : (findEntry es n').isSome = true
          · rw [if_pos hcol] at h; simp at h
          · rw [if_neg hcol] at h
            simp at h
            subst h
            cases q with
            | nil => simp [lookupEntry]
            | cons k qr =>
              by_cases hk : k = n
              · subst hk
                exact absurd (List.cons_prefix_cons.mpr ⟨rfl, List.nil_prefix⟩) hq
              · by_cases hk' : k = n'
                · subst hk'
                  exact absurd (by
                    show ([] ++ [k] : FsPath) <+: k :: qr
                    rw [List.nil_append]
                    exact List.cons_prefix_cons.mpr ⟨rfl, List.nil_prefix⟩) hq'
                · have hfe : findEntry (replaceFirst es n (setEntryName e n')) k
                      = findEntry es k := by
                    apply findEntry_replaceFirst_ne hk
                    rw [entryName_setEntryName]
                    exact hk'
                  rw [lookupEntry_congr_find qr hfe]
    | cons r rs =>
      rw [renameAt_cons₂] at h
      rcases hf : findEntry es n with _ | e
      · rw [hf] at h; simp at h
      · rw [hf] at h
        cases e with
        | file _ _ => simp at h
        | dir mm cs =>
          simp only at h
          rcases hra : renameAt cs (r :: rs) n' with _ | cs'
          · rw [hra] at h; simp at h
          · rw [hra] at h
            simp at h
            subst h
            have hmn : mm = n := by
              have := findEntry_name hf
              simpa using this
            cases q with
            | nil => simp [lookupEntry]
            | cons k qr =>
              by_cases hk : k = n
              · subst hk
                have hfind' := @findEntry_replaceFirst_same _ _ _
                  (Entry.dir mm cs') (by simp [entryName, hmn]) hf
                cases qr with
                | nil =>
                  rw [lookupEntry_single, lookupEntry_single, hfind', hf]
                  simp
                | cons a as =>
                  rw [lookupEntry_cons₂, lookupEntry_cons₂, hfind', hf]
                  simp only
                  apply ih cs n' cs' (a :: as) m hra
                  · intro hcontra
                    exact hq (List.cons_prefix_cons.mpr ⟨rfl, hcontra⟩)
                  · intro hcontra
                    apply hq'
                    show (k :: (r :: rs).dropLast) ++ [n'] <+: k :: a :: as
                    rw [List.cons_append]
                    exact List.cons_prefix_cons.mpr ⟨rfl, hcontra⟩
              · have hfe : findEntry (replaceFirst es n (Entry.dir mm cs')) k
                    = findEntry es k := by
                  apply findEntry_replaceFirst_ne hk
                  simp [entryName, hmn]
                  exact hk
                rw [lookupEntry_congr_find qr hfe]


/-- After a successful rename to a genuinely different name, nothing is
left at the source path (needs distinct sibling names, as in any real
directory). -/
theorem renameAt_gone : ∀ (p : FsPath) (es : List Entry) (n' : Name)
    (es' : List Entry), renameAt es p n' = some es' → n' ≠ lastName p →
    wfRoot es = true → lookupEntry es' p = none := by
  intro p
  induction p with
  | nil => intro es n' es' h _ _; simp [renameAt] at h
  | cons n rest ih =>
    intro es n' es' h hne hwf
    cases rest with
    | nil =>
      rw [renameAt_single] at h
      rcases hf : findEntry es n with _ | e
      · rw [hf] at h; simp at h
      · rw [hf] at h
        simp only at h
        rw [lastName_single] at hne
        rw [if_neg hne] at h
        by_cases hcol : (findEntry es n').isSome = true
        · rw [if_pos hcol] at h; simp at h
        · rw [if_neg hcol] at h
          simp at h
          subst h
          rw [lookupEntry_single]
          exact findEntry_replaceFirst_gone
            ((nodupKeys_iff _).mp (wfRoot_parts hwf).1)
            (entryName_setEntryName e n') hne hf
    | cons r rs =>
      rw [renameAt_cons₂] at h
      rcases hf : findEntry es n with _ | e
      · rw [hf] at h; simp at h
      · rw [hf] at h
        cases e with
        | file _ _ => simp at h
        | dir mm cs =>
          simp only at h
          rcases hra : renameAt cs (r :: rs) n' with _ | cs'
          · rw [hra] at h; simp at h
          · rw [hra] at h
            simp at h
            subst h
            have hmn : mm = n := by
              have := findEntry_name hf
              simpa using this
            have hfind' := @findEntry_replaceFirst_same _ _ _
              (Entry.dir mm cs') (by simp [entryName, hmn]) hf
            rw [lookupEntry_cons₂, hfind']
            simp only
            have hwf' : wfRoot cs = true := by
              rw [← wfEntry_dir_eq_wfRoot mm cs]
              exact wfChildren_mem (wfRoot_parts hwf).2 _ (findEntry_mem hf)
            have hne' : n' ≠ lastName (r :: rs) := by
              rw [← lastName_cons (show (r :: rs) ≠ [] by simp)]
              exact hne
            exact ih cs n' cs' hra hne' hwf'

/-- After a successful rename, the target path holds exactly the source
entry with its name replaced. -/
theorem renameAt_target : ∀ (p : FsPath) (es : List Entry) (n' : Name)
    (es' : List Entry) (e : Entry), renameAt es p n' = some es' →
    n' ≠ lastName p → lookupEntry es p = some e →
    lookupEntry es' (p.dropLast ++ [n']) = some (setEntryName e n') := by
  intro p
  induction p with
  | nil => intro es n' es' e h _ _; simp [renameAt] at h
  | cons n rest ih =>
    intro es n' es' e h hne hl
    cases rest with
    | nil =>
      rw [renameAt_single] at h
      rw [lookupEntry_single] at hl
      rw [hl] at h
      simp only at h
      rw [lastName_single] at hne
      rw [if_neg hne] at h
      by_cases hcol : (findEntry es n').isSome = true
      · rw [if_pos hcol] at h; simp at h
      · rw [if_neg hcol] at h
        simp at h
        subst h
        show lookupEntry (replaceFirst es n (setEntryName e n')) ([] ++ [n'])
          = some (setEntryName e n')
        rw [List.nil_append, lookupEntry_single]
        exact findEntry_replaceFirst_fresh (entryName_setEntryName e n') hl
          (by simpa using hcol)
    | cons r rs =>
      rw [renameAt_cons₂] at h
      rcases hf : findEntry es n with _ | e₀
      · rw [hf] at h; simp at h
      · rw [hf] at h
        cases e₀ with
        | file _ _ => simp at h
        | dir mm cs =>
          simp only at h
          rcases hra : renameAt cs (r :: rs) n' with _ | cs'
          · rw [hra] at h; simp at h
          · rw [hra] at h
            simp at h
            subst h
            have hmn : mm = n := by
              have := findEntry_name hf
              simpa using this
            have hl' : lookupEntry cs (r :: rs) = some e := by
              rw [lookupEntry_cons₂, hf] at hl
              simpa using hl
            have hne' : n' ≠ lastName (r :: rs) := by
              rw [← lastName_cons (show (r :: rs) ≠ [] by simp)]
              exact hne
            have hinner := ih cs n' cs' e hra hne' hl'
            have hfind' := @findEntry_replaceFirst_same _ _ _
              (Entry.dir mm cs') (by simp [entryName, hmn]) hf
            have hdl : (n :: r :: rs).dropLast = n :: (r :: rs).dropLast := rfl
            rw [hdl, List.cons_append]
            obtain ⟨x, xs, hxs⟩ : ∃ x xs, (r :: rs).dropLast ++ [n'] = x :: xs := by
              cases hdd : (r :: rs).dropLast with
              | nil => exact ⟨n', [], by simp⟩
              | cons y ys => exact ⟨y, ys ++ [n'], by simp⟩
            rw [hxs, lookupEntry_cons₂, hfind']
            simp only
            rw [← hxs]
            exact hinner

/-- After a successful rename, the subtree below the target is exactly
the subtree that was below the source. -/
theorem renameAt_moved : ∀ (p : FsPath) (es : List Entry) (n' : Name)
    (es' : List Entry), renameAt es p n' = some es' → n' ≠ lastName p →
    ∀ rr : FsPath, rr ≠ [] →
    lookupEntry es' (p.dropLast ++ [n'] ++ rr) = lookupEntry es (p ++ rr) := by
  intro p
  induction p with
  | nil => intro es n' es' h _ _ _; simp [renameAt] at h
  | cons n rest ih =>
    intro es n' es' h hne rr hrr
    cases rest with
    | nil =>
      rw [renameAt_single] at h
      rcases hf : findEntry es n with _ | e
      · rw [hf] at h; simp at h
      · rw [hf] at h
        simp only at h
        rw [lastName_single] at hne
        rw [if_neg hne] at h
        by_cases hcol : (findEntry es n').isSome = true
        · rw [if_pos hcol] at h; simp at h
        · rw [if_neg hcol] at h
          simp at h
          subst h
          have hfr := findEntry_replaceFirst_fresh (entryName_setEntryName e n') hf
            (by simpa using hcol)
          cases rr with
          | nil => exact absurd rfl hrr
          | cons a as =>
            show lookupEntry (replaceFirst es n (setEntryName e n')) (n' :: a :: as)
              = lookupEntry es (n :: a :: as)
            rw [lookupEntry_cons₂, lookupEntry_cons₂, hfr, hf]
            cases e with
            | file mf df => rfl
            | dir md cds => rfl
    | cons r rs =>
      rw [renameAt_cons₂] at h
      rcases hf : findEntry es n with _ | e₀
      · rw [hf] at h; simp at h
      · rw [hf] at h
        cases e₀ with
        | file _ _ => simp at h
        | dir mm cs =>
          simp only at h
          rcases hra : renameAt cs (r :: rs) n' with _ | cs'
          · rw [hra] at h; simp at h
          · rw [hra] at h
            simp at h
            subst h
            have hmn : mm = n := by
              have := findEntry_name hf
              simpa using this
            have hne' : n' ≠ lastName (r :: rs) := by
              rw [← lastName_cons (show (r :: rs) ≠ [] by simp)]
              exact hne
            have hinner := ih cs n' cs' hra hne' rr hrr
            have hfind' := @findEntry_replaceFirst_same _ _ _
              (Entry.dir mm cs') (by simp [entryName, hmn]) hf
            have hdl : (n :: r :: rs).dropLast = n :: (r :: rs).dropLast := rfl
            rw [hdl, List.cons_append, List.cons_append]
            obtain ⟨x, xs, hxs⟩ : ∃ x xs, (r :: rs).dropLast ++ [n'] ++ rr = x :: xs := by
              cases hdd : (r :: rs).dropLast with
              | nil => exact ⟨n', rr, by simp⟩
              | cons y ys => exact ⟨y, ys ++ [n'] ++ rr, by simp⟩
            rw [hxs, lookupEntry_cons₂, hfind']
            simp only
            show lookupEntry cs' (x :: xs) = lookupEntry es (n :: (r :: rs) ++ rr)
            rw [← hxs, hinner]
            obtain ⟨y, ys, hys⟩ : ∃ y ys, (r :: rs) ++ rr = y :: ys := ⟨r, rs ++ rr, by simp⟩
            show lookupEntry cs ((r :: rs) ++ rr) = lookupEntry es (n :: ((r :: rs) ++ rr))
            rw [hys, lookupEntry_cons₂, hf]


theorem names_replaceFirst {e' : Entry} {n : Name} (hname : entryName e' = n) :
    ∀ es : List Entry, (replaceFirst es n e').map entryName = es.map entryName := by
  intro es
  induction es with
  | nil => rfl
  | cons x xs ih =>
    by_cases hx : entryName x = n
    · rw [replaceFirst, if_pos hx, List.map_cons, List.map_cons, hname, hx]
    · rw [replaceFirst, if_neg hx, List.map_cons, List.map_cons, ih]

theorem mem_names_replaceFirst {e' : Entry} {n k : Name} :
    ∀ es : List Entry, k ∈ (replaceFirst es n e').map entryName →
    k ∈ es.map entryName ∨ k = entryName e' := by
  intro es
  induction es with
  | nil => intro h; simp [replaceFirst] at h
  | cons x xs ih =>
    intro h
    by_cases hx : entryName x = n
    · rw [replaceFirst, if_pos hx, List.map_cons] at h
      rcases List.mem_cons.mp h with h' | h'
      · exact Or.inr h'
      · exact Or.inl (by simp [h'])
    · rw [replaceFirst, if_neg hx, List.map_cons] at h
      rcases List.mem_cons.mp h with h' | h'
      · exact Or.inl (by simp [h'])
      · rcases ih h' with h'' | h''
        · exact Or.inl (by simp [h''])
        · exact Or.inr h''

theorem mem_names_findEntry {k : Name} :
    ∀ es : List Entry, k ∈ es.map entryName → (findEntry es k).isSome = true := by
  intro es
  induction es with
  | nil => intro h; simp at h
  | cons x xs ih =>
    intro h
    by_cases hx : entryName x = k
    · simp [findEntry, List.find?_cons, hx]
    · rcases List.mem_cons.mp h with h' | h'
      · exact absurd h'.symm hx
      · have := ih h'
        simpa [findEntry, List.find?_cons, hx] using this

theorem wfEntry_setEntryName {e : Entry} (h : wfEntry e = true) (n' : Name) :
    wfEntry (setEntryName e n') = true := by
  cases e with
  | file _ _ => rfl
  | dir m cs => exact h

theorem wfChildren_replaceFirst {e' : Entry} {n : Name} (he' : wfEntry e' = true) :
    ∀ es : List Entry, wfChildren es = true → wfChildren (replaceFirst es n e') = true := by
  intro es
  induction es with
  | nil => intro h; exact h
  | cons x xs ih =>
    intro h
    rw [wfChildren, Bool.and_eq_true] at h
    by_cases hx : entryName x = n
    · rw [replaceFirst, if_pos hx, wfChildren, he', h.2]
      rfl
    · rw [replaceFirst, if_neg hx, wfChildren, h.1, ih h.2]
      rfl

theorem nodup_names_replaceFirst {e' : Entry} {n n' : Name}
    (hname : entryName e' = n') :
    ∀ es : List Entry, (es.map entryName).Nodup → findEntry es n' = none →
    ((replaceFirst es n e').map entryName).Nodup := by
  intro es
  induction es with
  | nil => intro _ _; simp [replaceFirst]
  | cons x xs ih =>
    intro hnd hfr
    rw [List.map_cons, List.nodup_cons] at hnd
    have hxn' : entryName x ≠ n' := by
      intro hc
      simp [findEntry, List.find?_cons, hc] at hfr
    have hfr' : findEntry xs n' = none := by
      simpa [findEntry, List.find?_cons, hxn'] using hfr
    by_cases hx : entryName x = n
    · rw [replaceFirst, if_pos hx, List.map_cons, List.nodup_cons, hname]
      refine ⟨?_, hnd.2⟩
      intro hc
      have := mem_names_findEntry xs hc
      rw [hfr'] at this
      simp at this
    · rw [replaceFirst, if_neg hx, List.map_cons, List.nodup_cons]
      refine ⟨?_, ih hnd.2 hfr'⟩
      intro hc
      rcases mem_names_replaceFirst xs hc with h' | h'
      · exact hnd.1 h'
      · rw [hname] at h'
        exact hxn' h'

theorem wfRoot_writeAt : ∀ (p : FsPath) (es : List Entry) (c : Name),
    wfRoot es = true → wfRoot (writeAt es p c) = true := by
  intro p
  induction p with
  | nil => intro es c h; exact h
  | cons n rest ih =>
    intro es c h
    cases rest with
    | nil =>
      rcases hf : findEntry es n with _ | e₀
      · rw [show writeAt es [n] c = es by rw [writeAt_single, hf]]
        exact h
      · cases e₀ with
        | dir mm cs =>
          rw [show writeAt es [n] c = es by rw [writeAt_single, hf]]
          exact h
        | file mf df =>
          rw [show writeAt es [n] c
              = replaceFirst es n (Entry.file mf { df with content := c }) by
            rw [writeAt_single, hf]]
          have hmf : entryName (Entry.file mf { df with content := c }) = n := by
            have := findEntry_name hf
            simpa [entryName] using this
          rw [wfRoot, Bool.and_eq_true]
          obtain ⟨h1, h2⟩ := wfRoot_parts h
          refine ⟨?_, @wfChildren_replaceFirst
            (Entry.file mf { df with content := c }) n rfl es h2⟩
          rw [names_replaceFirst hmf]
          exact h1
    | cons r rs =>
      rcases hf : findEntry es n with _ | e₀
      · rw [show writeAt es (n :: r :: rs) c = es by rw [writeAt_cons₂, hf]]
        exact h
      · cases e₀ with
        | file mf df =>
          rw [show writeAt es (n :: r :: rs) c = es by rw [writeAt_cons₂, hf]]
          exact h
        | dir mm cs =>
          rw [show writeAt es (n :: r :: rs) c
              = replaceFirst es n (Entry.dir mm (writeAt cs (r :: rs) c)) by
            rw [writeAt_cons₂, hf]]
          have hmm : entryName (Entry.dir mm (writeAt cs (r :: rs) c)) = n := by
            have := findEntry_name hf
            simpa [entryName] using this
          rw [wfRoot, Bool.and_eq_true]
          obtain ⟨h1, h2⟩ := wfRoot_parts h
          have hwfcs : wfRoot cs = true := by
            rw [← wfEntry_dir_eq_wfRoot mm cs]
            exact wfChildren_mem h2 _ (findEntry_mem hf)
          refine ⟨?_, wfChildren_replaceFirst ?_ es h2⟩
          · rw [names_replaceFirst hmm]
            exact h1
          · rw [wfEntry_dir_eq_wfRoot]
            exact ih cs c hwfcs

theorem wfRoot_renameAt : ∀ (p : FsPath) (es : List Entry) (n' : Name)
    (es' : List Entry), wfRoot es = true → renameAt es p n' = some es' →
    wfRoot es' = true := by
  intro p
  induction p with
  | nil => intro es n' es' _ h; simp [renameAt] at h
  | cons n rest ih =>
    intro es n' es' hwf h
    cases rest with
    | nil =>
      rw [renameAt_single] at h
      rcases hf : findEntry es n with _ | e
      · rw [hf] at h; simp at h
      · rw [hf] at h
        simp only at h
        by_cases hnn : n' = n
        · rw [if_pos hnn] at h
          simp at h
          rw [← h]
          exact hwf
        · rw [if_neg hnn] at h
          by_cases hcol : (findEntry es n').isSome = true
          · rw [if_pos hcol] at h; simp at h
          · rw [if_neg hcol] at h
            simp at h
            subst h
            rw [wfRoot, Bool.and_eq_true]
            obtain ⟨h1, h2⟩ := wfRoot_parts hwf
            refine ⟨?_, wfChildren_replaceFirst
              (wfEntry_setEntryName (wfChildren_mem h2 _ (findEntry_mem hf)) n') es h2⟩
            rw [nodupKeys_iff]
            exact nodup_names_replaceFirst (entryName_setEntryName e n') es
              ((nodupKeys_iff _).mp h1) (by simpa using hcol)
    | cons r rs =>
      rw [renameAt_cons₂] at h
      rcases hf : findEntry es n with _ | e
      · rw [hf] at h; simp at h
      · rw [hf] at h
        cases e with
        | file _ _ => simp at h
        | dir mm cs =>
          simp only at h
          rcases hra : renameAt cs (r :: rs) n' with _ | cs'
          · rw [hra] at h; simp at h
          · rw [hra] at h
            simp at h
            subst h
            have hmm : entryName (Entry.dir mm cs') = n := by
              have := findEntry_name hf
              simpa [entryName] using this
            rw [wfRoot, Bool.and_eq_true]
            obtain ⟨h1, h2⟩ := wfRoot_parts hwf
            have hwfcs : wfRoot cs = true := by
              rw [← wfEntry_dir_eq_wfRoot mm cs]
              exact wfChildren_mem h2 _ (findEntry_mem hf)
            refine ⟨?_, wfChildren_replaceFirst ?_ es h2⟩
            · rw [names_replaceFirst hmm]
              exact h1
            · rw [wfEntry_dir_eq_wfRoot]
              exact ih cs n' cs' hwfcs hra


theorem foldl_tree_wf {α : Type} (f : RunState → α → RunState)
    (hf : ∀ s a, wfRoot s.tree = true → wfRoot ((f s a).tree) = true) :
    ∀ (l : List α) (s : RunState), wfRoot s.tree = true →
      wfRoot ((l.foldl f s).tree) = true := by
  intro l
  induction l with
  | nil => intro s h; exact h
  | cons a as ih =>
    intro s h
    rw [List.foldl_cons]
    exact ih (f s a) (hf s a h)

theorem contentStep_wf (old new : Name) (s : RunState) (p : FsPath)
    (h : wfRoot s.tree = true) : wfRoot ((contentStep old new false s p).tree) = true := by
  rcases contentStep_apply_cases old new s p with ⟨ht, _, _⟩ | ⟨m', d', _, _, ht, _⟩
  · rw [ht]; exact h
  · rw [ht]; exact wfRoot_writeAt p s.tree (pyReplace old new d'.content) h

theorem fileRenameStep_wf (old new : Name) (s : RunState) (p : FsPath)
    (h : wfRoot s.tree = true) : wfRoot ((fileRenameStep old new false s p).tree) = true := by
  rcases fileRenameStep_tree_cases old new s p with ht | hra
  · rw [ht]; exact h
  · exact wfRoot_renameAt p s.tree (pyReplace old new (lastName p)) _ h hra

theorem dirRenameStep_wf (old new : Name) (s : RunState) (p : FsPath)
    (h : wfRoot s.tree = true) : wfRoot ((dirRenameStep old new false s p).tree) = true := by
  rcases dirRenameStep_tree_cases old new s p with ht | hra
  · rw [ht]; exact h
  · exact wfRoot_renameAt p s.tree (pyReplace old new (lastName p)) _ h hra

/-- Replacing a non-empty token that actually occurs, by a token made of
characters the old token does not have, really changes the string. -/
theorem pyReplace_changes {old new : Name} (hold : old ≠ []) (hnew : new ≠ [])
    (hdisj : ∀ x ∈ new, x ∉ old) {s : Name} (hc : containsTok old s = true) :
    pyReplace old new s ≠ s := by
  intro heq
  have hz := countOccs_replace_old old new hold hnew hdisj s
  rw [heq] at hz
  have := not_containsTok_of_countOccs_zero hold s hz
  rw [hc] at this
  simp at this

/-- After the apply-mode content pass, every file with an unfiltered
name that is both readable and writable holds token-free content
(provided every file satisfying this was in the processed list). -/
theorem contentPass_clean (old new : Name) (hold : old ≠ []) (hnew : new ≠ [])
    (hdisj : ∀ x ∈ new, x ∉ old) :
    ∀ (l : List FsPath) (s : RunState),
    (∀ q m d, lookupEntry s.tree q = some (Entry.file m d) → keepFileName m = true →
      d.readOk = true → d.writeOk = true →
      (containsTok old d.content = false ∨ q ∈ l)) →
    ∀ q m d, lookupEntry ((l.foldl (contentStep old new false) s).tree) q
        = some (Entry.file m d) → keepFileName m = true →
      d.readOk = true → d.writeOk = true → containsTok old d.content = false := by
  intro l
  induction l with
  | nil =>
    intro s hP q m d h hk hr hw
    rcases hP q m d h hk hr hw with hclean | hmem
    · exact hclean
    · simp at hmem
  | cons p rest ih =>
    intro s hP q m d h hk hr hw
    rw [List.foldl_cons] at h
    refine ih (contentStep old new false s p) ?_ q m d h hk hr hw
    intro q' m' d' h' hk' hr' hw'
    rcases contentStep_apply_cases old new s p with ⟨ht, _, hflag⟩ | ⟨mp, dp, hlp, hflag, ht, _⟩
    · rw [ht] at h'
      rcases hP q' m' d' h' hk' hr' hw' with hclean | hmem
      · exact Or.inl hclean
      · rcases List.mem_cons.mp hmem with rfl | hmem'
        · have hfl := hflag m' d' h'
          rw [hr', hw'] at hfl
          left
          simpa using hfl
        · exact Or.inr hmem'
    · rw [ht] at h'
      rcases writeAt_file_rev p s.tree (pyReplace old new dp.content) q' m' d' h' with
        hsame | ⟨hqp, d₀, hl₀, hd⟩
      · rcases hP q' m' d' hsame hk' hr' hw' with hclean | hmem
        · exact Or.inl hclean
        · rcases List.mem_cons.mp hmem with rfl | hmem'
          · have hres := writeAt_lookup_result q' s.tree mp dp
              (pyReplace old new dp.content) hlp
            have hcomb := hres.symm.trans h'
            obtain ⟨h1, h2⟩ :
                mp = m' ∧ ({ dp with content := pyReplace old new dp.content } : FileData)
                  = d' := by
              simpa using hcomb
            left
            rw [← h2]
            have hz := countOccs_replace_old old new hold hnew hdisj dp.content
            exact not_containsTok_of_countOccs_zero hold _ hz
          · exact Or.inr hmem'
      · left
        rw [hd]
        have hz := countOccs_replace_old old new hold hnew hdisj dp.content
        exact not_containsTok_of_countOccs_zero hold _ hz

/-- Any file found after the content pass was already a file with the
same name at the same path before it. -/
theorem contentPass_file_rev (old new : Name) : ∀ (l : List FsPath) (s : RunState)
    (q : FsPath) (m : Name) (d : FileData),
    lookupEntry ((l.foldl (contentStep old new false) s).tree) q = some (Entry.file m d) →
    ∃ d₀, lookupEntry s.tree q = some (Entry.file m d₀) := by
  intro l
  induction l with
  | nil => intro s q m d h; exact ⟨d, h⟩
  | cons p rest ih =>
    intro s q m d h
    rw [List.foldl_cons] at h
    obtain ⟨d₁, hd₁⟩ := ih (contentStep old new false s p) q m d h
    rcases contentStep_apply_cases old new s p with ⟨ht, _, _⟩ | ⟨mp, dp, hlp, _, ht, _⟩
    · rw [ht] at hd₁
      exact ⟨d₁, hd₁⟩
    · rw [ht] at hd₁
      rcases writeAt_file_rev p s.tree (pyReplace old new dp.content) q m d₁ hd₁ with
        hsame | ⟨hqp, d₀, hl₀, _⟩
      · exact ⟨d₁, hsame⟩
      · exact ⟨d₀, by rw [hqp]; exact hl₀⟩

/-- The content pass preserves directory shape at every path, in both
directions. -/
theorem contentPass_dir_iff (old new : Name) : ∀ (l : List FsPath) (s : RunState)
    (q : FsPath) (m : Name),
    (∃ ds, lookupEntry s.tree q = some (Entry.dir m ds)) ↔
    (∃ ds', lookupEntry ((l.foldl (contentStep old new false) s).tree) q
      = some (Entry.dir m ds')) := by
  intro l
  induction l with
  | nil => intro s q m; exact Iff.rfl
  | cons p rest ih =>
    intro s q m
    rw [List.foldl_cons]
    refine Iff.trans ?_ (ih (contentStep old new false s p) q m)
    rcases contentStep_apply_cases old new s p with ⟨ht, _, _⟩ | ⟨mp, dp, _, _, ht, _⟩
    · rw [ht]
    · rw [ht]
      exact writeAt_dir_iff p s.tree (pyReplace old new dp.content) q m


theorem lookup_some_ne_nil {es : List Entry} {q : FsPath} {e : Entry}
    (h : lookupEntry es q = some e) : q ≠ [] := by
  intro hq
  subst hq
  simp [lookupEntry] at h

/-- Complete accounting of one successful rename: every entry of the new
tree is (a) an off-path entry unchanged in place, (b) the renamed entry
at the target, (c) a descendant moved along with it, or (d) an ancestor
of the source, same name and kind, with an updated subtree; and entries
and directory shapes away from source and target persist forwards. -/
theorem renameStep_facts {es t' : List Entry} {p : FsPath} {ep : Entry} {n₂ : Name}
    (hwf : wfRoot es = true) (hep : lookupEntry es p = some ep)
    (hne : n₂ ≠ lastName p) (hra : renameAt es p n₂ = some t') :
    (∀ q e', lookupEntry t' q = some e' →
      (lookupEntry es q = some e' ∧ ¬ (p <+: q) ∧ ¬ ((p.dropLast ++ [n₂]) <+: q)) ∨
      (q = p.dropLast ++ [n₂] ∧ e' = setEntryName ep n₂) ∨
      (∃ rr, rr ≠ [] ∧ q = p.dropLast ++ [n₂] ++ rr ∧
        lookupEntry es (p ++ rr) = some e') ∨
      (∃ rr, rr ≠ [] ∧ p = q ++ rr ∧ ∃ mq dsq ds',
        lookupEntry es q = some (Entry.dir mq dsq) ∧ e' = Entry.dir mq ds')) ∧
    (∀ q m d, lookupEntry es q = some (Entry.file m d) → ¬ (p <+: q) →
      lookupEntry t' q = some (Entry.file m d)) ∧
    (∀ q m, (∃ ds, lookupEntry es q = some (Entry.dir m ds)) →
      ¬ (p <+: q) → ¬ ((p.dropLast ++ [n₂]) <+: q) →
      ∃ ds', lookupEntry t' q = some (Entry.dir m ds')) := by
  have hpnil : p ≠ [] := lookup_some_ne_nil hep
  have htgt_pre : lookupEntry es (p.dropLast ++ [n₂]) = none :=
    renameAt_target_none p es n₂ t' hra hne
  have hgone : lookupEntry t' p = none := renameAt_gone p es n₂ t' hra hne hwf
  have htgt : lookupEntry t' (p.dropLast ++ [n₂]) = some (setEntryName ep n₂) :=
    renameAt_target p es n₂ t' ep hra hne hep
  refine ⟨?_, ?_, ?_⟩
  · intro q e' h'
    have hqnil : q ≠ [] := lookup_some_ne_nil h'
    by_cases hpq : p <+: q
    · obtain ⟨rr, rfl⟩ := hpq
      cases rr with
      | nil =>
        rw [List.append_nil] at h'
        rw [hgone] at h'
        simp at h'
      | cons x xs =>
        obtain ⟨mq, dsq, hdq⟩ := lookup_append_dir p (x :: xs) t' hpnil (by simp)
          (by rw [h']; rfl)
        rw [hgone] at hdq
        simp at hdq
    · by_cases htq : (p.dropLast ++ [n₂]) <+: q
      · obtain ⟨rr, rfl⟩ := htq
        cases rr with
        | nil =>
          rw [List.append_nil] at h' ⊢
          right; left
          refine ⟨rfl, ?_⟩
          rw [htgt] at h'
          simpa using h'.symm
        | cons x xs =>
          right; right; left
          refine ⟨x :: xs, by simp, rfl, ?_⟩
          rw [← renameAt_moved p es n₂ t' hra hne (x :: xs) (by simp)]
          exact h'
      · by_cases hqp : q <+: p
        · obtain ⟨rr, hrr⟩ := hqp
          cases rr with
          | nil =>
            rw [List.append_nil] at hrr
            exact absurd (hrr ▸ List.prefix_refl p) (hrr ▸ hpq)
          | cons x xs =>
            obtain ⟨mq, dsq, hdq⟩ := lookup_append_dir q (x :: xs) es
              hqnil (by simp) (by rw [hrr, hep]; rfl)
            have hsh := (renameAt_dir_shape p es n₂ t' q mq hra hpq htq).mp ⟨dsq, hdq⟩
            obtain ⟨ds', hds'⟩ := hsh
            right; right; right
            refine ⟨x :: xs, by simp, hrr.symm, mq, dsq, ds', hdq, ?_⟩
            have := h'.symm.trans hds'
            simpa using this
        · left
          refine ⟨?_, hpq, htq⟩
          rw [← renameAt_lookup_eq p es n₂ t' q hra hpq htq hqp]
          exact h'
  · intro q m d hq hpq
    have hqnil : q ≠ [] := lookup_some_ne_nil hq
    have htq : ¬ ((p.dropLast ++ [n₂]) <+: q) := by
      intro hcontra
      obtain ⟨rr, rfl⟩ := hcontra
      cases rr with
      | nil =>
        rw [List.append_nil] at hq
        rw [htgt_pre] at hq
        simp at hq
      | cons x xs =>
        obtain ⟨mq, dsq, hdq⟩ := lookup_append_dir (p.dropLast ++ [n₂]) (x :: xs) es
          (by simp) (by simp) (by rw [hq]; rfl)
        rw [htgt_pre] at hdq
        simp at hdq
    have hqp : ¬ (q <+: p) := by
      intro hcontra
      obtain ⟨rr, hrr⟩ := hcontra
      cases rr with
      | nil =>
        rw [List.append_nil] at hrr
        exact hpq (hrr ▸ List.prefix_refl p)
      | cons x xs =>
        obtain ⟨mq, dsq, hdq⟩ := lookup_append_dir q (x :: xs) es hqnil (by simp)
          (by rw [hrr, hep]; rfl)
        rw [hq] at hdq
        simp at hdq
    rw [renameAt_lookup_eq p es n₂ t' q hra hpq htq hqp]
    exact hq
  · intro q m hdir hpq htq
    exact (renameAt_dir_shape p es n₂ t' q m hra hpq htq).mp hdir


/-- Invariant carried through the apply-mode file-rename pass: provided
every remaining snapshot path still resolves to a file of that base
name, names are unfiltered, contents of kept readable-writable files are
already token-free, every kept dirty-named file lies at a remaining
snapshot path, and the pass never logs a rename error, then afterwards
the tree is still well-formed, contents are still token-free, NO kept
file name contains the token any more, and directory shapes are
preserved in both directions. -/
theorem fileRenamePass_inv (old new : Name) (hold : old ≠ []) (hnew : new ≠ [])
    (hdisj : ∀ x ∈ new, x ∉ old) :
    ∀ (l : List FsPath) (s : RunState),
    wfRoot s.tree = true →
    l.Nodup → l.Pairwise notAbove →
    (∀ q ∈ l, ∃ d, lookupEntry s.tree q = some (Entry.file (lastName q) d)) →
    (∀ q ∈ l, keepFileName (lastName q) = true) →
    (∀ q m d, lookupEntry s.tree q = some (Entry.file m d) → keepFileName m = true →
      d.readOk = true → d.writeOk = true → containsTok old d.content = false) →
    (∀ q m d, lookupEntry s.tree q = some (Entry.file m d) → keepFileName m = true →
      containsTok old m = true → q ∈ l) →
    (∀ x, Msg.renameError x ∉ ((l.foldl (fileRenameStep old new false) s).log)) →
    wfRoot ((l.foldl (fileRenameStep old new false) s).tree) = true ∧
    (∀ q m d, lookupEntry ((l.foldl (fileRenameStep old new false) s).tree) q
        = some (Entry.file m d) → keepFileName m = true →
      d.readOk = true → d.writeOk = true → containsTok old d.content = false) ∧
    (∀ q m d, lookupEntry ((l.foldl (fileRenameStep old new false) s).tree) q
        = some (Entry.file m d) → keepFileName m = true → containsTok old m = false) ∧
    (∀ q m, (∃ ds, lookupEntry s.tree q = some (Entry.dir m ds)) →
      ∃ ds', lookupEntry ((l.foldl (fileRenameStep old new false) s).tree) q
        = some (Entry.dir m ds')) ∧
    (∀ q m, (∃ ds', lookupEntry ((l.foldl (fileRenameStep old new false) s).tree) q
        = some (Entry.dir m ds')) →
      ∃ ds, lookupEntry s.tree q = some (Entry.dir m ds)) := by
  intro l
  induction l with
  | nil =>
    intro s hwf _ _ _ _ hA hPC _
    refine ⟨hwf, hA, ?_, fun q m h => h, fun q m h => h⟩
    intro q m d hq hk
    by_cases hco : containsTok old m = true
    · have := hPC q m d hq hk hco
      simp at this
    · simpa using hco
  | cons p rest ih =>
    intro s hwf hnd hpw hH1 hH2 hA hPC hlog
    rw [List.nodup_cons] at hnd
    rw [List.pairwise_cons] at hpw
    obtain ⟨dp, hdp⟩ := hH1 p (by simp)
    have hiso : (lookupEntry s.tree p).isSome = true := by rw [hdp]; rfl
    rw [List.foldl_cons] at hlog ⊢
    by_cases hc : containsTok old (lastName p) = true
    · rcases hra : renameAt s.tree p (pyReplace old new (lastName p)) with _ | t'
      · exfalso
        have hri : renameItem old new s p = { s with log := s.log ++ [Msg.renameError p] } := by
          rw [renameItem]
          simp [hc, hra]
        have hs' : fileRenameStep old new false s p
            = { renameItem old new s p with
                renamedFiles := (renameItem old new s p).renamedFiles + 1 } := by
          simp [fileRenameStep, hiso, hc]
        obtain ⟨t, hlt⟩ := foldl_log_mono (fileRenameStep old new false)
          (fileRenameStep_log old new false) rest (fileRenameStep old new false s p)
        apply hlog p
        rw [hlt, hs', hri]
        simp
      · have hne : pyReplace old new (lastName p) ≠ lastName p :=
          pyReplace_changes hold hnew hdisj hc
        have htgt_pre : lookupEntry s.tree
            (p.dropLast ++ [pyReplace old new (lastName p)]) = none :=
          renameAt_target_none p s.tree (pyReplace old new (lastName p)) t' hra hne
        obtain ⟨hR1, hF1, hF2⟩ := renameStep_facts hwf hdp hne hra
        have hri : renameItem old new s p
            = { s with
                tree := t'
                log := s.log ++
                  [Msg.renamed p (p.dropLast ++ [pyReplace old new (lastName p)])] } := by
          rw [renameItem]
          simp [hc, hra]
        have hs' : fileRenameStep old new false s p
            = { renameItem old new s p with
                renamedFiles := (renameItem old new s p).renamedFiles + 1 } := by
          simp [fileRenameStep, hiso, hc]
        have htree' : (fileRenameStep old new false s p).tree = t' := by
          rw [hs', hri]
        have hn₂clean : containsTok old (pyReplace old new (lastName p)) = false :=
          not_containsTok_of_countOccs_zero hold _
            (countOccs_replace_old old new hold hnew hdisj _)
        have hwf' : wfRoot ((fileRenameStep old new false s p).tree) = true :=
          fileRenameStep_wf old new s p hwf
        have hH1' : ∀ q ∈ rest, ∃ d,
            lookupEntry ((fileRenameStep old new false s p).tree) q
              = some (Entry.file (lastName q) d) := by
          intro q hq
          obtain ⟨dq, hdq⟩ := hH1 q (by simp [hq])
          have hnpq : ¬ (p <+: q) := by
            intro hcontra
            have heq := hpw.1 q hq hcontra
            exact hnd.1 (heq ▸ hq)
          rw [htree']
          exact ⟨dq, hF1 q (lastName q) dq hdq hnpq⟩
        have hA' : ∀ q m d, lookupEntry ((fileRenameStep old new false s p).tree) q
            = some (Entry.file m d) → keepFileName m = true →
            d.readOk = true → d.writeOk = true → containsTok old d.content = false := by
          intro q m d hq hk hr hw
          rw [htree'] at hq
          rcases hR1 q _ hq with ⟨hsame, _, _⟩ | ⟨hqtgt, he'⟩ |
            ⟨rr, hrrne, hqeq, hlook⟩ | ⟨rr, hrrne, hpeq, mq, dsq, ds', hdq, he'⟩
          · exact hA q m d hsame hk hr hw
          · obtain ⟨hm, hd2⟩ : m = pyReplace old new (lastName p) ∧ d = dp := by
              simpa [setEntryName] using he'
            subst hd2
            exact hA p (lastName p) d hdp (hH2 p (by simp)) hr hw
          · obtain ⟨mq, dsq, hdq2⟩ := lookup_append_dir p rr s.tree
              (lookup_some_ne_nil hdp) hrrne (by rw [hlook]; rfl)
            rw [hdp] at hdq2
            simp at hdq2
          · simp at he'
        have hPC' : ∀ q m d, lookupEntry ((fileRenameStep old new false s p).tree) q
            = some (Entry.file m d) → keepFileName m = true →
            containsTok old m = true → q ∈ rest := by
          intro q m d hq hk hcont
          rw [htree'] at hq
          rcases hR1 q _ hq with ⟨hsame, hnpq, _⟩ | ⟨hqtgt, he'⟩ |
            ⟨rr, hrrne, hqeq, hlook⟩ | ⟨rr, hrrne, hpeq, mq, dsq, ds', hdq, he'⟩
          · have hmem := hPC q m d hsame hk hcont
            rcases List.mem_cons.mp hmem with h' | h'
            · exact absurd (h' ▸ List.prefix_refl p) hnpq
            · exact h'
          · obtain ⟨hm, hd2⟩ : m = pyReplace old new (lastName p) ∧ d = dp := by
              simpa [setEntryName] using he'
            rw [hm, hn₂clean] at hcont
            simp at hcont
          · obtain ⟨mq, dsq, hdq2⟩ := lookup_append_dir p rr s.tree
              (lookup_some_ne_nil hdp) hrrne (by rw [hlook]; rfl)
            rw [hdp] at hdq2
            simp at hdq2
          · simp at he'
        have hstepF : ∀ q m, (∃ ds, lookupEntry s.tree q = some (Entry.dir m ds)) →
            ∃ ds', lookupEntry ((fileRenameStep old new false s p).tree) q
              = some (Entry.dir m ds') := by
          intro q m hdir
          obtain ⟨ds, hds⟩ := hdir
          have hnpq : ¬ (p <+: q) := by
            intro hcontra
            obtain ⟨rr, rfl⟩ := hcontra
            cases rr with
            | nil =>
              rw [List.append_nil] at hds
              rw [hdp] at hds
              simp at hds
            | cons x xs =>
              obtain ⟨mq, dsq, hdq2⟩ := lookup_append_dir p (x :: xs) s.tree
                (lookup_some_ne_nil hdp) (by simp) (by rw [hds]; rfl)
              rw [hdp] at hdq2
              simp at hdq2
          have hntq : ¬ ((p.dropLast ++ [pyReplace old new (lastName p)]) <+: q) := by
            intro hcontra
            obtain ⟨rr, rfl⟩ := hcontra
            cases rr with
            | nil =>
              rw [List.append_nil] at hds
              rw [htgt_pre] at hds
              simp at hds
            | cons x xs =>
              obtain ⟨mq, dsq, hdq2⟩ := lookup_append_dir
                (p.dropLast ++ [pyReplace old new (lastName p)]) (x :: xs) s.tree
                (by simp) (by simp) (by rw [hds]; rfl)
              rw [htgt_pre] at hdq2
              simp at hdq2
          rw [htree']
          exact hF2 q m ⟨ds, hds⟩ hnpq hntq
        have hstepR : ∀ q m,
            (∃ ds', lookupEntry ((fileRenameStep old new false s p).tree) q
              = some (Entry.dir m ds')) →
            ∃ ds, lookupEntry s.tree q = some (Entry.dir m ds) := by
          intro q m hdir
          obtain ⟨ds', hds'⟩ := hdir
          rw [htree'] at hds'
          rcases hR1 q _ hds' with ⟨hsame, _, _⟩ | ⟨hqtgt, he'⟩ |
            ⟨rr, hrrne, hqeq, hlook⟩ | ⟨rr, hrrne, hpeq, mq, dsq, ds₂, hdq, he'⟩
          · exact ⟨ds', hsame⟩
          · rw [show setEntryName (Entry.file (lastName p) dp)
                (pyReplace old new (lastName p))
                = Entry.file (pyReplace old new (lastName p)) dp from rfl] at he'
            simp at he'
          · obtain ⟨mq, dsq, hdq2⟩ := lookup_append_dir p rr s.tree
              (lookup_some_ne_nil hdp) hrrne (by rw [hlook]; rfl)
            rw [hdp] at hdq2
            simp at hdq2
          · obtain ⟨hm, _⟩ : m = mq ∧ ds' = ds₂ := by simpa using he'
            exact ⟨dsq, by rw [hdq, hm]⟩
        obtain ⟨ihwf, ihA, ihB, ihD, ihE⟩ := ih (fileRenameStep old new false s p)
          hwf' hnd.2 hpw.2 hH1' (fun q hq => hH2 q (by simp [hq])) hA' hPC' hlog
        refine ⟨ihwf, ihA, ihB, ?_, ?_⟩
        · intro q m hdir
          exact ihD q m (hstepF q m hdir)
        · intro q m hdir
          exact hstepR q m (ihE q m hdir)
    · have hs' : fileRenameStep old new false s p = s := by
        simp [fileRenameStep, hiso, hc]
      rw [hs'] at hlog ⊢
      apply ih s hwf hnd.2 hpw.2 (fun q hq => hH1 q (by simp [hq]))
        (fun q hq => hH2 q (by simp [hq])) hA ?_ hlog
      intro q m d hq hk hcont
      have hmem := hPC q m d hq hk hcont
      rcases List.mem_cons.mp hmem with h' | h'
      · exfalso
        rw [h', hdp] at hq
        have hm : lastName p = m ∧ dp = d := by simpa using hq
        rw [← hm.1] at hcont
        exact hc hcont
      · exact h'


/-- Invariant carried through the apply-mode directory-rename pass:
starting from a tree whose kept file names and kept readable-writable
file contents are token-free, with every kept dirty-named directory
sitting at a remaining snapshot path (descendants first), and with no
rename error logged, the pass ends with a well-formed tree whose kept
file names, kept file contents and kept directory names are all
token-free. -/
theorem dirRenamePass_inv (old new : Name) (hold : old ≠ []) (hnew : new ≠ [])
    (hdisj : ∀ x ∈ new, x ∉ old) :
    ∀ (l : List FsPath) (s : RunState),
    wfRoot s.tree = true →
    l.Nodup → l.Pairwise notAbove →
    (∀ q ∈ l, ∃ ds, lookupEntry s.tree q = some (Entry.dir (lastName q) ds)) →
    (∀ q m d, lookupEntry s.tree q = some (Entry.file m d) → keepFileName m = true →
      d.readOk = true → d.writeOk = true → containsTok old d.content = false) →
    (∀ q m d, lookupEntry s.tree q = some (Entry.file m d) → keepFileName m = true →
      containsTok old m = false) →
    (∀ q m ds, lookupEntry s.tree q = some (Entry.dir m ds) → keepDirName m = true →
      containsTok old m = true → q ∈ l) →
    (∀ x, Msg.renameError x ∉ ((l.foldl (dirRenameStep old new false) s).log)) →
    wfRoot ((l.foldl (dirRenameStep old new false) s).tree) = true ∧
    (∀ q m d, lookupEntry ((l.foldl (dirRenameStep old new false) s).tree) q
        = some (Entry.file m d) → keepFileName m = true →
      d.readOk = true → d.writeOk = true → containsTok old d.content = false) ∧
    (∀ q m d, lookupEntry ((l.foldl (dirRenameStep old new false) s).tree) q
        = some (Entry.file m d) → keepFileName m = true → containsTok old m = false) ∧
    (∀ q m ds, lookupEntry ((l.foldl (dirRenameStep old new false) s).tree) q
        = some (Entry.dir m ds) → keepDirName m = true → containsTok old m = false) := by
  intro l
  induction l with
  | nil =>
    intro s hwf _ _ _ hA hB hBd _
    refine ⟨hwf, hA, hB, ?_⟩
    intro q m ds hq hk
    by_cases hco : containsTok old m = true
    · have := hBd q m ds hq hk hco
      simp at this
    · simpa using hco
  | cons p rest ih =>
    intro s hwf hnd hpw hH1 hA hB hBd hlog
    rw [List.nodup_cons] at hnd
    rw [List.pairwise_cons] at hpw
    obtain ⟨dsp, hdp⟩ := hH1 p (by simp)
    have hiso : (lookupEntry s.tree p).isSome = true := by rw [hdp]; rfl
    rw [List.foldl_cons] at hlog ⊢
    by_cases hc : containsTok old (lastName p) = true
    · rcases hra : renameAt s.tree p (pyReplace old new (lastName p)) with _ | t'
      · exfalso
        have hri : renameItem old new s p = { s with log := s.log ++ [Msg.renameError p] } := by
          rw [renameItem]
          simp [hc, hra]
        have hs' : dirRenameStep old new false s p
            = { renameItem old new s p with
                renamedDirs := (renameItem old new s p).renamedDirs + 1 } := by
          simp [dirRenameStep, hiso, hc]
        obtain ⟨t, hlt⟩ := foldl_log_mono (dirRenameStep old new false)
          (dirRenameStep_log old new false) rest (dirRenameStep old new false s p)
        apply hlog p
        rw [hlt, hs', hri]
        simp
      · have hne : pyReplace old new (lastName p) ≠ lastName p :=
          pyReplace_changes hold hnew hdisj hc
        have htgt_pre : lookupEntry s.tree
            (p.dropLast ++ [pyReplace old new (lastName p)]) = none :=
          renameAt_target_none p s.tree (pyReplace old new (lastName p)) t' hra hne
        obtain ⟨hR1, hF1, hF2⟩ := renameStep_facts hwf hdp hne hra
        have hri : renameItem old new s p
            = { s with
                tree := t'
                log := s.log ++
                  [Msg.renamed p (p.dropLast ++ [pyReplace old new (lastName p)])] } := by
          rw [renameItem]
          simp [hc, hra]
        have hs' : dirRenameStep old new false s p
            = { renameItem old new s p with
                renamedDirs := (renameItem old new s p).renamedDirs + 1 } := by
          simp [dirRenameStep, hiso, hc]
        have htree' : (dirRenameStep old new false s p).tree = t' := by
          rw [hs', hri]
        have hn₂clean : containsTok old (pyReplace old new (lastName p)) = false :=
          not_containsTok_of_countOccs_zero hold _
            (countOccs_replace_old old new hold hnew hdisj _)
        have hwf' : wfRoot ((dirRenameStep old new false s p).tree) = true :=
          dirRenameStep_wf old new s p hwf
        have hH1' : ∀ q ∈ rest, ∃ ds,
            lookupEntry ((dirRenameStep old new false s p).tree) q
              = some (Entry.dir (lastName q) ds) := by
          intro q hq
          obtain ⟨dsq, hdq⟩ := hH1 q (by simp [hq])
          have hnpq : ¬ (p <+: q) := by
            intro hcontra
            have heq := hpw.1 q hq hcontra
            exact hnd.1 (heq ▸ hq)
          have hntq : ¬ ((p.dropLast ++ [pyReplace old new (lastName p)]) <+: q) := by
            intro hcontra
            obtain ⟨rr, rfl⟩ := hcontra
            cases rr with
            | nil =>
              rw [List.append_nil] at hdq
              rw [htgt_pre] at hdq
              simp at hdq
            | cons x xs =>
              obtain ⟨mq, dsq2, hdq2⟩ := lookup_append_dir
                (p.dropLast ++ [pyReplace old new (lastName p)]) (x :: xs) s.tree
                (by simp) (by simp) (by rw [hdq]; rfl)
              rw [htgt_pre] at hdq2
              simp at hdq2
          rw [htree']
          exact hF2 q (lastName q) ⟨dsq, hdq⟩ hnpq hntq
        have hA' : ∀ q m d, lookupEntry ((dirRenameStep old new false s p).tree) q
            = some (Entry.file m d) → keepFileName m = true →
            d.readOk = true → d.writeOk = true → containsTok old d.content = false := by
          intro q m d hq hk hr hw
          rw [htree'] at hq
          rcases hR1 q _ hq with ⟨hsame, _, _⟩ | ⟨hqtgt, he'⟩ |
            ⟨rr, hrrne, hqeq, hlook⟩ | ⟨rr, hrrne, hpeq, mq, dsq, ds', hdq, he'⟩
          · exact hA q m d hsame hk hr hw
          · simp [setEntryName] at he'
          · exact hA (p ++ rr) m d hlook hk hr hw
          · simp at he'
        have hB' : ∀ q m d, lookupEntry ((dirRenameStep old new false s p).tree) q
            = some (Entry.file m d) → keepFileName m = true →
            containsTok old m = false := by
          intro q m d hq hk
          rw [htree'] at hq
          rcases hR1 q _ hq with ⟨hsame, _, _⟩ | ⟨hqtgt, he'⟩ |
            ⟨rr, hrrne, hqeq, hlook⟩ | ⟨rr, hrrne, hpeq, mq, dsq, ds', hdq, he'⟩
          · exact hB q m d hsame hk
          · simp [setEntryName] at he'
          · exact hB (p ++ rr) m d hlook hk
          · simp at he'
        have hBd' : ∀ q m ds, lookupEntry ((dirRenameStep old new false s p).tree) q
            = some (Entry.dir m ds) → keepDirName m = true →
            containsTok old m = true → q ∈ rest := by
          intro q m ds hq hk hcont
          rw [htree'] at hq
          rcases hR1 q _ hq with ⟨hsame, hnpq, _⟩ | ⟨hqtgt, he'⟩ |
            ⟨rr, hrrne, hqeq, hlook⟩ | ⟨rr, hrrne, hpeq, mq, dsq, ds₂, hdq, he'⟩
          · have hmem := hBd q m ds hsame hk hcont
            rcases List.mem_cons.mp hmem with h' | h'
            · exact absurd (h' ▸ List.prefix_refl p) hnpq
            · exact h'
          · obtain ⟨hm, _⟩ : m = pyReplace old new (lastName p) ∧ ds = dsp := by
              simpa [setEntryName] using he'
            rw [hm, hn₂clean] at hcont
            simp at hcont
          · have hmem := hBd (p ++ rr) m ds hlook hk hcont
            rcases List.mem_cons.mp hmem with h' | h'
            · exfalso
              have hlen := congrArg List.length h'
              simp at hlen
              exact hrrne hlen
            · exfalso
              have hnot := hpw.1 (p ++ rr) h' (List.prefix_append p rr)
              have hlen := congrArg List.length hnot
              simp at hlen
              exact hrrne hlen
          · obtain ⟨hm, _⟩ : m = mq ∧ ds = ds₂ := by simpa using he'
            have hmem := hBd q m dsq (by rw [hdq, hm]) hk hcont
            rcases List.mem_cons.mp hmem with h' | h'
            · exfalso
              rw [h'] at hpeq
              have hlen := congrArg List.length hpeq
              simp at hlen
              exact hrrne hlen
            · exact h'
        exact ih (dirRenameStep old new false s p) hwf' hnd.2 hpw.2 hH1' hA' hB' hBd' hlog
    · have hs' : dirRenameStep old new false s p = s := by
        simp [dirRenameStep, hiso, hc]
      rw [hs'] at hlog ⊢
      apply ih s hwf hnd.2 hpw.2 (fun q hq => hH1 q (by simp [hq])) hA hB ?_ hlog
      intro q m ds hq hk hcont
      have hmem := hBd q m ds hq hk hcont
      rcases List.mem_cons.mp hmem with h' | h'
      · exfalso
        rw [h', hdp] at hq
        have hm : lastName p = m ∧ dsp = ds := by simpa using hq
        rw [← hm.1] at hcont
        exact hc hcont
      · exact h'


/-- After an error-free apply run over a well-formed tree with non-empty,
character-disjoint tokens, the resulting tree is well-formed and every
kept file name, kept directory name, and kept readable-writable file
content is free of the old token. -/
theorem processDirectory_run_inv (old new rn : Name) (cs : List Entry)
    (hwf : wfRoot cs = true) (hold : old ≠ []) (hnew : new ≠ [])
    (hdisj : ∀ x ∈ new, x ∉ old)
    (hnoerr : ∀ x, Msg.renameError x ∉ (processDirectory old new false rn cs).log) :
    wfRoot ((processDirectory old new false rn cs).tree) = true ∧
    (∀ q m d, lookupEntry ((processDirectory old new false rn cs).tree) q
        = some (Entry.file m d) → keepFileName m = true →
      d.readOk = true → d.writeOk = true → containsTok old d.content = false) ∧
    (∀ q m d, lookupEntry ((processDirectory old new false rn cs).tree) q
        = some (Entry.file m d) → keepFileName m = true → containsTok old m = false) ∧
    (∀ q m ds, lookupEntry ((processDirectory old new false rn cs).tree) q
        = some (Entry.dir m ds) → keepDirName m = true → containsTok old m = false) := by
  simp only [processDirectory] at hnoerr ⊢
  set s0 : RunState := (⟨rn, cs, [], 0, 0, 0⟩ : RunState) with hs0
  set s1 := (collectFiles cs).foldl (contentStep old new false) s0 with hs1
  set s1b : RunState := { s1 with log := s1.log ++ [Msg.modifiedSummary s1.modifiedFiles] } with hs1b
  set s2 := (collectFiles cs).foldl (fileRenameStep old new false) s1b with hs2
  set s2b : RunState := { s2 with log := s2.log ++ [Msg.renamedFilesSummary s2.renamedFiles] } with hs2b
  set s3 := (collectDirs cs).foldl (dirRenameStep old new false) s2b with hs3
  set s3b : RunState := { s3 with log := s3.log ++ [Msg.renamedDirsSummary s3.renamedDirs] } with hs3b
  have hlog3 : ∀ x, Msg.renameError x ∉ s3.log := by
    intro x hx
    apply hnoerr x
    by_cases hcr : containsTok old rn = true
    · simp only [hcr, if_pos, Bool.false_eq_true, if_false]
      show Msg.renameError x ∈ s3b.log ++ _
      refine List.mem_append.mpr (Or.inl ?_)
      show Msg.renameError x ∈ s3.log ++ _
      exact List.mem_append.mpr (Or.inl hx)
    · simp only [hcr, Bool.false_eq_true, if_false]
      show Msg.renameError x ∈ s3.log ++ _
      exact List.mem_append.mpr (Or.inl hx)
  have hlog2 : ∀ x, Msg.renameError x ∉ s2.log := by
    intro x hx
    apply hlog3 x
    obtain ⟨t, ht⟩ := foldl_log_mono (dirRenameStep old new false)
      (dirRenameStep_log old new false) (collectDirs cs) s2b
    rw [← hs3] at ht
    rw [ht]
    refine List.mem_append.mpr (Or.inl ?_)
    show Msg.renameError x ∈ s2.log ++ _
    exact List.mem_append.mpr (Or.inl hx)
  -- facts about the content-passed tree
  have hwf_a : wfRoot s1.tree = true := by
    have := foldl_tree_wf (contentStep old new false) (contentStep_wf old new)
      (collectFiles cs) s0 hwf
    rw [← hs1] at this
    exact this
  have hA_a : ∀ q m d, lookupEntry s1.tree q = some (Entry.file m d) →
      keepFileName m = true → d.readOk = true → d.writeOk = true →
      containsTok old d.content = false := by
    have hP : ∀ q m d, lookupEntry s0.tree q = some (Entry.file m d) →
        keepFileName m = true → d.readOk = true → d.writeOk = true →
        (containsTok old d.content = false ∨ q ∈ collectFiles cs) := by
      intro q m d hq hk _ _
      exact Or.inr (lookup_mem_collectFiles hq hk)
    have := contentPass_clean old new hold hnew hdisj (collectFiles cs) s0 hP
    rw [← hs1] at this
    exact this
  have hPC_a : ∀ q m d, lookupEntry s1.tree q = some (Entry.file m d) →
      keepFileName m = true → containsTok old m = true → q ∈ collectFiles cs := by
    intro q m d hq hk _
    have hrev := contentPass_file_rev old new (collectFiles cs) s0 q m d hq
    obtain ⟨d₀, hd₀⟩ := hrev
    exact lookup_mem_collectFiles hd₀ hk
  have hH1_a : ∀ q ∈ collectFiles cs, ∃ d,
      lookupEntry s1.tree q = some (Entry.file (lastName q) d) := by
    intro q hq
    obtain ⟨d, hd⟩ := collectFiles_lookup hwf hq
    have := contentPass_memberResult old new (collectFiles cs) s0 cs
      (collectFiles_nodup hwf) (fun r _ => rfl)
      (fun r hr => by
        obtain ⟨dr, hdr⟩ := collectFiles_lookup hwf hr
        exact ⟨lastName r, dr, hdr⟩)
      q hq (lastName q) d hd
    rw [← hs1] at this
    exact ⟨contentTransform old new d, this⟩
  -- the file-rename pass
  obtain ⟨hwf_b, hA_b, hB_b, hD_b, hE_b⟩ :=
    fileRenamePass_inv old new hold hnew hdisj (collectFiles cs) s1b
      hwf_a (collectFiles_nodup hwf) (collectFiles_pairwise hwf)
      hH1_a (fun q hq => collectFiles_keepFileName hq) hA_a hPC_a
      (by rw [← hs2]; exact hlog2)
  rw [← hs2] at hwf_b hA_b hB_b hD_b hE_b
  -- the directory-rename pass
  have hH1_c : ∀ q ∈ collectDirs cs, ∃ ds,
      lookupEntry s2b.tree q = some (Entry.dir (lastName q) ds) := by
    intro q hq
    obtain ⟨ds, hds⟩ := collectDirs_lookup hwf hq
    have hstep1 := (contentPass_dir_iff old new (collectFiles cs) s0 q (lastName q)).mp ⟨ds, hds⟩
    rw [← hs1] at hstep1
    exact hD_b q (lastName q) hstep1
  have hBd_c : ∀ q m ds, lookupEntry s2b.tree q = some (Entry.dir m ds) →
      keepDirName m = true → containsTok old m = true → q ∈ collectDirs cs := by
    intro q m ds hq hk _
    have hrev1 := hE_b q m ⟨ds, hq⟩
    have hrev0 := (contentPass_dir_iff old new (collectFiles cs) s0 q m).mpr
      (by rw [← hs1]; exact hrev1)
    obtain ⟨ds₀, hds₀⟩ := hrev0
    exact lookup_mem_collectDirs hds₀ hk
  obtain ⟨hwf_c, hA_c, hB_c, hBd_c'⟩ :=
    dirRenamePass_inv old new hold hnew hdisj (collectDirs cs) s2b
      hwf_b (collectDirs_nodup hwf) (collectDirs_pairwise hwf)
      hH1_c hA_b hB_b hBd_c
      (by rw [← hs3]; exact hlog3)
  rw [← hs3] at hwf_c hA_c hB_c hBd_c'
  by_cases hcr : containsTok old rn = true
  · simp only [hcr, if_pos, Bool.false_eq_true, if_false]
    exact ⟨hwf_c, hA_c, hB_c, hBd_c'⟩
  · simp only [hcr, Bool.false_eq_true, if_false]
    exact ⟨hwf_c, hA_c, hB_c, hBd_c'⟩


/-- C4 (amended): over a well-formed tree, with non-empty tokens that
share no character, if the first apply run logs no rename error then a
second apply run on its output (with the possibly renamed root) reports
zero modified files, zero renamed files and zero renamed directories.
(Unrestricted the claim is false: with old `aa`, new `a`, rewriting
`aaa` leaves `aa`, which the second run modifies again — see the
counterexample; and a rename collision in the first run leaves a
matching name in place for the second run to count.) -/
theorem claim_c4_amended (old new rn : Name) (cs : List Entry)
    (hwf : wfRoot cs = true) (hold : old ≠ []) (hnew : new ≠ [])
    (hdisj : ∀ x ∈ new, x ∉ old)
    (hnoerr : ((processDirectory old new false rn cs).log.all
      fun msg => !(isRenameErr msg)) = true) :
    (processDirectory old new false
        (processDirectory old new false rn cs).rootName
        (processDirectory old new false rn cs).tree).modifiedFiles = 0 ∧
    (processDirectory old new false
        (processDirectory old new false rn cs).rootName
        (processDirectory old new false rn cs).tree).renamedFiles = 0 ∧
    (processDirectory old new false
        (processDirectory old new false rn cs).rootName
        (processDirectory old new false rn cs).tree).renamedDirs = 0 := by
  have hnoerr' : ∀ x, Msg.renameError x ∉ (processDirectory old new false rn cs).log := by
    intro x hx
    have := List.all_eq_true.mp hnoerr _ hx
    simp [isRenameErr] at this
  obtain ⟨hwf₁, hI1, hI2, hI3⟩ :=
    processDirectory_run_inv old new rn cs hwf hold hnew hdisj hnoerr'
  obtain ⟨ham, haf, had⟩ := processDirectory_apply_counts old new
    (processDirectory old new false rn cs).rootName
    (processDirectory old new false rn cs).tree hwf₁
  refine ⟨?_, ?_, ?_⟩
  · rw [ham]
    apply List.countP_eq_zero.mpr
    intro q hq
    obtain ⟨d, hd⟩ := collectFiles_lookup hwf₁ hq
    have hk := collectFiles_keepFileName hq
    have happ : applyHit old (processDirectory old new false rn cs).tree q = false := by
      have hun : applyHit old (processDirectory old new false rn cs).tree q
          = (d.readOk && containsTok old d.content && d.writeOk) := by
        rw [applyHit, hd]
      rw [hun]
      by_cases hr : d.readOk = true
      · by_cases hw : d.writeOk = true
        · rw [hI1 q (lastName q) d hd hk hr hw, hr, hw]
          rfl
        · have hw' : d.writeOk = false := by
            cases hdw : d.writeOk
            · rfl
            · exact absurd hdw hw
          rw [hw']
          simp
      · have hr' : d.readOk = false := by
          cases hdr : d.readOk
          · rfl
          · exact absurd hdr hr
        rw [hr']
        simp
    simp [happ]
  · rw [haf]
    apply List.countP_eq_zero.mpr
    intro q hq
    obtain ⟨d, hd⟩ := collectFiles_lookup hwf₁ hq
    have hk := collectFiles_keepFileName hq
    simp [hI2 q (lastName q) d hd hk]
  · rw [had]
    apply List.countP_eq_zero.mpr
    intro q hq
    obtain ⟨ds, hd⟩ := collectDirs_lookup hwf₁ hq
    have hk := collectDirs_keepDirName hq
    simp [hI3 q (lastName q) ds hd hk]

/-- Witness for C4 (amended) at a concrete input: one matching directory
holding one matching file, tokens `Keva` → `XYZ`; the first run renames
both and rewrites the content, the second reports all-zero counts. -/
theorem claim_c4_amended_witness :
    (wfRoot [Entry.dir "KevaDir".toList
        [Entry.file "Keva.txt".toList ⟨"x Keva".toList, true, true⟩]] = true ∧
      (∀ x ∈ "XYZ".toList, x ∉ "Keva".toList) ∧
      ((processDirectory "Keva".toList "XYZ".toList false "KevaRoot".toList
          [Entry.dir "KevaDir".toList
            [Entry.file "Keva.txt".toList ⟨"x Keva".toList, true, true⟩]]).log.all
        fun msg => !(isRenameErr msg)) = true) ∧
    ((processDirectory "Keva".toList "XYZ".toList false
        (processDirectory "Keva".toList "XYZ".toList false "KevaRoot".toList
          [Entry.dir "KevaDir".toList
            [Entry.file "Keva.txt".toList ⟨"x Keva".toList, true, true⟩]]).rootName
        (processDirectory "Keva".toList "XYZ".toList false "KevaRoot".toList
          [Entry.dir "KevaDir".toList
            [Entry.file "Keva.txt".toList ⟨"x Keva".toList, true, true⟩]]).tree).modifiedFiles
        = 0 ∧
    (processDirectory "Keva".toList "XYZ".toList false
        (processDirectory "Keva".toList "XYZ".toList false "KevaRoot".toList
          [Entry.dir "KevaDir".toList
            [Entry.file "Keva.txt".toList ⟨"x Keva".toList, true, true⟩]]).rootName
        (processDirectory "Keva".toList "XYZ".toList false "KevaRoot".toList
          [Entry.dir "KevaDir".toList
            [Entry.file "Keva.txt".toList ⟨"x Keva".toList, true, true⟩]]).tree).renamedFiles
        = 0 ∧
    (processDirectory "Keva".toList "XYZ".toList false
        (processDirectory "Keva".toList "XYZ".toList false "KevaRoot".toList
          [Entry.dir "KevaDir".toList
            [Entry.file "Keva.txt".toList ⟨"x Keva".toList, true, true⟩]]).rootName
        (processDirectory "Keva".toList "XYZ".toList false "KevaRoot".toList
          [Entry.dir "KevaDir".toList
            [Entry.file "Keva.txt".toList ⟨"x Keva".toList, true, true⟩]]).tree).renamedDirs
        = 0) :=
  ⟨⟨by decide, by decide, by decide⟩,
    claim_c4_amended "Keva".toList "XYZ".toList "KevaRoot".toList
      [Entry.dir "KevaDir".toList
        [Entry.file "Keva.txt".toList ⟨"x Keva".toList, true, true⟩]]
      (by decide) (by decide) (by decide) (by decide) (by decide)⟩

/-! ## Claim theorems -/

/-- C1 (code bug): because `os.walk` runs with `topdown=False`, the
`dirs[:]` filter at line 56 cannot prune descent, so the contents of a
hidden directory ARE collected into the snapshot and ARE modified and
renamed by an apply run, contrary to the documented pruning: on the tree
`.hidden/Keva.txt` (content `Keva`), the file is in `all_files`, its
content is rewritten, and it is renamed. -/
theorem claim_c1 :
    [".hidden".toList, "Keva.txt".toList] ∈
        collectFiles [Entry.dir ".hidden".toList
          [Entry.file "Keva.txt".toList ⟨"Keva".toList, true, true⟩]] ∧
    (processDirectory "Keva".toList "Respire".toList false "root".toList
        [Entry.dir ".hidden".toList
          [Entry.file "Keva.txt".toList ⟨"Keva".toList, true, true⟩]]).tree =
      [Entry.dir ".hidden".toList
        [Entry.file "Respire.txt".toList ⟨"Respire".toList, true, true⟩]] ∧
    (processDirectory "Keva".toList "Respire".toList false "root".toList
        [Entry.dir ".hidden".toList
          [Entry.file "Keva.txt".toList ⟨"Keva".toList, true, true⟩]]).modifiedFiles = 1 ∧
    (processDirectory "Keva".toList "Respire".toList false "root".toList
        [Entry.dir ".hidden".toList
          [Entry.file "Keva.txt".toList ⟨"Keva".toList, true, true⟩]]).renamedFiles = 1 := by
  refine ⟨by decide, by decide, by decide, by decide⟩

/-- C2 (counterexample): with content `aaa`, old token `aa`, new token
`a`, the claim's side conditions hold (the content contains the old
token; the new token does not contain the old token), yet the rewritten
content `aa` still contains an occurrence of the old token, and the
number of occurrences of the new token in the result (1) differs from
the number of occurrences of the old token in the original (also
counted here for reference).  The content pass really produces `aa`. -/
theorem claim_c2_counterexample :
    containsTok "aa".toList "aaa".toList = true ∧
    containsTok "aa".toList "a".toList = false ∧
    pyReplace "aa".toList "a".toList "aaa".toList = "aa".toList ∧
    countOccs "aa".toList (pyReplace "aa".toList "a".toList "aaa".toList) ≠ 0 ∧
    (contentStep "aa".toList "a".toList false
        ⟨"r".toList, [Entry.file "f.txt".toList ⟨"aaa".toList, true, true⟩], [], 0, 0, 0⟩
        ["f.txt".toList]).tree =
      [Entry.file "f.txt".toList ⟨"aa".toList, true, true⟩] := by
  refine ⟨by decide, by decide, by decide, by decide, by decide⟩

/-- C3 (counterexample): on a tree holding one readable but unwritable
file containing the old token, a dry run reports one would-be-modified
file but an apply run reports zero modified files (the write raises and
`replace_in_file` returns `False`), so the dry-run count does not equal
the apply-run count. -/
theorem claim_c3_counterexample :
    (processDirectory "Keva".toList "Respire".toList true "r".toList
        [Entry.file "a.txt".toList ⟨"Keva".toList, true, false⟩]).modifiedFiles = 1 ∧
    (processDirectory "Keva".toList "Respire".toList false "r".toList
        [Entry.file "a.txt".toList ⟨"Keva".toList, true, false⟩]).modifiedFiles = 0 := by
  refine ⟨by decide, by decide⟩

/-- C4 (counterexample): with old token `aa` and new token `a`, applying
the tool to a file containing `aaa` rewrites it to `aa`, which still
contains the old token, so the second apply run again reports one
modified file instead of zero. -/
theorem claim_c4_counterexample :
    (processDirectory "aa".toList "a".toList false "r".toList
        (processDirectory "aa".toList "a".toList false "r".toList
          [Entry.file "f.txt".toList ⟨"aaa".toList, true, true⟩]).tree).modifiedFiles = 1 := by
  decide

/-- C5 (counterexample): a `.so` file whose name and content both contain
the old token is left entirely unchanged by an apply run — its content is
not modified, but contrary to the claim it is NOT renamed either (the
snapshot filter on line 60 excludes it from `all_files`, which is also
the list the file-rename pass iterates over): the run reports zero
renamed files. -/
theorem claim_c5_counterexample :
    containsTok "Keva".toList "Keva.so".toList = true ∧
    (processDirectory "Keva".toList "Respire".toList false "r".toList
        [Entry.file "Keva.so".toList ⟨"Keva".toList, true, true⟩]).tree =
      [Entry.file "Keva.so".toList ⟨"Keva".toList, true, true⟩] ∧
    (processDirectory "Keva".toList "Respire".toList false "r".toList
        [Entry.file "Keva.so".toList ⟨"Keva".toList, true, true⟩]).renamedFiles = 0 ∧
    (processDirectory "Keva".toList "Respire".toList false "r".toList
        [Entry.file "Keva.so".toList ⟨"Keva".toList, true, true⟩]).modifiedFiles = 0 := by
  refine ⟨by decide, by decide, by decide, by decide⟩

/-- C5 (amended): a file whose name ends in a binary/compiled-artifact
extension is excluded from the traversal snapshot `all_files` altogether;
since both the content pass and the file-rename pass iterate exactly over
`all_files`, such a file's content is never modified AND it is never
renamed (it is not eligible for the rename pass, contrary to the original
claim). -/
theorem claim_c5_amended (cs : List Entry) (p : FsPath)
    (h : hasBinaryExt (lastName p) = true) : p ∉ collectFiles cs := by
  intro hmem
  have hk := collectFiles_keepFileName hmem
  rw [keepFileName, h] at hk
  simp at hk

/-- Witness for C5 (amended) at a concrete input. -/
theorem claim_c5_amended_witness :
    hasBinaryExt (lastName ["Keva.so".toList]) = true ∧
    ["Keva.so".toList] ∉
      collectFiles [Entry.file "Keva.so".toList ⟨"Keva".toList, true, true⟩] :=
  ⟨by decide,
    claim_c5_amended [Entry.file "Keva.so".toList ⟨"Keva".toList, true, true⟩]
      ["Keva.so".toList] (by decide)⟩

/-- C6: when reading a file fails (undecodable or unreadable),
`replace_in_file` prints the `Skipping` diagnostic and returns `False`,
the file and the tree are left unmodified, the counter does not move, and
the content pass continues with the remaining files. -/
theorem claim_c6 (old new : Name) (s : RunState) (p : FsPath) (m : Name) (d : FileData)
    (hl : lookupEntry s.tree p = some (Entry.file m d)) (hread : d.readOk = false) :
    replaceInFile old new p d = (d, false, [Msg.skipping p]) ∧
    contentStep old new false s p = { s with log := s.log ++ [Msg.skipping p] } ∧
    ∀ l : List FsPath, (p :: l).foldl (contentStep old new false) s
      = l.foldl (contentStep old new false) { s with log := s.log ++ [Msg.skipping p] } := by
  have h1 : replaceInFile old new p d = (d, false, [Msg.skipping p]) := by
    simp [replaceInFile, hread]
  have h2 : contentStep old new false s p = { s with log := s.log ++ [Msg.skipping p] } := by
    rw [contentStep, hl]
    simp [h1]
  refine ⟨h1, h2, ?_⟩
  intro l
  rw [List.foldl_cons, h2]

/-- Witness for C6 at a concrete input. -/
theorem claim_c6_witness :
    lookupEntry [Entry.file "a.bin".toList ⟨"Keva".toList, false, true⟩] ["a.bin".toList]
        = some (Entry.file "a.bin".toList ⟨"Keva".toList, false, true⟩) ∧
    (⟨"Keva".toList, false, true⟩ : FileData).readOk = false ∧
    replaceInFile "Keva".toList "Respire".toList ["a.bin".toList] ⟨"Keva".toList, false, true⟩
      = (⟨"Keva".toList, false, true⟩, false, [Msg.skipping ["a.bin".toList]]) := by
  refine ⟨by decide, by decide, ?_⟩
  exact (claim_c6 "Keva".toList "Respire".toList
    ⟨"r".toList, [Entry.file "a.bin".toList ⟨"Keva".toList, false, true⟩], [], 0, 0, 0⟩
    ["a.bin".toList] "a.bin".toList ⟨"Keva".toList, false, true⟩
    (by decide) (by decide)).1

/-- C9: with the default configuration (old and new token both the fixed
literal `Respire`), an apply run changes neither any file content nor any
file, directory or root name: the resulting tree and root name are
exactly the input ones. -/
theorem claim_c9 (rn : Name) (cs : List Entry) :
    (processDirectory defaultToken defaultToken false rn cs).tree = cs ∧
    (processDirectory defaultToken defaultToken false rn cs).rootName = rn :=
  processDirectory_self defaultToken rn cs

/-- C10: in apply mode, whenever a snapshot entry exists at processing
time and its base name contains the old token, the renamed-files
(respectively renamed-directories) counter is incremented by one whether
or not the underlying rename succeeds; in particular when the rename
fails, the tree is unchanged, an error diagnostic is printed, and the
counter still moves — the summary counts attempted renames. -/
theorem claim_c10 (old new : Name) (s : RunState) (p : FsPath)
    (hex : (lookupEntry s.tree p).isSome = true)
    (hname : containsTok old (lastName p) = true) :
    (fileRenameStep old new false s p).renamedFiles = s.renamedFiles + 1 ∧
    (dirRenameStep old new false s p).renamedDirs = s.renamedDirs + 1 ∧
    (renameAt s.tree p (pyReplace old new (lastName p)) = none →
      (fileRenameStep old new false s p).tree = s.tree ∧
      (fileRenameStep old new false s p).log = s.log ++ [Msg.renameError p]) := by
  have hcond : ((lookupEntry s.tree p).isSome && containsTok old (lastName p)) = true := by
    simp [hex, hname]
  refine ⟨?_, ?_, ?_⟩
  · simp only [fileRenameStep, hcond, if_pos]
    simp [(renameItem_fields old new s p).2.2.1]
  · simp only [dirRenameStep, hcond, if_pos]
    simp [(renameItem_fields old new s p).2.2.2]
  · intro hfail
    have hri : renameItem old new s p = { s with log := s.log ++ [Msg.renameError p] } := by
      rw [renameItem]
      simp [hname, hfail]
    simp only [fileRenameStep, hcond, if_pos]
    simp [hri]

/-- Witness for C10 at a concrete input where the rename collides and
fails: the counter still reports one attempted rename. -/
theorem claim_c10_witness :
    (lookupEntry [Entry.file "Keva".toList ⟨[], true, true⟩,
        Entry.file "Respire".toList ⟨[], true, true⟩] ["Keva".toList]).isSome = true ∧
    containsTok "Keva".toList (lastName ["Keva".toList]) = true ∧
    (fileRenameStep "Keva".toList "Respire".toList false
        ⟨"r".toList, [Entry.file "Keva".toList ⟨[], true, true⟩,
          Entry.file "Respire".toList ⟨[], true, true⟩], [], 0, 0, 0⟩
        ["Keva".toList]).renamedFiles = 0 + 1 := by
  refine ⟨by decide, by decide, ?_⟩
  exact (claim_c10 "Keva".toList "Respire".toList
    ⟨"r".toList, [Entry.file "Keva".toList ⟨[], true, true⟩,
      Entry.file "Respire".toList ⟨[], true, true⟩], [], 0, 0, 0⟩
    ["Keva".toList] (by decide) (by decide)).1

/-- C8: if the given path does not exist, `main` prints the error line
and exits with status 1 before any traversal (nothing else is printed and
no run state exists); if it exists, `main` exits with status 0 after the
run has printed the three count summaries and the completion line. -/
theorem claim_c8 (old new : Name) (dry : Bool) (rn : Name) (cs : List Entry) :
    (mainRun none old new dry).1 = 1 ∧
    (mainRun none old new dry).2.1 = [Msg.pathError] ∧
    (mainRun none old new dry).2.2 = none ∧
    (mainRun (some (rn, cs)) old new dry).1 = 0 ∧
    (∃ k, Msg.modifiedSummary k ∈ (mainRun (some (rn, cs)) old new dry).2.1) ∧
    (∃ k, Msg.renamedFilesSummary k ∈ (mainRun (some (rn, cs)) old new dry).2.1) ∧
    (∃ k, Msg.renamedDirsSummary k ∈ (mainRun (some (rn, cs)) old new dry).2.1) ∧
    Msg.processingComplete ∈ (mainRun (some (rn, cs)) old new dry).2.1 := by
  obtain ⟨⟨k₁, h₁⟩, ⟨k₂, h₂⟩, ⟨k₃, h₃⟩⟩ := processDirectory_log_summaries old new dry rn cs
  refine ⟨rfl, rfl, rfl, rfl, ⟨k₁, ?_⟩, ⟨k₂, ?_⟩, ⟨k₃, ?_⟩, ?_⟩ <;>
    simp [mainRun, h₁, h₂, h₃]
